import Mathlib

/-!
Verification development for hammer's `src/cfgrammar.c`: context-free grammar
representation and analysis (nonterminal discovery, epsilon-derivability
fixpoint, FIRST/FOLLOW computation over trie-represented string sets).

The C code is shallowly embedded as executable Lean functions:

* The generic hash-table / hash-set primitives (`h_hashtable_put`,
  `h_hashtable_get`, `h_hashtable_update`, `h_hashset_put`,
  `h_hashset_present`) live in another file of the repository (hashtable.c)
  and are modelled from the spec as identity-keyed association lists: `put`
  replaces the value of an existing key or appends a new entry, `update`
  puts every entry of the source into the destination, and a hash-*set* put
  registers the key with the non-NULL marker value `INSET = (void *)1`
  that `cfgrammar.c` itself defines for set-valued maps.
* Pointers (`HCFChoice *`) are modelled as indices into an arena list
  (`env`); pointer equality becomes index equality.
* `void *` values inside a string map are either the marker `INSET` or a
  pointer to another string map; they are modelled by the type `HSMVal`.
* In-place mutation of a memoized string map is modelled by writing the
  updated value back into the memo table after every mutation step, so
  that reentrant (cyclic) calls observe the partial result exactly as in C.
* `size_t` arithmetic wraps at `2 ^ 64`; the one place where this matters
  (`k - 1` at `k = 0` in the trie-extension recursion) is modelled by
  `sub1_64`.
* Functions whose C original can abort (failed `assert`) or recurse return
  `Option`; `none` models an assertion failure or, for the memoized
  recursions, exhaustion of the explicit fuel that stands in for the call
  stack.  Fuel is consumed only when entering the body of a memoized
  computation (`h_first` / `h_follow`), so a fuel larger than the number of
  missing memo-table entries is provably sufficient.
-/

namespace CFG

/-! ## Hash table model (spec-modelled from hashtable.c's contract) -/

/-- Modelled from the spec: `h_hashtable_get` from hashtable.c (not under
src/), an identity-keyed lookup returning NULL when the key is absent. -/
def htGet {α : Type} : List (Nat × α) → Nat → Option α
  | [], _ => none
  | (a, v) :: r, k => if a = k then some v else htGet r k

/-- Modelled from the spec: `h_hashtable_put` from hashtable.c (not under
src/), an identity-keyed mapping insert that replaces the value of an
existing key and otherwise appends a new entry. -/
def htPut {α : Type} : List (Nat × α) → Nat → α → List (Nat × α)
  | [], k, v => [(k, v)]
  | (a, w) :: r, k, v => if a = k then (k, v) :: r else (a, w) :: htPut r k v

/-- Modelled from the spec: `h_hashtable_update` from hashtable.c (not under
src/): put every entry of the source table into the destination table. -/
def htUpdate {α : Type} (dst src : List (Nat × α)) : List (Nat × α) :=
  src.foldl (fun d p => htPut d p.1 p.2) dst

/-- Modelled from the spec: `h_hashset_present` / `h_hashtable_present`
from hashtable.c (not under src/): key membership, independent of the
stored value. -/
def htPresent {α : Type} (l : List (Nat × α)) (k : Nat) : Bool :=
  (htGet l k).isSome

/-- Modelled from the spec: the `used` field of a hash table: the number of
entries. -/
def htUsed {α : Type} (l : List (Nat × α)) : Nat := l.length

/-! ## String sets (`HCFStringMap`)

A byte-indexed trie.  `epsilon_branch` and `end_branch` carry `void *`
values; `char_branches` maps a byte to a child node.  A stored value is
either the set marker `INSET` or a pointer to another string map (the
trie-extension helpers store sub-maps as epsilon values of fresh nodes). -/

mutual
inductive HSMVal : Type where
  | inset : HSMVal
  | sub : HCFStringMap → HSMVal
inductive HCFStringMap : Type where
  | mk : Option HSMVal → Option HSMVal → List (Nat × HCFStringMap) → HCFStringMap
end

/-- The marker value `INSET = (void *)1` of cfgrammar.c. -/
def INSET : HSMVal := .inset

def HCFStringMap.epsilon_branch : HCFStringMap → Option HSMVal
  | .mk e _ _ => e

def HCFStringMap.end_branch : HCFStringMap → Option HSMVal
  | .mk _ en _ => en

def HCFStringMap.char_branches : HCFStringMap → List (Nat × HCFStringMap)
  | .mk _ _ ch => ch

/-- `h_stringmap_new`: a fresh node with no branches. -/
def h_stringmap_new : HCFStringMap := .mk none none []

/-- `h_stringmap_put_end`. -/
def h_stringmap_put_end (m : HCFStringMap) (v : HSMVal) : HCFStringMap :=
  .mk m.epsilon_branch (some v) m.char_branches

/-- `h_stringmap_put_epsilon`. -/
def h_stringmap_put_epsilon (m : HCFStringMap) (v : HSMVal) : HCFStringMap :=
  .mk (some v) m.end_branch m.char_branches

/-- `h_stringmap_put_char`: create a fresh node carrying `v` on its epsilon
branch and store it as the child for byte `c` (replacing any previous
child). -/
def h_stringmap_put_char (m : HCFStringMap) (c : Nat) (v : HSMVal) : HCFStringMap :=
  .mk m.epsilon_branch m.end_branch
    (htPut m.char_branches c (h_stringmap_put_epsilon h_stringmap_new v))

/-- `h_stringmap_update m n`: copy `n`'s epsilon/end values onto `m` when
present, and put each of `n`'s char branches into `m`'s branch table. -/
def h_stringmap_update (m n : HCFStringMap) : HCFStringMap :=
  .mk (if n.epsilon_branch.isSome then n.epsilon_branch else m.epsilon_branch)
    (if n.end_branch.isSome then n.end_branch else m.end_branch)
    (htUpdate m.char_branches n.char_branches)

/-- `h_stringmap_get m str end`: walk the trie one byte at a time; when the
last byte is reached and `end` is set and the current node has an end
branch, return the end branch without examining that byte; otherwise after
consuming all bytes return the final node's epsilon branch. -/
def h_stringmap_get (m : HCFStringMap) : List Nat → Bool → Option HSMVal
  | [], _ => m.epsilon_branch
  | c :: rest, e =>
    if rest.isEmpty && e && m.end_branch.isSome then m.end_branch
    else
      match htGet m.char_branches c with
      | none => none
      | some m' => h_stringmap_get m' rest e

/-- `h_stringmap_present`. -/
def h_stringmap_present (m : HCFStringMap) (str : List Nat) (e : Bool) : Bool :=
  (h_stringmap_get m str e).isSome

/-- `is_singleton_epsilon`: the set is exactly `{""}`. -/
def is_singleton_epsilon (m : HCFStringMap) : Bool :=
  m.epsilon_branch.isSome && !m.end_branch.isSome && m.char_branches.isEmpty

/-- `any_string_shorter k m`: whether the set contains a string of length
less than `k`: the empty string at this node, or recursively (with `k`
decremented) in some char branch. -/
def any_string_shorter : Nat → HCFStringMap → Bool
  | 0, _ => false
  | k + 1, m =>
    m.epsilon_branch.isSome || m.char_branches.any (fun p => any_string_shorter k p.2)

/-- `size_t` decrement: `k - 1` wrapping at zero (the C code computes
`k - 1` on a `size_t`). -/
def sub1_64 (k : Nat) : Nat :=
  if k = 0 then 2 ^ 64 - 1 else k - 1

/-! ## Symbols and grammars

An `HCFChoice *` is an index into the arena `env`; pointer equality is
index equality.  A `choice` entry holds the list of productions, each a
list of symbol indices. -/

inductive HCFChoiceDef : Type where
  | char : Nat → HCFChoiceDef
  | hend : HCFChoiceDef
  | charset : (Nat → Bool) → HCFChoiceDef
  | choice : List (List Nat) → HCFChoiceDef

/-- The `HCFGrammar` record: symbol arena, start symbol, the `nts`
hash table (symbol ↦ number), the `geneps` hash set (NULL until
`collect_geneps` runs), the lazily allocated `first[k]` / `follow[k]`
memo tables (empty list = NULL), `kmax`, and the shared singleton
epsilon set. -/
structure HCFGrammar : Type where
  env : List HCFChoiceDef
  start : Nat
  nts : List (Nat × Nat)
  geneps : Option (List (Nat × Nat))
  first : List (List (Nat × HCFStringMap))
  follow : List (List (Nat × HCFStringMap))
  kmax : Nat
  singleton_epsilon : HCFStringMap

/-- `g->first[k]`. -/
def firstTab (g : HCFGrammar) (k : Nat) : List (Nat × HCFStringMap) :=
  (g.first.get? k).getD []

/-- `g->follow[k]`. -/
def followTab (g : HCFGrammar) (k : Nat) : List (Nat × HCFStringMap) :=
  (g.follow.get? k).getD []

/-- Write an entry of `g->first[k]` (an in-place trie mutation in C is
modelled by writing the new value back to the table). -/
def putFirst (g : HCFGrammar) (k x : Nat) (m : HCFStringMap) : HCFGrammar :=
  { g with first := g.first.set k (htPut (firstTab g k) x m) }

/-- Write an entry of `g->follow[k]`. -/
def putFollow (g : HCFGrammar) (k x : Nat) (m : HCFStringMap) : HCFGrammar :=
  { g with follow := g.follow.set k (htPut (followTab g k) x m) }

/-- `h_cfgrammar_new`: fresh grammar with empty tables and the singleton
epsilon string set. -/
def h_cfgrammar_new (env : List HCFChoiceDef) : HCFGrammar :=
  { env := env, start := 0, nts := [], geneps := none, first := [], follow := [],
    kmax := 0,
    singleton_epsilon := h_stringmap_put_epsilon h_stringmap_new INSET }

mutual
/-- `collect_nts`: add all nonterminals reachable from `x` to `g.nts`,
numbering them in first-visit DFS order (`value = nts->used` at insertion
time).  Terminals are never added; an already-present symbol returns
immediately.  The C recursion terminates because the visited set grows;
the model uses explicit fuel. -/
def collect_nts (fuel : Nat) (g : HCFGrammar) (x : Nat) : Option HCFGrammar :=
  match fuel with
  | 0 => none
  | fuel + 1 =>
    if htPresent g.nts x then some g
    else
      match g.env.get? x with
      | some (.char _) => some g
      | some .hend => some g
      | some (.charset _) => some g
      | some (.choice prods) =>
        collectNtsProds fuel { g with nts := htPut g.nts x (htUsed g.nts) } prods
      | none => none
/-- Production iteration of `collect_nts`. -/
def collectNtsProds (fuel : Nat) (g : HCFGrammar) (ps : List (List Nat)) :
    Option HCFGrammar :=
  match fuel with
  | 0 => none
  | fuel + 1 =>
    match ps with
    | [] => some g
    | p :: rest =>
      match collectNtsItems fuel g p with
      | none => none
      | some g => collectNtsProds fuel g rest
/-- Item iteration of `collect_nts`. -/
def collectNtsItems (fuel : Nat) (g : HCFGrammar) (s : List Nat) :
    Option HCFGrammar :=
  match fuel with
  | 0 => none
  | fuel + 1 =>
    match s with
    | [] => some g
    | y :: r =>
      match collect_nts fuel g y with
      | none => none
      | some g => collectNtsItems fuel g r
end

/-- `h_derives_epsilon`: terminals never derive epsilon; a nonterminal
derives epsilon iff it is in `g.geneps`.  `none` models the failing
`assert(g->geneps != NULL)`. -/
def h_derives_epsilon (g : HCFGrammar) (x : Nat) : Option Bool :=
  match g.geneps with
  | none => none
  | some genepsSet =>
    match g.env.get? x with
    | some .hend => some false
    | some (.char _) => some false
    | some (.charset _) => some false
    | _ => some (htPresent genepsSet x)

/-- `h_derives_epsilon_seq`: true iff all symbols in the sequence derive
epsilon. -/
def h_derives_epsilon_seq (g : HCFGrammar) : List Nat → Option Bool
  | [] => some true
  | x :: r =>
    match h_derives_epsilon g x with
    | none => none
    | some false => some false
    | some true => h_derives_epsilon_seq g r

/-- One production scan of `collect_geneps`: add `sym` to `g.geneps` (with
the `INSET` marker) as soon as one of its productions derives epsilon. -/
def genepsProds (g : HCFGrammar) (sym : Nat) : List (List Nat) → Option HCFGrammar
  | [] => some g
  | p :: rest =>
    match h_derives_epsilon_seq g p with
    | none => none
    | some true => some { g with geneps := some (htPut (g.geneps.getD []) sym 1) }
    | some false => genepsProds g sym rest

/-- One full pass of `collect_geneps` over `g.nts`.  `none` models the
failing `assert(symbol->type == HCF_CHOICE)`. -/
def genepsSyms (g : HCFGrammar) : List (Nat × Nat) → Option HCFGrammar
  | [] => some g
  | (sym, _) :: rest =>
    match g.env.get? sym with
    | some (.choice prods) =>
      match genepsProds g sym prods with
      | none => none
      | some g => genepsSyms g rest
    | _ => none

/-- The `do … while (used changed)` loop of `collect_geneps`. -/
def genepsLoop (fuel : Nat) (g : HCFGrammar) : Option HCFGrammar :=
  match fuel with
  | 0 => none
  | fuel + 1 =>
    let prevused := htUsed (g.geneps.getD [])
    match genepsSyms g g.nts with
    | none => none
    | some g =>
      if htUsed (g.geneps.getD []) = prevused then some g else genepsLoop fuel g

/-- `collect_geneps`: no-op when already populated; otherwise start from the
empty set and iterate passes to the fixpoint.  The fuel `|nts| + 1` is the
pass bound of the spec; its sufficiency is proved below. -/
def collect_geneps (g : HCFGrammar) : Option HCFGrammar :=
  if g.geneps.isSome then some g
  else genepsLoop (htUsed g.nts + 1) { g with geneps := some [] }

/-- `h_cfgrammar` (with desugaring, an external collaborator, already done:
the desugared root symbol is `root` inside `env`): collect the reachable
nonterminals; if none was found the root is a terminal and is wrapped in a
fresh singleton `HCF_CHOICE` registered via `h_hashset_put` (marker value
`INSET = 1`); finally run `collect_geneps`. -/
def h_cfgrammar_model (nfuel : Nat) (env : List HCFChoiceDef) (root : Nat) :
    Option HCFGrammar :=
  match collect_nts nfuel (h_cfgrammar_new env) root with
  | none => none
  | some g =>
    let g :=
      if g.nts.isEmpty then
        { g with env := g.env ++ [.choice [[root]]],
                 nts := htPut g.nts g.env.length 1,
                 start := g.env.length }
      else { g with start := root }
    collect_geneps g

/-- `ensure_k`: grow the `first` / `follow` tables to cover `k`.  Only
`k ≤ 1` is supported; `k ≥ 2` fails the `assert(k == 1)`, modelled by
`none`. -/
def ensure_k (g : HCFGrammar) (k : Nat) : Option HCFGrammar :=
  if k ≤ g.kmax then some g
  else if k = 1 then
    some { g with first := [[], []], follow := [[], []], kmax := 1 }
  else none

/-! ## FIRST_k

`h_first` is memoized in `g.first[k]`: on a miss an empty placeholder is
stored under the key before any recursion, every in-place union onto the
result is written back to the table, and a reentrant call on the same key
returns the current table entry.  Every function of the block consumes
one unit of fuel on entry (fuel stands in for the C call stack), so the
recursion is structural in the fuel and evaluates by reduction. -/

mutual
/-- `h_first k g x`: the FIRST_k set of symbol `x`. -/
def h_first (fuel k : Nat) (g : HCFGrammar) (x : Nat) :
    Option (HCFStringMap × HCFGrammar) :=
  match fuel with
  | 0 => none
  | fuel + 1 =>
    if k = 0 then some (g.singleton_epsilon, g)
    else
      match ensure_k g k with
      | none => none
      | some g =>
        match htGet (firstTab g k) x with
        | some ret => some (ret, g)
        | none =>
          let g1 := putFirst g k x h_stringmap_new
          match g1.env.get? x with
          | some .hend =>
            let ret := h_stringmap_put_end h_stringmap_new INSET
            some (ret, putFirst g1 k x ret)
          | some (.char c) =>
            let ret := h_stringmap_put_char h_stringmap_new c INSET
            some (ret, putFirst g1 k x ret)
          | some (.charset cs) =>
            let ret := (List.range 256).foldl
              (fun r c => if cs c then h_stringmap_put_char r c INSET else r)
              h_stringmap_new
            some (ret, putFirst g1 k x ret)
          | some (.choice prods) => firstProds fuel k g1 x prods h_stringmap_new
          | none => none
termination_by structural fuel
/-- The production loop of `h_first` on a nonterminal: union the FIRST set
of each production into the memo entry of `x` (written back after each
union, as the C code mutates the entry in place). -/
def firstProds (fuel k : Nat) (g : HCFGrammar) (x : Nat) (ps : List (List Nat))
    (ret : HCFStringMap) : Option (HCFStringMap × HCFGrammar) :=
  match fuel with
  | 0 => none
  | fuel + 1 =>
    match ps with
    | [] => some (ret, g)
    | p :: rest =>
      match h_first_seq fuel k g p with
      | none => none
      | some (fs, g) =>
        let ret := h_stringmap_update ret fs
        firstProds fuel k (putFirst g k x ret) x rest ret
termination_by structural fuel
/-- `h_first_seq k g s`: the FIRST_k set of a sentential form. -/
def h_first_seq (fuel k : Nat) (g : HCFGrammar) (s : List Nat) :
    Option (HCFStringMap × HCFGrammar) :=
  match fuel with
  | 0 => none
  | fuel + 1 =>
    match s with
    | [] => some (g.singleton_epsilon, g)
    | x :: tail =>
      match h_first fuel k g x with
      | none => none
      | some (first_x, g) =>
        if is_singleton_epsilon first_x then h_first_seq fuel k g tail
        else if ! any_string_shorter k first_x then some (first_x, g)
        else first_extend fuel k g first_x tail h_stringmap_new
termination_by structural fuel
/-- `first_extend`: add `{ a b | a ∈ as, b ∈ FIRST_(k-|a|)(tail) }` to
`ret`.  At the epsilon branch `FIRST_k(tail)` is unioned in; the end
branch is copied through; for each char branch a fresh sub-result is
built by recursion with `k - 1` (size_t arithmetic) and stored via
`h_stringmap_put_char`, which wraps it as the epsilon value of a new
child node. -/
def first_extend (fuel k : Nat) (g : HCFGrammar) (as : HCFStringMap)
    (tail : List Nat) (ret : HCFStringMap) : Option (HCFStringMap × HCFGrammar) :=
  match fuel with
  | 0 => none
  | fuel + 1 =>
    match as with
    | .mk aeps aend acl =>
      match
        (match aeps with
         | some _ =>
           match h_first_seq fuel k g tail with
           | none => none
           | some (fs, g) => some (h_stringmap_update ret fs, g)
         | none => some (ret, g))
      with
      | none => none
      | some (ret, g) =>
        let ret :=
          match aend with
          | some _ => h_stringmap_put_end ret INSET
          | none => ret
        extendChildren fuel k g acl tail ret
termination_by structural fuel
/-- The char-branch loop of `first_extend`. -/
def extendChildren (fuel k : Nat) (g : HCFGrammar)
    (cl : List (Nat × HCFStringMap)) (tail : List Nat) (ret : HCFStringMap) :
    Option (HCFStringMap × HCFGrammar) :=
  match fuel with
  | 0 => none
  | fuel + 1 =>
    match cl with
    | [] => some (ret, g)
    | (c, as_) :: rest =>
      match first_extend fuel (sub1_64 k) g as_ tail h_stringmap_new with
      | none => none
      | some (ret_, g) =>
        extendChildren fuel k g rest tail (h_stringmap_put_char ret c (.sub ret_))
termination_by structural fuel
end

/-! ## FOLLOW_k

`h_follow` is memoized in `g.follow[k]` with the same
placeholder-before-recursion strategy; the result set (the live table
entry in C) is written back after every in-place mutation.
`stringset_extend` is `first_extend` with the function argument
`f = h_follow_` applied to the production's left-hand symbol `a`. -/

mutual
/-- `h_follow k g x`: the FOLLOW_k set of symbol `x`. -/
def h_follow (fuel k : Nat) (g : HCFGrammar) (x : Nat) :
    Option (HCFStringMap × HCFGrammar) :=
  match fuel with
  | 0 => none
  | fuel + 1 =>
    if k = 0 then some (g.singleton_epsilon, g)
    else
      match ensure_k g k with
      | none => none
      | some g =>
        match htGet (followTab g k) x with
        | some ret => some (ret, g)
        | none =>
          let g := putFollow g k x h_stringmap_new
          let ret :=
            if x = g.start then h_stringmap_put_end h_stringmap_new INSET
            else h_stringmap_new
          let g := putFollow g k x ret
          followNts fuel k g x g.nts ret
termination_by structural fuel
/-- Iteration over all grammar nonterminals `a` in `h_follow`; `none`
models the failing `assert(a->type == HCF_CHOICE)`. -/
def followNts (fuel k : Nat) (g : HCFGrammar) (x : Nat)
    (l : List (Nat × Nat)) (ret : HCFStringMap) :
    Option (HCFStringMap × HCFGrammar) :=
  match fuel with
  | 0 => none
  | fuel + 1 =>
    match l with
    | [] => some (ret, g)
    | (a, _) :: rest =>
      match g.env.get? a with
      | some (.choice prods) =>
        match followProds fuel k g x a prods ret with
        | none => none
        | some (ret, g) => followNts fuel k g x rest ret
      | _ => none
termination_by structural fuel
/-- Iteration over the productions of `a` in `h_follow`. -/
def followProds (fuel k : Nat) (g : HCFGrammar) (x a : Nat)
    (ps : List (List Nat)) (ret : HCFStringMap) :
    Option (HCFStringMap × HCFGrammar) :=
  match fuel with
  | 0 => none
  | fuel + 1 =>
    match ps with
    | [] => some (ret, g)
    | p :: rest =>
      match followOcc fuel k g x a p ret with
      | none => none
      | some (ret, g) => followProds fuel k g x a rest ret
termination_by structural fuel
/-- Scan of one production for occurrences of `x`: at each occurrence,
extend `FIRST_k(tail)` by `FOLLOW(a)` into the memo entry of `x` (written
back after the in-place mutation). -/
def followOcc (fuel k : Nat) (g : HCFGrammar) (x a : Nat)
    (s : List Nat) (ret : HCFStringMap) :
    Option (HCFStringMap × HCFGrammar) :=
  match fuel with
  | 0 => none
  | fuel + 1 =>
    match s with
    | [] => some (ret, g)
    | y :: tail =>
      if y = x then
        match h_first_seq fuel k g tail with
        | none => none
        | some (first_tail, g) =>
          match stringset_extend fuel k g first_tail a ret with
          | none => none
          | some (ret, g) => followOcc fuel k (putFollow g k x ret) x a tail ret
      else followOcc fuel k g x a tail ret
termination_by structural fuel
/-- `stringset_extend`: add `{ a b | a ∈ as, b ∈ f_(k-|a|)(S) }` to `ret`
with `f = h_follow_` and `S = a` (the only instantiation in the source). -/
def stringset_extend (fuel k : Nat) (g : HCFGrammar) (as : HCFStringMap)
    (a : Nat) (ret : HCFStringMap) : Option (HCFStringMap × HCFGrammar) :=
  match fuel with
  | 0 => none
  | fuel + 1 =>
    match as with
    | .mk aeps aend acl =>
      match
        (match aeps with
         | some _ =>
           match h_follow fuel k g a with
           | none => none
           | some (fs, g) => some (h_stringmap_update ret fs, g)
         | none => some (ret, g))
      with
      | none => none
      | some (ret, g) =>
        let ret :=
          match aend with
          | some _ => h_stringmap_put_end ret INSET
          | none => ret
        sseChildren fuel k g acl a ret
termination_by structural fuel
/-- The char-branch loop of `stringset_extend`. -/
def sseChildren (fuel k : Nat) (g : HCFGrammar)
    (cl : List (Nat × HCFStringMap)) (a : Nat) (ret : HCFStringMap) :
    Option (HCFStringMap × HCFGrammar) :=
  match fuel with
  | 0 => none
  | fuel + 1 =>
    match cl with
    | [] => some (ret, g)
    | (c, as_) :: rest =>
      match stringset_extend fuel (sub1_64 k) g as_ a h_stringmap_new with
      | none => none
      | some (ret_, g) =>
        sseChildren fuel k g rest a (h_stringmap_put_char ret c (.sub ret_))
termination_by structural fuel
end

/-! ## Derived notions used by the statements -/

/-- Walk the char branches of a trie along a byte string (the node reached
after consuming the bytes, if any). -/
def smWalk (m : HCFStringMap) : List Nat → Option HCFStringMap
  | [] => some m
  | c :: r =>
    match htGet m.char_branches c with
    | none => none
    | some m' => smWalk m' r

/-- Every char child of the node is a leaf carrying an epsilon value: the
shape of every child node this module ever creates
(`h_stringmap_put_char` wraps each stored value in exactly such a leaf,
and `h_stringmap_update` only copies such children). -/
def SMLeafChildren (m : HCFStringMap) : Prop :=
  ∀ p ∈ m.char_branches, ∃ v, p.2 = HCFStringMap.mk (some v) none []

/-- Counterexample set `A = {"a"}`, built with the module's own
`h_stringmap_put_char`. -/
def cexA : HCFStringMap := h_stringmap_put_char h_stringmap_new 97 INSET

/-- Counterexample set `B = {"a" · End}`: a trie whose child for byte
`'a'` carries only an end branch. -/
def cexB : HCFStringMap :=
  .mk none none [(97, HCFStringMap.mk none (some INSET) [])]

/-- The set `{"b"}`, built with the module's own `h_stringmap_put_char`. -/
def cexC : HCFStringMap := h_stringmap_put_char h_stringmap_new 98 INSET

/-- A symbol derives epsilon with respect to a set `P` of nonterminals:
`End` / `Char` / `CharSet` never derive epsilon, everything else by
membership in `P` (mirroring the `default` branch of
`h_derives_epsilon`). -/
def symbolDerivesEpsP (env : List HCFChoiceDef) (P : Nat → Bool) (y : Nat) : Bool :=
  match env.get? y with
  | some (.char _) => false
  | some .hend => false
  | some (.charset _) => false
  | _ => P y

/-- The nonterminal `N` has a production all of whose symbols derive
epsilon with respect to `P`. -/
def ntHasEpsProdP (env : List HCFChoiceDef) (P : Nat → Bool) (N : Nat) : Bool :=
  match env.get? N with
  | some (.choice ps) => ps.any (fun p => p.all (symbolDerivesEpsP env P))
  | _ => false

/-- `P` satisfies the epsilon-derivation fixpoint equation for `g`:
`P N` holds iff `N` is one of the grammar's nonterminals and some
production of `N` has every symbol deriving epsilon w.r.t. `P`. -/
def EpsFixpointP (g : HCFGrammar) (P : Nat → Bool) : Prop :=
  ∀ N, P N = (htPresent g.nts N && ntHasEpsProdP g.env P N)

/-- Every stored hash-table value is the marker 1 (`INSET`): the shape of
a hash set. -/
def AllOnes (E : List (Nat × Nat)) : Prop := ∀ p ∈ E, p.2 = 1

/-- The keys of a hash table are not duplicated (every table built by
`htPut` has this shape). -/
def htNodupKeys {α : Type} (l : List (Nat × α)) : Prop := (l.map Prod.fst).Nodup

/-- Every registered nonterminal of `g` is a `choice` symbol (the property
asserted by the iteration loops of `collect_geneps` and `h_follow`). -/
def NtsChoice (g : HCFGrammar) : Prop :=
  ∀ p ∈ g.nts, ∃ ps, g.env.get? p.1 = some (.choice ps)

/-- The grammar `S → "a" S "b" | ε` (env index 0 is S, 1 is `'a'`, 2 is
`'b'`) right after nonterminal discovery, before `collect_geneps`. -/
def gEpsPre : HCFGrammar :=
  { h_cfgrammar_new [.choice [[1, 0, 2], []], .char 97, .char 98] with
    nts := [(0, 0)] }

/-- The symbol arena of the grammar `S → "a" S "b" | ε` (spec scenario 2):
index 0 is S, 1 is `'a'` (97), 2 is `'b'` (98). -/
def env_aSb : List HCFChoiceDef := [.choice [[1, 0, 2], []], .char 97, .char 98]

/-- The constructed grammar of scenario 2. -/
def g_aSb : HCFGrammar := (h_cfgrammar_model 20 env_aSb 0).getD (h_cfgrammar_new [])

/-- The computed `FIRST(1, S)` of scenario 2. -/
def first_aSb : HCFStringMap :=
  ((h_first 50 1 g_aSb 0).map Prod.fst).getD h_stringmap_new

/-- The computed `FOLLOW(1, S)` of scenario 2. -/
def follow_aSb : HCFStringMap :=
  ((h_follow 50 1 g_aSb 0).map Prod.fst).getD h_stringmap_new

/-- The grammar state after the scenario-2 `FIRST(1, S)` computation. -/
def gFst_aSb : HCFGrammar :=
  ((h_first 50 1 g_aSb 0).map Prod.snd).getD (h_cfgrammar_new [])

/-- The grammar state after the scenario-2 `FOLLOW(1, S)` computation. -/
def gFol_aSb : HCFGrammar :=
  ((h_follow 50 1 g_aSb 0).map Prod.snd).getD (h_cfgrammar_new [])

/-- `FIRST_1` of the sequence `S "b"` rest in the state after `FIRST(1, S)`. -/
def seqB_aSb : HCFStringMap :=
  ((h_first_seq 50 1 gFst_aSb [2]).map Prod.fst).getD h_stringmap_new

/-- The grammar state after that rest-sequence computation. -/
def gSeqB_aSb : HCFGrammar :=
  ((h_first_seq 50 1 gFst_aSb [2]).map Prod.snd).getD (h_cfgrammar_new [])

/-- `FIRST_1` of the whole sequence `S "b"` computed from the fresh
scenario-2 grammar. -/
def retC1_aSb : HCFStringMap :=
  ((h_first_seq 52 1 g_aSb [0, 2]).map Prod.fst).getD h_stringmap_new

/-- The grammar state after the whole-sequence computation. -/
def gC1_aSb : HCFGrammar :=
  ((h_first_seq 52 1 g_aSb [0, 2]).map Prod.snd).getD (h_cfgrammar_new [])

/-- Well-formed string set as built by this module: every char child is an
epsilon-carrying leaf. -/
def SMWF (m : HCFStringMap) : Prop := SMLeafChildren m

/-- The grammar fields not owned by the FIRST/FOLLOW memo tables are
unchanged. -/
def EnvEq (g g' : HCFGrammar) : Prop :=
  g'.env = g.env ∧ g'.start = g.start ∧ g'.nts = g.nts ∧
  g'.geneps = g.geneps ∧ g'.singleton_epsilon = g.singleton_epsilon

/-- Well-formedness of a grammar state for the FIRST/FOLLOW engines:
`kmax ≤ 1` (only `k = 1` can ever be allocated), tables consistent with
`kmax`, the shared singleton epsilon set has its construction shape, and
every memoized set is well formed. -/
def WFG (g : HCFGrammar) : Prop :=
  g.kmax ≤ 1 ∧
  (g.kmax = 0 → g.first = [] ∧ g.follow = []) ∧
  (g.kmax = 1 → g.first.length = 2 ∧ g.follow.length = 2) ∧
  g.singleton_epsilon = h_stringmap_put_epsilon h_stringmap_new INSET ∧
  (∀ p ∈ firstTab g 1, SMWF p.2) ∧
  (∀ p ∈ followTab g 1, SMWF p.2)

/-- End flags of memoized FOLLOW sets only ever grow: every entry stays
present and its End flag is never cleared. -/
def FollowEndMono (g g' : HCFGrammar) : Prop :=
  ∀ z m, htGet (followTab g 1) z = some m →
    ∃ m', htGet (followTab g' 1) z = some m' ∧
      (m.end_branch.isSome = true → m'.end_branch.isSome = true)

/-- The memoized FOLLOW set of the start symbol, whenever present, carries
the End flag (true of every state the engine produces). -/
def StartEndInv (g : HCFGrammar) : Prop :=
  ∀ m, htGet (followTab g 1) g.start = some m → m.end_branch.isSome = true

/-- The FOLLOW memo tables are untouched (entry-wise) between two states:
what the FIRST side of the engine guarantees. -/
def FolEq (g g' : HCFGrammar) : Prop :=
  ∀ j y, htGet (followTab g' j) y = htGet (followTab g j) y

/-- Every symbol index appearing in a choice's productions is a valid
arena index (below `n`). -/
def prodsClosed (n : Nat) (d : HCFChoiceDef) : Bool :=
  match d with
  | .choice ps => ps.all (fun p => p.all (fun y => y < n))
  | _ => true

/-- The symbol arena is closed: every production symbol of every choice is
a valid arena index (in C, every `HCFChoice *` in a sequence points at a
real object). -/
def envClosed (g : HCFGrammar) : Bool :=
  g.env.all (fun d => prodsClosed g.env.length d)

/-- The number of symbols whose `FIRST_1` memo entry is still missing: the
termination measure of `h_first`. -/
def missingF (g : HCFGrammar) : Nat :=
  (List.range g.env.length).countP (fun x => Bool.not (htPresent (firstTab g 1) x))

/-- The number of symbols whose `FOLLOW_1` memo entry is still missing: the
termination measure of `h_follow`. -/
def missingFol (g : HCFGrammar) : Nat :=
  (List.range g.env.length).countP (fun x => Bool.not (htPresent (followTab g 1) x))

/-! ## Hash table lemmas -/

theorem htGet_put {α : Type} (l : List (Nat × α)) (k c : Nat) (v : α) :
    htGet (htPut l k v) c = if k = c then some v else htGet l c := by
  induction l with
  | nil => rfl
  | cons p r ih =>
    obtain ⟨a, w⟩ := p
    by_cases hak : a = k
    · subst hak
      simp only [htPut, if_pos rfl, htGet]
      by_cases hac : a = c <;> simp [hac]
    · simp only [htPut, if_neg hak, htGet]
      by_cases hac : a = c
      · subst hac
        have hka : k ≠ a := fun h => hak h.symm
        simp [hka]
      · simp [hac, ih]

theorem htUpdate_nil {α : Type} (a : List (Nat × α)) : htUpdate a [] = a := rfl

theorem htUpdate_cons {α : Type} (a : List (Nat × α)) (p : Nat × α)
    (r : List (Nat × α)) : htUpdate a (p :: r) = htUpdate (htPut a p.1 p.2) r := rfl

theorem htGet_update_isSome {α : Type} (b a : List (Nat × α)) (c : Nat) :
    (htGet (htUpdate a b) c).isSome
      = ((htGet a c).isSome || (htGet b c).isSome) := by
  induction b generalizing a with
  | nil => simp [htUpdate_nil, htGet]
  | cons p r ih =>
    obtain ⟨k, v⟩ := p
    rw [htUpdate_cons, ih, htGet_put]
    by_cases hkc : k = c
    · subst hkc
      simp [htGet]
    · simp [htGet, hkc]

theorem mem_htPut {α : Type} (l : List (Nat × α)) (k : Nat) (v : α) :
    ∀ p ∈ htPut l k v, p ∈ l ∨ p = (k, v) := by
  induction l with
  | nil =>
    intro p hp
    right
    simpa [htPut] using hp
  | cons q r ih =>
    obtain ⟨a, w⟩ := q
    intro p hp
    by_cases hak : a = k
    · subst hak
      simp only [htPut, if_pos rfl] at hp
      rcases List.mem_cons.mp hp with h | h
      · right; exact h
      · left; exact List.mem_cons_of_mem _ h
    · simp only [htPut, if_neg hak] at hp
      rcases List.mem_cons.mp hp with h | h
      · left; exact h ▸ List.mem_cons_self _ _
      · rcases ih p h with h' | h'
        · left; exact List.mem_cons_of_mem _ h'
        · right; exact h'

theorem mem_htUpdate {α : Type} (b a : List (Nat × α)) :
    ∀ p ∈ htUpdate a b, p ∈ a ∨ p ∈ b := by
  induction b generalizing a with
  | nil => intro p hp; left; simpa [htUpdate_nil] using hp
  | cons q r ih =>
    intro p hp
    rw [htUpdate_cons] at hp
    rcases ih _ p hp with h | h
    · rcases mem_htPut _ _ _ p h with h' | h'
      · left; exact h'
      · right
        rw [h']
        exact List.mem_cons_self _ _
    · right; exact List.mem_cons_of_mem _ h

/-! ## String map lemmas -/

theorem get_nil (m : HCFStringMap) (e : Bool) :
    h_stringmap_get m [] e = m.epsilon_branch := rfl

theorem get_single (m : HCFStringMap) (c : Nat) (e : Bool) :
    h_stringmap_get m [c] e
      = if e && m.end_branch.isSome then m.end_branch
        else (htGet m.char_branches c).bind HCFStringMap.epsilon_branch := by
  show (if List.isEmpty [] && e && m.end_branch.isSome then m.end_branch else _) = _
  by_cases h : e && m.end_branch.isSome
  · simp [h]
  · simp only [List.isEmpty_nil, Bool.true_and, h, if_false]
    cases htGet m.char_branches c with
    | none => rfl
    | some m' => rfl

theorem get_cons_cons (m : HCFStringMap) (c d : Nat) (r : List Nat) (e : Bool) :
    h_stringmap_get m (c :: d :: r) e
      = match htGet m.char_branches c with
        | none => none
        | some m' => h_stringmap_get m' (d :: r) e := by
  show (if List.isEmpty (d :: r) && e && m.end_branch.isSome then m.end_branch else _) = _
  simp [List.isEmpty]

theorem get_append_last (pre : List Nat) (m : HCFStringMap) (c : Nat) (e : Bool) :
    h_stringmap_get m (pre ++ [c]) e
      = match smWalk m pre with
        | none => none
        | some nd =>
          if e && nd.end_branch.isSome then nd.end_branch
          else (htGet nd.char_branches c).bind HCFStringMap.epsilon_branch := by
  induction pre generalizing m with
  | nil => simpa [smWalk] using get_single m c e
  | cons a pre ih =>
    show h_stringmap_get m (a :: (pre ++ [c])) e = _
    rcases pre with _ | ⟨d, r⟩
    · rw [show ([] : List Nat) ++ [c] = [c] from rfl] at *
      rw [get_cons_cons m a c [] e]
      simp only [smWalk]
      cases htGet m.char_branches a with
      | none => rfl
      | some m' => simpa [smWalk] using ih m'
    · rw [show (d :: r) ++ [c] = d :: (r ++ [c]) from rfl] at *
      rw [get_cons_cons m a d (r ++ [c]) e]
      simp only [smWalk]
      cases htGet m.char_branches a with
      | none => rfl
      | some m' => exact ih m'

theorem smWalk_append (pre post : List Nat) (m : HCFStringMap) :
    smWalk m (pre ++ post) = (smWalk m pre).bind (fun nd => smWalk nd post) := by
  induction pre generalizing m with
  | nil => rfl
  | cons a pre ih =>
    show smWalk m (a :: (pre ++ post)) = _
    simp only [smWalk]
    cases htGet m.char_branches a with
    | none => rfl
    | some m' => exact ih m'

theorem htGet_mem {α : Type} (l : List (Nat × α)) (c : Nat) (v : α)
    (h : htGet l c = some v) : (c, v) ∈ l := by
  induction l with
  | nil => simp [htGet] at h
  | cons p r ih =>
    obtain ⟨a, w⟩ := p
    by_cases hac : a = c
    · subst hac
      have h' : w = v := by simpa [htGet] using h
      subst h'
      exact List.mem_cons_self _ _
    · simp only [htGet, if_neg hac] at h
      exact List.mem_cons_of_mem _ (ih h)

theorem present_nil (m : HCFStringMap) (e : Bool) :
    h_stringmap_present m [] e = m.epsilon_branch.isSome := rfl

theorem present_single (m : HCFStringMap) (c : Nat) (e : Bool) :
    h_stringmap_present m [c] e
      = ((e && m.end_branch.isSome)
          || ((htGet m.char_branches c).bind HCFStringMap.epsilon_branch).isSome) := by
  unfold h_stringmap_present
  rw [get_single]
  cases e with
  | false => simp
  | true =>
    cases hend : m.end_branch with
    | none => simp [hend]
    | some w => simp [hend]

theorem get_leaf_cons (w : Option HSMVal) (d : Nat) (r : List Nat) (e : Bool) :
    h_stringmap_get (HCFStringMap.mk w none []) (d :: r) e = none := by
  cases r with
  | nil =>
    rw [get_single]
    simp [HCFStringMap.end_branch, HCFStringMap.char_branches, htGet]
  | cons d' r' =>
    rw [get_cons_cons]
    simp [HCFStringMap.char_branches, htGet]

theorem present_cons_cons_leaf (m : HCFStringMap) (h : SMLeafChildren m)
    (c d : Nat) (r : List Nat) (e : Bool) :
    h_stringmap_present m (c :: d :: r) e = false := by
  unfold h_stringmap_present
  rw [get_cons_cons]
  cases hg : htGet m.char_branches c with
  | none => rfl
  | some m' =>
    obtain ⟨v, hv⟩ := h _ (htGet_mem _ _ _ hg)
    simp only at hv
    show (h_stringmap_get m' (d :: r) e).isSome = false
    rw [hv, get_leaf_cons]
    rfl

theorem bind_eps_isSome_leaf (m : HCFStringMap) (h : SMLeafChildren m) (c : Nat) :
    ((htGet m.char_branches c).bind HCFStringMap.epsilon_branch).isSome
      = (htGet m.char_branches c).isSome := by
  cases hg : htGet m.char_branches c with
  | none => rfl
  | some m' =>
    obtain ⟨v, hv⟩ := h _ (htGet_mem _ _ _ hg)
    simp only at hv
    show m'.epsilon_branch.isSome = true
    rw [hv]
    rfl

theorem leafChildren_update (A B : HCFStringMap)
    (hA : SMLeafChildren A) (hB : SMLeafChildren B) :
    SMLeafChildren (h_stringmap_update A B) := by
  intro p hp
  have hp' : p ∈ htUpdate A.char_branches B.char_branches := by
    simpa [h_stringmap_update, HCFStringMap.char_branches] using hp
  rcases mem_htUpdate _ _ p hp' with h | h
  · exact hA p h
  · exact hB p h

theorem bool_or_shuffle (e a b x y : Bool) :
    ((e && (a || b)) || (x || y)) = ((e && a || x) || (e && b || y)) := by
  cases e <;> cases a <;> cases b <;> cases x <;> cases y <;> rfl

theorem update_epsilon (A B : HCFStringMap) :
    (h_stringmap_update A B).epsilon_branch
      = (if B.epsilon_branch.isSome then B.epsilon_branch else A.epsilon_branch) := rfl

theorem update_end (A B : HCFStringMap) :
    (h_stringmap_update A B).end_branch
      = (if B.end_branch.isSome then B.end_branch else A.end_branch) := rfl

theorem update_char_branches (A B : HCFStringMap) :
    (h_stringmap_update A B).char_branches
      = htUpdate A.char_branches B.char_branches := rfl

theorem present_update_leaf (A B : HCFStringMap)
    (hA : SMLeafChildren A) (hB : SMLeafChildren B) (s : List Nat) (e : Bool) :
    h_stringmap_present (h_stringmap_update A B) s e
      = (h_stringmap_present A s e || h_stringmap_present B s e) := by
  match s with
  | [] =>
    rw [present_nil, present_nil, present_nil, update_epsilon]
    cases B.epsilon_branch <;> cases A.epsilon_branch <;> simp
  | [c] =>
    rw [present_single, present_single, present_single, update_end,
      update_char_branches]
    have h1 : ((htGet (htUpdate A.char_branches B.char_branches) c).bind
        HCFStringMap.epsilon_branch).isSome
        = ((htGet A.char_branches c).isSome || (htGet B.char_branches c).isSome) := by
      have h0 := bind_eps_isSome_leaf _ (leafChildren_update A B hA hB) c
      rw [update_char_branches] at h0
      rw [h0, htGet_update_isSome]
    rw [h1, bind_eps_isSome_leaf _ hA c, bind_eps_isSome_leaf _ hB c]
    have hend : (if B.end_branch.isSome then B.end_branch else A.end_branch).isSome
        = (A.end_branch.isSome || B.end_branch.isSome) := by
      cases B.end_branch <;> cases A.end_branch <;> simp
    rw [hend]
    exact bool_or_shuffle e _ _ _ _
  | c :: d :: r =>
    rw [present_cons_cons_leaf _ (leafChildren_update A B hA hB),
      present_cons_cons_leaf _ hA, present_cons_cons_leaf _ hB]
    rfl

theorem leafChildren_cexA : SMLeafChildren cexA := by
  intro p hp
  simp only [cexA, h_stringmap_put_char, h_stringmap_new,
    HCFStringMap.char_branches, htPut, List.mem_singleton] at hp
  subst hp
  exact ⟨INSET, rfl⟩

theorem leafChildren_cexC : SMLeafChildren cexC := by
  intro p hp
  simp only [cexC, h_stringmap_put_char, h_stringmap_new,
    HCFStringMap.char_branches, htPut, List.mem_singleton] at hp
  subst hp
  exact ⟨INSET, rfl⟩

/-- C9: the end flag is only consulted when exactly one byte of the query
remains.  For every trie `m`: a zero-length `h_stringmap_get` returns the
epsilon branch for both values of `end` (End membership is unobservable
through it); for a query of length `n ≥ 1` with `end = true`, if the node
reached after the first `n - 1` bytes has an end branch, its value is
returned without the final byte ever being examined (the result is the
same for any final byte); otherwise the walk consumes all `n` bytes and
returns the final node's epsilon branch. -/
theorem claim_get_end_semantics (m : HCFStringMap) :
    (∀ e, h_stringmap_get m [] e = m.epsilon_branch) ∧
    (∀ pre c c' nd, smWalk m pre = some nd → nd.end_branch.isSome →
      h_stringmap_get m (pre ++ [c]) true = nd.end_branch ∧
      h_stringmap_get m (pre ++ [c]) true = h_stringmap_get m (pre ++ [c']) true) ∧
    (∀ pre c e,
      (e = false ∨ ∀ nd, smWalk m pre = some nd → nd.end_branch = none) →
      h_stringmap_get m (pre ++ [c]) e
        = (smWalk m (pre ++ [c])).bind HCFStringMap.epsilon_branch) := by
  refine ⟨fun e => rfl, ?_, ?_⟩
  · intro pre c c' nd hw hend
    have h1 : h_stringmap_get m (pre ++ [c]) true = nd.end_branch := by
      rw [get_append_last, hw]
      simp [hend]
    have h2 : h_stringmap_get m (pre ++ [c']) true = nd.end_branch := by
      rw [get_append_last, hw]
      simp [hend]
    exact ⟨h1, h1.trans h2.symm⟩
  · intro pre c e hyp
    rw [get_append_last, smWalk_append]
    cases hw : smWalk m pre with
    | none => rfl
    | some nd =>
      have hcond : (e && nd.end_branch.isSome) = false := by
        rcases hyp with h | h
        · rw [h]; rfl
        · rw [h nd hw]; simp
      show (if (e && nd.end_branch.isSome) = true then nd.end_branch
            else (htGet nd.char_branches c).bind HCFStringMap.epsilon_branch)
          = ((some nd).bind fun nd => smWalk nd [c]).bind HCFStringMap.epsilon_branch
      rw [if_neg (by simp [hcond])]
      show (htGet nd.char_branches c).bind HCFStringMap.epsilon_branch
          = (smWalk nd [c]).bind HCFStringMap.epsilon_branch
      simp only [smWalk]
      cases hg : htGet nd.char_branches c with
      | none => rfl
      | some m' => rfl

/-- C9 witness: the three parts of `claim_get_end_semantics` instantiated
on a concrete trie, with all hypotheses discharged on concrete inputs. -/
theorem claim_get_end_semantics_witness :
    h_stringmap_get cexB [97, 5] true = some INSET ∧
    h_stringmap_get cexB [97, 5] true = h_stringmap_get cexB [97, 200] true ∧
    h_stringmap_get cexB [97] false = (smWalk cexB [97]).bind HCFStringMap.epsilon_branch :=
  ⟨((claim_get_end_semantics cexB).2.1 [97] 5 200
      (HCFStringMap.mk none (some INSET) []) rfl rfl).1,
   ((claim_get_end_semantics cexB).2.1 [97] 5 200
      (HCFStringMap.mk none (some INSET) []) rfl rfl).2,
   (claim_get_end_semantics cexB).2.2 [] 97 false (Or.inl rfl)⟩

/-- C10: `h_stringmap_put_char m c v` is a replacing write: afterwards the
epsilon flag, end flag and the branches for all other bytes are unchanged,
the child for byte `c` is a fresh leaf binding the one-byte string `c` to
`v` through its epsilon branch, and no longer string starting with byte
`c` is a member any more. -/
theorem claim_put_char_replaces (m : HCFStringMap) (c : Nat) (v : HSMVal) :
    (h_stringmap_put_char m c v).epsilon_branch = m.epsilon_branch ∧
    (h_stringmap_put_char m c v).end_branch = m.end_branch ∧
    (∀ c', c' ≠ c → htGet (h_stringmap_put_char m c v).char_branches c'
        = htGet m.char_branches c') ∧
    htGet (h_stringmap_put_char m c v).char_branches c
      = some (HCFStringMap.mk (some v) none []) ∧
    h_stringmap_get (h_stringmap_put_char m c v) [c] false = some v ∧
    (∀ s, s ≠ [] → ∀ e,
      h_stringmap_get (h_stringmap_put_char m c v) (c :: s) e = none) := by
  refine ⟨rfl, rfl, ?_, ?_, ?_, ?_⟩
  · intro c' hc'
    show htGet (htPut m.char_branches c _) c' = _
    rw [htGet_put, if_neg (fun h => hc' h.symm)]
  · show htGet (htPut m.char_branches c _) c = _
    rw [htGet_put, if_pos rfl]
    rfl
  · rw [get_single]
    rw [Bool.false_and, if_neg (by simp)]
    show (htGet (htPut m.char_branches c _) c).bind _ = _
    rw [htGet_put, if_pos rfl]
    rfl
  · intro s hs e
    match s, hs with
    | d :: r, _ =>
      rw [get_cons_cons]
      have hg : htGet (h_stringmap_put_char m c v).char_branches c
          = some (h_stringmap_put_epsilon h_stringmap_new v) := by
        show htGet (htPut m.char_branches c _) c = _
        rw [htGet_put, if_pos rfl]
      rw [hg]
      show h_stringmap_get (HCFStringMap.mk (some v) none []) (d :: r) e = none
      exact get_leaf_cons _ _ _ _

/-- C10 witness: `claim_put_char_replaces` instantiated on a concrete trie,
byte and value, discharging the hypotheses `c' ≠ c` and `s ≠ []`. -/
theorem claim_put_char_replaces_witness :
    htGet (h_stringmap_put_char cexA 98 INSET).char_branches 97
      = htGet cexA.char_branches 97 ∧
    h_stringmap_get (h_stringmap_put_char cexA 98 INSET) [98, 99] true = none :=
  ⟨(claim_put_char_replaces cexA 98 INSET).2.2.1 97 (by decide),
   (claim_put_char_replaces cexA 98 INSET).2.2.2.2.2 [99] (by simp) true⟩

/-- C2 counterexample: for `A = {"a"}` (built by `h_stringmap_put_char`)
and the trie `B` whose child for byte `'a'` carries only an end branch
(the set `{"a" · End}`), the string `"a"` is a member of `A` and not of
`B`, yet after `h_stringmap_update A B` it is no longer a member: the
update replaces the whole child for `'a'` instead of merging it, so the
claimed membership-level union law fails. -/
theorem claim_update_union_cex :
    h_stringmap_present cexA [97] false = true ∧
    h_stringmap_present cexB [97] false = false ∧
    h_stringmap_present (h_stringmap_update cexA cexB) [97] false = false := by
  refine ⟨rfl, rfl, rfl⟩

/-- C2 amended: `h_stringmap_update` delegates the char branches to the
generic hash-table update, which replaces a colliding child wholesale.
For string sets whose char children are all epsilon-carrying leaves — the
shape of every set this module builds with `h_stringmap_put_char` /
`h_stringmap_put_epsilon` / `h_stringmap_put_end` / `h_stringmap_update`,
in particular every `k = 1` lookahead set — the claimed law does hold:
after `h_stringmap_update A B`, `contains` reports a string present iff it
was present in `A` or in `B`, and the union is commutative and idempotent
at the membership level.  For general tries (the full `HCFStringMap`
type, over which the claim quantifies) it fails, see the counterexample. -/
theorem claim_update_union_amended (A B : HCFStringMap)
    (hA : SMLeafChildren A) (hB : SMLeafChildren B) :
    (∀ s e, h_stringmap_present (h_stringmap_update A B) s e
        = (h_stringmap_present A s e || h_stringmap_present B s e)) ∧
    (∀ s e, h_stringmap_present (h_stringmap_update A B) s e
        = h_stringmap_present (h_stringmap_update B A) s e) ∧
    (∀ s e, h_stringmap_present (h_stringmap_update A A) s e
        = h_stringmap_present A s e) := by
  refine ⟨fun s e => present_update_leaf A B hA hB s e, fun s e => ?_, fun s e => ?_⟩
  · rw [present_update_leaf A B hA hB s e, present_update_leaf B A hB hA s e,
      Bool.or_comm]
  · rw [present_update_leaf A A hA hA s e, Bool.or_self]

/-- C2 witness: `claim_update_union_amended` applied to the concrete sets
`{"a"}` and `{"b"}`, discharging the leaf-children hypotheses. -/
theorem claim_update_union_amended_witness :
    h_stringmap_present (h_stringmap_update cexA cexC) [98] false
      = (h_stringmap_present cexA [98] false || h_stringmap_present cexC [98] false) :=
  (claim_update_union_amended cexA cexC leafChildren_cexA leafChildren_cexC).1 [98] false

/-- C8: FIRST/FOLLOW table allocation supports only `k = 1`.  For every
grammar with `kmax < k` and every `k ≥ 2`, `ensure_k` fails its
`assert(k == 1)` and neither `h_first` nor `h_follow` produces a lookahead
set; requesting `k = 1` on a grammar with `kmax = 0` allocates `first` and
`follow` tables for indices 0 and 1 (both empty) and sets `kmax` to 1. -/
theorem claim_ensure_k_only_one (g : HCFGrammar) (k : Nat)
    (hk : 2 ≤ k) (hmax : g.kmax < k) :
    ensure_k g k = none ∧
    (∀ fuel x, h_first fuel k g x = none) ∧
    (∀ fuel x, h_follow fuel k g x = none) ∧
    (∀ g0 : HCFGrammar, g0.kmax = 0 →
      ∃ g1, ensure_k g0 1 = some g1 ∧ g1.first.length = 2 ∧
        g1.follow.length = 2 ∧ g1.kmax = 1 ∧
        firstTab g1 0 = [] ∧ firstTab g1 1 = [] ∧
        followTab g1 0 = [] ∧ followTab g1 1 = []) := by
  have hens : ensure_k g k = none := by
    unfold ensure_k
    rw [if_neg (by omega), if_neg (by omega)]
  refine ⟨hens, ?_, ?_, ?_⟩
  · intro fuel x
    cases fuel with
    | zero => rw [h_first]
    | succ fuel =>
      rw [h_first, if_neg (by omega), hens]
  · intro fuel x
    cases fuel with
    | zero => rw [h_follow]
    | succ fuel =>
      rw [h_follow, if_neg (by omega), hens]
  · intro g0 h0
    refine ⟨{ g0 with first := [[], []], follow := [[], []], kmax := 1 },
      ?_, rfl, rfl, rfl, rfl, rfl, rfl, rfl⟩
    unfold ensure_k
    rw [if_neg (by omega), if_pos rfl]

/-- C8 witness: `claim_ensure_k_only_one` at the fresh empty grammar and
`k = 2`, hypotheses discharged on the concrete input. -/
theorem claim_ensure_k_only_one_witness :
    ensure_k (h_cfgrammar_new []) 2 = none ∧
    h_first 5 2 (h_cfgrammar_new []) 0 = none ∧
    h_follow 5 2 (h_cfgrammar_new []) 0 = none := by
  obtain ⟨h1, h2, h3, _⟩ :=
    claim_ensure_k_only_one (h_cfgrammar_new []) 2 (by decide) (by decide)
  exact ⟨h1, h2 5 0, h3 5 0⟩

/-! ## Epsilon-derivability fixpoint -/

theorem htGet_append {α : Type} (a b : List (Nat × α)) (k : Nat) :
    htGet (a ++ b) k = match htGet a k with
      | some v => some v
      | none => htGet b k := by
  induction a with
  | nil => rfl
  | cons p r ih =>
    obtain ⟨x, w⟩ := p
    by_cases hx : x = k
    · subst hx
      simp [htGet]
    · simp only [List.cons_append, htGet, if_neg hx]
      exact ih

theorem htPresent_append_left {α : Type} (a b : List (Nat × α)) (k : Nat)
    (h : htPresent a k = true) : htPresent (a ++ b) k = true := by
  unfold htPresent at *
  rw [htGet_append]
  cases hg : htGet a k with
  | none => rw [hg] at h; exact absurd h (by simp)
  | some v => rfl

theorem htPresent_of_mem {α : Type} (l : List (Nat × α)) (k : Nat) (v : α)
    (h : (k, v) ∈ l) : htPresent l k = true := by
  induction l with
  | nil => cases h
  | cons p r ih =>
    obtain ⟨x, w⟩ := p
    by_cases hx : x = k
    · subst hx
      simp [htPresent, htGet]
    · rcases List.mem_cons.mp h with h' | h'
      · cases h'; exact absurd rfl hx
      · unfold htPresent at *
        simp only [htGet, if_neg hx]
        exact ih h'

theorem not_mem_of_htPresent_eq_false {α : Type} (l : List (Nat × α)) (k : Nat)
    (h : htPresent l k = false) : ∀ v, (k, v) ∉ l := by
  intro v hv
  rw [htPresent_of_mem l k v hv] at h
  cases h

theorem htPut_self_of_mem (E : List (Nat × Nat)) (sym : Nat)
    (h1 : AllOnes E) (h2 : htPresent E sym = true) : htPut E sym 1 = E := by
  induction E with
  | nil => simp [htPresent, htGet] at h2
  | cons p r ih =>
    obtain ⟨x, w⟩ := p
    by_cases hx : x = sym
    · subst hx
      have hw : w = 1 := h1 (x, w) (List.mem_cons_self _ _)
      subst hw
      simp [htPut]
    · unfold htPresent at h2
      simp only [htGet, if_neg hx] at h2
      simp only [htPut, if_neg hx]
      rw [ih (fun p hp => h1 p (List.mem_cons_of_mem _ hp)) h2]

theorem htPut_append_of_absent {α : Type} (l : List (Nat × α)) (k : Nat) (v : α)
    (h : htPresent l k = false) : htPut l k v = l ++ [(k, v)] := by
  induction l with
  | nil => rfl
  | cons p r ih =>
    obtain ⟨x, w⟩ := p
    by_cases hx : x = k
    · subst hx
      simp [htPresent, htGet] at h
    · unfold htPresent at h
      simp only [htGet, if_neg hx] at h
      simp only [htPut, if_neg hx, List.cons_append, List.cons.injEq, true_and]
      exact ih h

theorem symbolDerivesEpsP_mono (env : List HCFChoiceDef) (P Q : Nat → Bool)
    (h : ∀ y, P y = true → Q y = true) (y : Nat)
    (hy : symbolDerivesEpsP env P y = true) : symbolDerivesEpsP env Q y = true := by
  unfold symbolDerivesEpsP at hy ⊢
  cases henv : env.get? y with
  | none =>
    rw [henv] at hy
    exact h y hy
  | some d =>
    rw [henv] at hy
    cases d with
    | char c => exact Bool.noConfusion hy
    | hend => exact Bool.noConfusion hy
    | charset cs => exact Bool.noConfusion hy
    | choice ps => exact h y hy

theorem ntHasEpsProdP_mono (env : List HCFChoiceDef) (P Q : Nat → Bool)
    (h : ∀ y, P y = true → Q y = true) (N : Nat)
    (hN : ntHasEpsProdP env P N = true) : ntHasEpsProdP env Q N = true := by
  unfold ntHasEpsProdP at hN ⊢
  cases henv : env.get? N with
  | none =>
    rw [henv] at hN
    exact Bool.noConfusion hN
  | some d =>
    rw [henv] at hN
    cases d with
    | char c => exact Bool.noConfusion hN
    | hend => exact Bool.noConfusion hN
    | charset cs => exact Bool.noConfusion hN
    | choice ps =>
      have hN' : ps.any (fun p => p.all (symbolDerivesEpsP env P)) = true := hN
      show ps.any (fun p => p.all (symbolDerivesEpsP env Q)) = true
      rw [List.any_eq_true] at hN' ⊢
      obtain ⟨p, hp, hall⟩ := hN'
      refine ⟨p, hp, ?_⟩
      rw [List.all_eq_true] at hall ⊢
      exact fun y hy => symbolDerivesEpsP_mono env P Q h y (hall y hy)

theorem h_derives_epsilon_eq (g : HCFGrammar) (E : List (Nat × Nat))
    (hE : g.geneps = some E) (x : Nat) :
    h_derives_epsilon g x = some (symbolDerivesEpsP g.env (htPresent E) x) := by
  unfold h_derives_epsilon symbolDerivesEpsP
  rw [hE]
  cases hx : g.env.get? x with
  | none => rfl
  | some d => cases d <;> rfl

theorem h_derives_epsilon_seq_eq (g : HCFGrammar) (E : List (Nat × Nat))
    (hE : g.geneps = some E) (p : List Nat) :
    h_derives_epsilon_seq g p
      = some (p.all (symbolDerivesEpsP g.env (htPresent E))) := by
  induction p with
  | nil => rfl
  | cons x r ih =>
    unfold h_derives_epsilon_seq
    rw [h_derives_epsilon_eq g E hE x]
    cases hx : symbolDerivesEpsP g.env (htPresent E) x with
    | false => simp [hx]
    | true => simp [hx, ih]

theorem genepsProds_eq (g : HCFGrammar) (E : List (Nat × Nat)) (sym : Nat)
    (ps : List (List Nat)) (hE : g.geneps = some E) :
    genepsProds g sym ps
      = some (if ps.any (fun p => p.all (symbolDerivesEpsP g.env (htPresent E)))
              then { g with geneps := some (htPut E sym 1) } else g) := by
  induction ps with
  | nil => rfl
  | cons p rest ih =>
    unfold genepsProds
    rw [h_derives_epsilon_seq_eq g E hE p]
    cases hp : p.all (symbolDerivesEpsP g.env (htPresent E)) with
    | true =>
      simp only [List.any_cons, hp, Bool.true_or, if_true, hE, Option.getD_some]
    | false =>
      rw [ih]
      simp only [List.any_cons, hp, Bool.false_or]

theorem htPresent_append {α : Type} (a b : List (Nat × α)) (k : Nat) :
    htPresent (a ++ b) k = (htPresent a k || htPresent b k) := by
  unfold htPresent
  rw [htGet_append]
  cases htGet a k <;> simp

theorem not_key_of_absent {α : Type} (l : List (Nat × α)) (k : Nat)
    (h : htPresent l k = false) : k ∉ l.map Prod.fst := by
  intro hk
  obtain ⟨p, hp, hfst⟩ := List.mem_map.mp hk
  obtain ⟨x, v⟩ := p
  rw [htPresent_of_mem l k v (by simpa using hfst ▸ hp)] at h
  cases h

theorem htPresent_singleton {α : Type} (a N : Nat) (v : α) :
    htPresent [(a, v)] N = decide (a = N) := by
  unfold htPresent
  by_cases h : a = N <;> simp [htGet, h]

/-- Behaviour of one `collect_geneps` pass over a symbol list `l`
(with the grammar's geneps table in state `E`): the pass succeeds, only
appends new members, every appended member is one of the listed
nonterminals and is justified by a production deriving epsilon w.r.t. the
final set, a pass that appends nothing certifies closure of `E`, and the
result stays below every closed set containing `E`. -/
theorem genepsSyms_spec (l : List (Nat × Nat)) :
    ∀ (g : HCFGrammar) (E : List (Nat × Nat)),
    g.geneps = some E → AllOnes E → htNodupKeys E →
    (∀ p ∈ l, ∃ ps, g.env.get? p.1 = some (.choice ps)) →
    (∀ p ∈ l, htPresent g.nts p.1 = true) →
    ∃ g' tail, genepsSyms g l = some g' ∧
      g'.env = g.env ∧ g'.nts = g.nts ∧ g'.geneps = some (E ++ tail) ∧
      AllOnes (E ++ tail) ∧ htNodupKeys (E ++ tail) ∧
      (∀ p ∈ tail, htPresent g.nts p.1 = true) ∧
      (∀ p ∈ tail, ntHasEpsProdP g.env (htPresent (E ++ tail)) p.1 = true) ∧
      (tail = [] → ∀ p ∈ l,
        ntHasEpsProdP g.env (htPresent E) p.1 = true → htPresent E p.1 = true) ∧
      (∀ P : Nat → Bool,
        (∀ N, htPresent g.nts N = true → ntHasEpsProdP g.env P N = true → P N = true) →
        (∀ N, htPresent E N = true → P N = true) →
        ∀ N, htPresent (E ++ tail) N = true → P N = true) := by
  induction l with
  | nil =>
    intro g E hE hones hnodup hl hl2
    refine ⟨g, [], rfl, rfl, rfl, by simpa using hE, by simpa using hones,
      by simpa using hnodup, by simp, by simp, fun _ p hp => absurd hp (by simp),
      fun P hP hEP N hN => hEP N (by simpa using hN)⟩
  | cons q rest ih =>
    obtain ⟨a, v⟩ := q
    intro g E hE hones hnodup hl hl2
    obtain ⟨ps, henv⟩ := hl (a, v) (List.mem_cons_self _ _)
    have hfireP : ntHasEpsProdP g.env (htPresent E) a
        = ps.any (fun p => p.all (symbolDerivesEpsP g.env (htPresent E))) := by
      unfold ntHasEpsProdP
      rw [henv]
    have hstep : genepsSyms g ((a, v) :: rest)
        = match genepsProds g a ps with
          | none => none
          | some g1 => genepsSyms g1 rest := by
      simp only [genepsSyms]
      rw [henv]
    rw [hstep, genepsProds_eq g E a ps hE]
    cases hfire : ps.any (fun p => p.all (symbolDerivesEpsP g.env (htPresent E))) with
    | false =>
      rw [if_neg (by simp [hfire])]
      obtain ⟨g', tail, h1, h2, h3, h4, h5, h6, h7, h8, h9, h10⟩ :=
        ih g E hE hones hnodup
          (fun p hp => hl p (List.mem_cons_of_mem _ hp))
          (fun p hp => hl2 p (List.mem_cons_of_mem _ hp))
      refine ⟨g', tail, h1, h2, h3, h4, h5, h6, h7, h8, ?_, h10⟩
      intro htail p hp hprod
      rcases List.mem_cons.mp hp with hp' | hp'
      · subst hp'
        rw [hfireP, hfire] at hprod
        cases hprod
      · exact h9 htail p hp' hprod
    | true =>
      rw [if_pos rfl]
      cases hpres : htPresent E a with
      | true =>
        have hg1 : { g with geneps := some (htPut E a 1) } = g := by
          rw [htPut_self_of_mem E a hones hpres, ← hE]
        rw [hg1]
        obtain ⟨g', tail, h1, h2, h3, h4, h5, h6, h7, h8, h9, h10⟩ :=
          ih g E hE hones hnodup
            (fun p hp => hl p (List.mem_cons_of_mem _ hp))
            (fun p hp => hl2 p (List.mem_cons_of_mem _ hp))
        refine ⟨g', tail, h1, h2, h3, h4, h5, h6, h7, h8, ?_, h10⟩
        intro htail p hp hprod
        rcases List.mem_cons.mp hp with hp' | hp'
        · subst hp'
          exact hpres
        · exact h9 htail p hp' hprod
      | false =>
        rw [htPut_append_of_absent E a 1 hpres]
        set g1 : HCFGrammar := { g with geneps := some (E ++ [(a, 1)]) } with hg1
        have hE1 : g1.geneps = some (E ++ [(a, 1)]) := rfl
        have hones1 : AllOnes (E ++ [(a, 1)]) := by
          intro p hp
          rcases List.mem_append.mp hp with h | h
          · exact hones p h
          · rcases List.mem_singleton.mp h with rfl
            rfl
        have hnodup1 : htNodupKeys (E ++ [(a, 1)]) := by
          unfold htNodupKeys at hnodup ⊢
          rw [List.map_append]
          rw [List.nodup_append]
          refine ⟨hnodup, by simp, ?_⟩
          intro x hx hx'
          simp only [List.map_cons, List.map_nil, List.mem_singleton] at hx'
          subst hx'
          exact not_key_of_absent E x hpres hx
        obtain ⟨g', tail2, h1, h2, h3, h4, h5, h6, h7, h8, h9, h10⟩ :=
          ih g1 (E ++ [(a, 1)]) hE1 hones1 hnodup1
            (fun p hp => hl p (List.mem_cons_of_mem _ hp))
            (fun p hp => hl2 p (List.mem_cons_of_mem _ hp))
        have hassoc : E ++ [(a, 1)] ++ tail2 = E ++ ((a, 1) :: tail2) := by
          rw [List.append_assoc]
          rfl
        refine ⟨g', (a, 1) :: tail2, h1, h2, h3, ?_, ?_, ?_, ?_, ?_, ?_, ?_⟩
        · rw [h4, hassoc]
        · rw [← hassoc]; exact h5
        · rw [← hassoc] at *; exact h6
        · intro p hp
          rcases List.mem_cons.mp hp with hp' | hp'
          · subst hp'
            exact hl2 (a, v) (List.mem_cons_self _ _)
          · exact h7 p hp'
        · intro p hp
          rcases List.mem_cons.mp hp with hp' | hp'
          · subst hp'
            show ntHasEpsProdP g.env (htPresent (E ++ ((a, 1) :: tail2))) a = true
            refine ntHasEpsProdP_mono g.env (htPresent E) _ ?_ a (by rw [hfireP]; exact hfire)
            intro y hy
            rw [htPresent_append]
            rw [hy]
            rfl
          · rw [← hassoc]
            exact h8 p hp'
        · intro htail
          cases htail
        · intro P hP hEP N hN
          have hPa : P a = true := by
            refine hP a (hl2 (a, v) (List.mem_cons_self _ _)) ?_
            refine ntHasEpsProdP_mono g.env (htPresent E) P hEP a ?_
            rw [hfireP]
            exact hfire
          have hEP1 : ∀ M, htPresent (E ++ [(a, 1)]) M = true → P M = true := by
            intro M hM
            rw [htPresent_append] at hM
            cases hEM : htPresent E M with
            | true => exact hEP M hEM
            | false =>
              rw [hEM, Bool.false_or, htPresent_singleton] at hM
              have haM : a = M := by simpa using hM
              subst haM
              exact hPa
          rw [← hassoc] at hN
          exact h10 P hP hEP1 N hN

theorem length_le_of_keys_subset {α β : Type} (E : List (Nat × α))
    (l : List (Nat × β)) (hnodup : htNodupKeys E)
    (hsub : ∀ N, htPresent E N = true → htPresent l N = true) :
    E.length ≤ l.length := by
  have h1 : E.length = (E.map Prod.fst).length := (List.length_map _ _).symm
  have h2 : (l.map Prod.fst).length = l.length := List.length_map _ _
  rw [h1, ← h2]
  refine List.Subperm.length_le (List.subperm_of_subset hnodup ?_)
  intro x hx
  obtain ⟨p, hp, hfst⟩ := List.mem_map.mp hx
  obtain ⟨y, w⟩ := p
  simp only at hfst
  subst hfst
  have hpres : htPresent l y = true := hsub y (htPresent_of_mem E y w hp)
  unfold htPresent at hpres
  cases hg : htGet l y with
  | none => rw [hg] at hpres; cases hpres
  | some z => exact List.mem_map.mpr ⟨(y, z), htGet_mem l y z hg, rfl⟩

/-- Behaviour of the `collect_geneps` pass loop: starting from a sound set
`E`, with fuel at least `|nts| + 1 - |E|` passes the loop reaches a final
set `E'` that satisfies the fixpoint equation and lies below every closed
set containing `E`. -/
theorem genepsLoop_spec (fuel : Nat) :
    ∀ (g : HCFGrammar) (E : List (Nat × Nat)),
    g.geneps = some E → AllOnes E → htNodupKeys E →
    NtsChoice g → htNodupKeys g.nts →
    (∀ N, htPresent E N = true → htPresent g.nts N = true) →
    (∀ N, htPresent E N = true → ntHasEpsProdP g.env (htPresent E) N = true) →
    g.nts.length + 1 ≤ fuel + E.length →
    ∃ g' E', genepsLoop fuel g = some g' ∧
      g'.env = g.env ∧ g'.nts = g.nts ∧ g'.geneps = some E' ∧
      AllOnes E' ∧ htNodupKeys E' ∧
      (∀ N, htPresent E N = true → htPresent E' N = true) ∧
      (∀ N, htPresent E' N = true → htPresent g.nts N = true) ∧
      (∀ N, htPresent E' N
        = (htPresent g.nts N && ntHasEpsProdP g.env (htPresent E') N)) ∧
      (∀ P : Nat → Bool,
        (∀ N, htPresent g.nts N = true → ntHasEpsProdP g.env P N = true → P N = true) →
        (∀ N, htPresent E N = true → P N = true) →
        ∀ N, htPresent E' N = true → P N = true) := by
  induction fuel with
  | zero =>
    intro g E hE hones hnodup hch hnn hsub hsound hfuel
    have hle : E.length ≤ g.nts.length := length_le_of_keys_subset E g.nts hnodup hsub
    omega
  | succ fuel ih =>
    intro g E hE hones hnodup hch hnn hsub hsound hfuel
    obtain ⟨g1, tail, hsyms, he2, he3, he4, he5, he6, he7, he8, he9, he10⟩ :=
      genepsSyms_spec g.nts g E hE hones hnodup hch
        (fun p hp => htPresent_of_mem _ _ _ hp)
    have hloopeq : genepsLoop (fuel + 1) g
        = if htUsed (g1.geneps.getD []) = htUsed (g.geneps.getD []) then some g1
          else genepsLoop fuel g1 := by
      rw [genepsLoop, hsyms]
    rw [hloopeq, he4, hE]
    simp only [Option.getD_some]
    cases tail with
    | nil =>
      rw [if_pos (by simp)]
      refine ⟨g1, E, rfl, he2, he3, by simpa using he4, hones, hnodup,
        fun N hN => hN, hsub, ?_, fun P hP hEP N hN => hEP N hN⟩
      intro N
      cases hN : htPresent E N with
      | true =>
        rw [hsub N hN, hsound N hN]
        rfl
      | false =>
        cases hnts : htPresent g.nts N with
        | false => rfl
        | true =>
          cases hprod : ntHasEpsProdP g.env (htPresent E) N with
          | false => rfl
          | true =>
            obtain ⟨w, hw⟩ : ∃ w, htGet g.nts N = some w := by
              unfold htPresent at hnts
              cases hg : htGet g.nts N with
              | none => rw [hg] at hnts; cases hnts
              | some w => exact ⟨w, rfl⟩
            have := he9 rfl (N, w) (htGet_mem _ _ _ hw) hprod
            rw [this] at hN
            cases hN
    | cons t ts =>
      rw [if_neg (by
        unfold htUsed
        rw [List.length_append]
        simp)]
      have hsub1 : ∀ N, htPresent (E ++ t :: ts) N = true → htPresent g1.nts N = true := by
        intro N hN
        rw [he3]
        rw [htPresent_append] at hN
        cases hEN : htPresent E N with
        | true => exact hsub N hEN
        | false =>
          rw [hEN, Bool.false_or] at hN
          obtain ⟨w, hw⟩ : ∃ w, htGet (t :: ts) N = some w := by
            unfold htPresent at hN
            cases hg : htGet (t :: ts) N with
            | none => rw [hg] at hN; cases hN
            | some w => exact ⟨w, rfl⟩
          have hmem := htGet_mem _ _ _ hw
          have := he7 (N, w) hmem
          simpa using this
      have hsound1 : ∀ N, htPresent (E ++ t :: ts) N = true →
          ntHasEpsProdP g1.env (htPresent (E ++ t :: ts)) N = true := by
        intro N hN
        rw [he2]
        rw [htPresent_append] at hN
        cases hEN : htPresent E N with
        | true =>
          refine ntHasEpsProdP_mono g.env (htPresent E) _ ?_ N (hsound N hEN)
          intro y hy
          rw [htPresent_append, hy]
          rfl
        | false =>
          rw [hEN, Bool.false_or] at hN
          obtain ⟨w, hw⟩ : ∃ w, htGet (t :: ts) N = some w := by
            unfold htPresent at hN
            cases hg : htGet (t :: ts) N with
            | none => rw [hg] at hN; cases hN
            | some w => exact ⟨w, rfl⟩
          exact he8 (N, w) (htGet_mem _ _ _ hw)
      have hch1 : NtsChoice g1 := by
        intro p hp
        rw [he2]
        exact hch p (he3 ▸ hp)
      have hnn1 : htNodupKeys g1.nts := he3 ▸ hnn
      have hfuel1 : g1.nts.length + 1 ≤ fuel + (E ++ t :: ts).length := by
        rw [he3, List.length_append]
        simp only [List.length_cons]
        omega
      obtain ⟨g', E', k1, k2, k3, k4, k5, k6, k7, k8, k9, k10⟩ :=
        ih g1 (E ++ t :: ts) he4 he5 he6 hch1 hnn1 hsub1 hsound1 hfuel1
      refine ⟨g', E', k1, k2.trans he2, k3.trans he3, k4, k5, k6, ?_, ?_, ?_, ?_⟩
      · intro N hN
        refine k7 N ?_
        rw [htPresent_append, hN]
        rfl
      · intro N hN
        rw [← he3]
        exact k8 N hN
      · intro N
        rw [← he2, ← he3]
        exact k9 N
      · intro P hP hEP N hN
        have hP1 : ∀ N, htPresent g1.nts N = true →
            ntHasEpsProdP g1.env P N = true → P N = true := by
          intro M h1 h2
          rw [he3] at h1
          rw [he2] at h2
          exact hP M h1 h2
        have hEP1 : ∀ M, htPresent (E ++ t :: ts) M = true → P M = true :=
          he10 P hP hEP
        exact k10 P hP1 hEP1 N hN

theorem genepsSyms_append (l : List (Nat × Nat)) :
    ∀ (g : HCFGrammar) (E : List (Nat × Nat)) (g' : HCFGrammar),
    g.geneps = some E → AllOnes E → genepsSyms g l = some g' →
    ∃ t, g'.geneps = some (E ++ t) ∧ AllOnes (E ++ t) := by
  induction l with
  | nil =>
    intro g E g' hE hones hrun
    refine ⟨[], ?_, by simpa using hones⟩
    have : g = g' := by
      simpa [genepsSyms] using hrun
    rw [← this]
    simpa using hE
  | cons q rest ih =>
    obtain ⟨a, v⟩ := q
    intro g E g' hE hones hrun
    have hrun' : (match g.env.get? a with
        | some (HCFChoiceDef.choice prods) =>
          match genepsProds g a prods with
          | none => none
          | some g1 => genepsSyms g1 rest
        | _ => none) = some g' := hrun
    cases henv : g.env.get? a with
    | none => rw [henv] at hrun'; cases hrun'
    | some d =>
      rw [henv] at hrun'
      cases d with
      | char c => cases hrun'
      | hend => cases hrun'
      | charset cs => cases hrun'
      | choice ps =>
        have hrun2 : (match genepsProds g a ps with
            | none => none
            | some g1 => genepsSyms g1 rest) = some g' := hrun'
        rw [genepsProds_eq g E a ps hE] at hrun2
        cases hfire : ps.any (fun p => p.all (symbolDerivesEpsP g.env (htPresent E))) with
        | false =>
          rw [hfire] at hrun2
          simp only [if_neg (by simp : ¬(false = true))] at hrun2
          exact ih g E g' hE hones hrun2
        | true =>
          rw [hfire] at hrun2
          simp only [if_pos rfl] at hrun2
          cases hpres : htPresent E a with
          | true =>
            rw [htPut_self_of_mem E a hones hpres] at hrun2
            have hg1 : { g with geneps := some E } = g := by rw [← hE]
            rw [hg1] at hrun2
            exact ih g E g' hE hones hrun2
          | false =>
            rw [htPut_append_of_absent E a 1 hpres] at hrun2
            have hones1 : AllOnes (E ++ [(a, 1)]) := by
              intro p hp
              rcases List.mem_append.mp hp with h | h
              · exact hones p h
              · rcases List.mem_singleton.mp h with rfl
                rfl
            obtain ⟨t, ht, ht2⟩ :=
              ih { g with geneps := some (E ++ [(a, 1)]) } (E ++ [(a, 1)]) g'
                rfl hones1 hrun2
            refine ⟨(a, 1) :: t, ?_, ?_⟩
            · rw [ht, List.append_assoc]
              rfl
            · rw [List.append_assoc] at ht2
              exact ht2

/-- C4: after grammar construction, `h_derives_epsilon` answers membership
in the minimal set `E` satisfying: `N ∈ E` iff some production of `N` has
every symbol deriving epsilon, where `Char` / `End` / `CharSet` never
derive epsilon.  Each `collect_geneps` pass only appends members (it is
monotonic), the loop (whose pass budget is `|nonterminals| + 1`, baked
into `collect_geneps`) completes and reaches a fixpoint below every closed
set, and running `collect_geneps` again after the set is populated is a
no-op. -/
theorem claim_geneps_least_fixpoint (g : HCFGrammar)
    (hnone : g.geneps = none) (hch : NtsChoice g) (hnn : htNodupKeys g.nts) :
    ∃ g' E', collect_geneps g = some g' ∧
      g'.env = g.env ∧ g'.nts = g.nts ∧ g'.geneps = some E' ∧
      EpsFixpointP g' (fun N => htPresent E' N) ∧
      (∀ P : Nat → Bool, EpsFixpointP g' P →
        ∀ N, htPresent E' N = true → P N = true) ∧
      (∀ N, (h_derives_epsilon g' N = some true) ↔ htPresent E' N = true) ∧
      (∀ (gm : HCFGrammar) (E1 : List (Nat × Nat)) (gm' : HCFGrammar),
        gm.geneps = some E1 → AllOnes E1 → genepsSyms gm gm.nts = some gm' →
        ∃ t, gm'.geneps = some (E1 ++ t)) ∧
      collect_geneps g' = some g' := by
  have hrun : collect_geneps g
      = genepsLoop (htUsed g.nts + 1) { g with geneps := some [] } := by
    unfold collect_geneps
    rw [hnone]
    rfl
  obtain ⟨g', E', k1, k2, k3, k4, k5, k6, k7, k8, k9, k10⟩ :=
    genepsLoop_spec (htUsed g.nts + 1) { g with geneps := some [] } []
      rfl (by intro p hp; cases hp) (by simp [htNodupKeys])
      hch hnn (by intro N hN; exact Bool.noConfusion hN)
      (by intro N hN; exact Bool.noConfusion hN)
      (by unfold htUsed; simp)
  dsimp only at k2 k3 k8 k9 k10
  refine ⟨g', E', hrun.trans k1, k2, k3, k4, ?_, ?_, ?_, ?_, ?_⟩
  · intro N
    show htPresent E' N = (htPresent g'.nts N && ntHasEpsProdP g'.env (htPresent E') N)
    rw [k2, k3]
    exact k9 N
  · intro P hfix N hN
    refine k10 P ?_ (fun M hM => Bool.noConfusion hM) N hN
    intro M h1 h2
    rw [hfix M, k3, k2, h1, h2]
    rfl
  · intro N
    rw [h_derives_epsilon_eq g' E' k4 N, Option.some_inj]
    constructor
    · intro hb
      unfold symbolDerivesEpsP at hb
      cases henv : g'.env.get? N with
      | none => rw [henv] at hb; exact hb
      | some d =>
        rw [henv] at hb
        cases d with
        | char c => exact Bool.noConfusion hb
        | hend => exact Bool.noConfusion hb
        | charset cs => exact Bool.noConfusion hb
        | choice ps => exact hb
    · intro h
      have hnts : htPresent g.nts N = true := k8 N h
      obtain ⟨w, hw⟩ : ∃ w, htGet g.nts N = some w := by
        unfold htPresent at hnts
        cases hg : htGet g.nts N with
        | none => rw [hg] at hnts; cases hnts
        | some w => exact ⟨w, rfl⟩
      obtain ⟨ps, hps⟩ := hch (N, w) (htGet_mem _ _ _ hw)
      have hps' : g'.env.get? N = some (.choice ps) := by
        rw [k2]
        exact hps
      unfold symbolDerivesEpsP
      rw [hps']
      exact h
  · intro gm E1 gm' h1 h2 h3
    obtain ⟨t, ht, _⟩ := genepsSyms_append gm.nts gm E1 gm' h1 h2 h3
    exact ⟨t, ht⟩
  · unfold collect_geneps
    rw [k4]
    rfl

/-- C4 witness: `claim_geneps_least_fixpoint` applied to the concrete
grammar `S → "a" S "b" | ε` before `collect_geneps`, discharging all
hypotheses there. -/
theorem claim_geneps_least_fixpoint_witness :
    ∃ g' E', collect_geneps gEpsPre = some g' ∧ g'.geneps = some E' ∧
      EpsFixpointP g' (fun N => htPresent E' N) := by
  obtain ⟨g', E', h1, _, _, h4, h5, _⟩ :=
    claim_geneps_least_fixpoint gEpsPre rfl
      (by
        intro p hp
        rcases List.mem_singleton.mp hp with rfl
        exact ⟨[[1, 0, 2], []], rfl⟩)
      (by unfold htNodupKeys; decide)
  exact ⟨g', E', h1, h4, h5⟩

/-! ## Concrete scenarios -/

theorem present_shape_eps_char (c : Nat) (v w : HSMVal) (s : List Nat) (e : Bool) :
    h_stringmap_present
        (HCFStringMap.mk (some v) none [(c, HCFStringMap.mk (some w) none [])]) s e
          = true
      ↔ (s = [] ∨ s = [c]) := by
  match s with
  | [] =>
    rw [present_nil]
    simp [HCFStringMap.epsilon_branch]
  | [d] =>
    rw [present_single]
    by_cases hcd : c = d
    · subst hcd
      simp [HCFStringMap.end_branch, HCFStringMap.char_branches, htGet,
        HCFStringMap.epsilon_branch]
    · simp [HCFStringMap.end_branch, HCFStringMap.char_branches, htGet, hcd,
        Ne.symm hcd]
  | d :: d2 :: r =>
    rw [present_cons_cons_leaf _ (by
      intro p hp
      rcases List.mem_singleton.mp hp with rfl
      exact ⟨w, rfl⟩)]
    simp

theorem present_shape_end_char (c : Nat) (v w : HSMVal) (s : List Nat) :
    h_stringmap_present
        (HCFStringMap.mk none (some v) [(c, HCFStringMap.mk (some w) none [])]) s false
          = true
      ↔ s = [c] := by
  match s with
  | [] =>
    rw [present_nil]
    simp [HCFStringMap.epsilon_branch]
  | [d] =>
    rw [present_single]
    by_cases hcd : c = d
    · subst hcd
      simp [HCFStringMap.end_branch, HCFStringMap.char_branches, htGet,
        HCFStringMap.epsilon_branch]
    · simp [HCFStringMap.end_branch, HCFStringMap.char_branches, htGet, hcd,
        Ne.symm hcd]
  | d :: d2 :: r =>
    rw [present_cons_cons_leaf _ (by
      intro p hp
      rcases List.mem_singleton.mp hp with rfl
      exact ⟨w, rfl⟩)]
    simp

/-- C5: for the grammar `S → "a" S "b" | ε` with start S, the constructed
grammar satisfies: `FIRST(1, S)` is exactly `{ε, "a"}` (membership holds
for precisely the empty string and `"a"`, and End is absent),
`derivesEpsilon(S)` is true, and `FOLLOW(1, S)` is exactly `{"b", End}`
(byte-string membership holds precisely for `"b"`, the End flag is set,
and ε is absent). -/
theorem claim_scenario2_sets :
    h_cfgrammar_model 20 env_aSb 0 = some g_aSb ∧
    h_derives_epsilon g_aSb 0 = some true ∧
    (h_first 50 1 g_aSb 0).map Prod.fst = some first_aSb ∧
    (∀ s e, h_stringmap_present first_aSb s e = true ↔ (s = [] ∨ s = [97])) ∧
    first_aSb.end_branch = none ∧
    (h_follow 50 1 g_aSb 0).map Prod.fst = some follow_aSb ∧
    follow_aSb.end_branch.isSome = true ∧
    follow_aSb.epsilon_branch = none ∧
    (∀ s, h_stringmap_present follow_aSb s false = true ↔ s = [98]) := by
  have hf : first_aSb
      = HCFStringMap.mk (some INSET) none [(97, HCFStringMap.mk (some INSET) none [])] := by
    rfl
  have hw : follow_aSb
      = HCFStringMap.mk none (some INSET)
          [(98, HCFStringMap.mk
            (some (HSMVal.sub (HCFStringMap.mk (some INSET) none []))) none [])] := by
    rfl
  refine ⟨rfl, rfl, rfl, ?_, by rw [hf]; rfl, rfl, by rw [hw]; rfl, by rw [hw]; rfl, ?_⟩
  · intro s e
    rw [hf]
    exact present_shape_eps_char 97 INSET INSET s e
  · intro s
    rw [hw]
    exact present_shape_end_char 98 INSET _ s

/-- C6 (the code evaluated at the failing input): for a grammar whose
desugared root is the bare terminal `Char('x')`, `collect_nts` finds no
nonterminal, so `h_cfgrammar` wraps the terminal in a singleton
`HCF_CHOICE` and registers the wrapper with `h_hashset_put`.  Discovery
thus yields exactly one nonterminal — but the value recorded for it in
`nts` (its id) is the non-NULL set marker 1, not 0 as the claim and the
code's own "start symbol gets 0" comment require. -/
theorem claim_wrapped_start_id :
    (h_cfgrammar_model 20 [.char 120] 0).map
        (fun g => (g.nts, g.start, htGet g.nts g.start, htUsed g.nts))
      = some ([(1, 1)], 1, some 1, 1) := by rfl

/-! ## Shape preservation for the FIRST/FOLLOW engines -/

theorem SMWF_new : SMWF h_stringmap_new := by
  intro p hp
  cases hp

theorem SMWF_singleton : SMWF (h_stringmap_put_epsilon h_stringmap_new INSET) := by
  intro p hp
  cases hp

theorem SMWF_put_end (m : HCFStringMap) (v : HSMVal) (h : SMWF m) :
    SMWF (h_stringmap_put_end m v) := by
  intro p hp
  exact h p hp

theorem SMWF_put_char (m : HCFStringMap) (c : Nat) (v : HSMVal) (h : SMWF m) :
    SMWF (h_stringmap_put_char m c v) := by
  intro p hp
  have hp' : p ∈ htPut m.char_branches c (h_stringmap_put_epsilon h_stringmap_new v) := hp
  rcases mem_htPut _ _ _ p hp' with h' | h'
  · exact h p h'
  · rw [h']
    exact ⟨v, rfl⟩

theorem SMWF_update (a b : HCFStringMap) (ha : SMWF a) (hb : SMWF b) :
    SMWF (h_stringmap_update a b) := leafChildren_update a b ha hb

theorem SMWF_charset_fold (cs : Nat → Bool) (l : List Nat) :
    ∀ m : HCFStringMap, SMWF m →
    SMWF (l.foldl (fun r c => if cs c then h_stringmap_put_char r c INSET else r) m) := by
  induction l with
  | nil => exact fun m h => h
  | cons c r ih =>
    intro m h
    show SMWF (r.foldl _ (if cs c then h_stringmap_put_char m c INSET else m))
    cases cs c with
    | true => exact ih _ (by simpa using SMWF_put_char m c INSET h)
    | false => simpa using ih _ h

/-! ## Step equations of the FIRST/FOLLOW engines -/

theorem h_first_eq_zero (k : Nat) (g : HCFGrammar) (x : Nat) :
    h_first 0 k g x = none := rfl

theorem h_first_eq_k0 (fuel : Nat) (g : HCFGrammar) (x : Nat) :
    h_first (fuel + 1) 0 g x = some (g.singleton_epsilon, g) := by
  rw [h_first, if_pos rfl]

theorem h_first_eq_ensure_none (fuel k : Nat) (g : HCFGrammar) (x : Nat)
    (hk : k ≠ 0) (hens : ensure_k g k = none) : h_first (fuel + 1) k g x = none := by
  rw [h_first]
  simp only [if_neg hk, hens]

theorem h_first_eq_hit (fuel k : Nat) (g g2 : HCFGrammar) (x : Nat) (ret : HCFStringMap)
    (hk : k ≠ 0) (hens : ensure_k g k = some g2)
    (hget : htGet (firstTab g2 k) x = some ret) :
    h_first (fuel + 1) k g x = some (ret, g2) := by
  rw [h_first]
  simp only [if_neg hk, hens, hget]

theorem h_first_eq_env_none (fuel k : Nat) (g g2 : HCFGrammar) (x : Nat)
    (hk : k ≠ 0) (hens : ensure_k g k = some g2)
    (hget : htGet (firstTab g2 k) x = none)
    (henv : g2.env.get? x = none) :
    h_first (fuel + 1) k g x = none := by
  rw [h_first]
  have henv' : (putFirst g2 k x h_stringmap_new).env.get? x = none := henv
  simp only [if_neg hk, hens, hget, henv']

theorem h_first_eq_hend (fuel k : Nat) (g g2 : HCFGrammar) (x : Nat)
    (hk : k ≠ 0) (hens : ensure_k g k = some g2)
    (hget : htGet (firstTab g2 k) x = none)
    (henv : g2.env.get? x = some .hend) :
    h_first (fuel + 1) k g x
      = some (h_stringmap_put_end h_stringmap_new INSET,
          putFirst (putFirst g2 k x h_stringmap_new) k x
            (h_stringmap_put_end h_stringmap_new INSET)) := by
  rw [h_first]
  have henv' : (putFirst g2 k x h_stringmap_new).env.get? x = some .hend := henv
  simp only [if_neg hk, hens, hget, henv']

theorem h_first_eq_char (fuel k : Nat) (g g2 : HCFGrammar) (x c : Nat)
    (hk : k ≠ 0) (hens : ensure_k g k = some g2)
    (hget : htGet (firstTab g2 k) x = none)
    (henv : g2.env.get? x = some (.char c)) :
    h_first (fuel + 1) k g x
      = some (h_stringmap_put_char h_stringmap_new c INSET,
          putFirst (putFirst g2 k x h_stringmap_new) k x
            (h_stringmap_put_char h_stringmap_new c INSET)) := by
  rw [h_first]
  have henv' : (putFirst g2 k x h_stringmap_new).env.get? x = some (.char c) := henv
  simp only [if_neg hk, hens, hget, henv']

theorem h_first_eq_charset (fuel k : Nat) (g g2 : HCFGrammar) (x : Nat)
    (cs : Nat → Bool)
    (hk : k ≠ 0) (hens : ensure_k g k = some g2)
    (hget : htGet (firstTab g2 k) x = none)
    (henv : g2.env.get? x = some (.charset cs)) :
    h_first (fuel + 1) k g x
      = some ((List.range 256).foldl
            (fun r c => if cs c then h_stringmap_put_char r c INSET else r)
            h_stringmap_new,
          putFirst (putFirst g2 k x h_stringmap_new) k x
            ((List.range 256).foldl
              (fun r c => if cs c then h_stringmap_put_char r c INSET else r)
              h_stringmap_new)) := by
  rw [h_first]
  have henv' : (putFirst g2 k x h_stringmap_new).env.get? x = some (.charset cs) := henv
  simp only [if_neg hk, hens, hget, henv']

theorem h_first_eq_choice (fuel k : Nat) (g g2 : HCFGrammar) (x : Nat)
    (ps : List (List Nat))
    (hk : k ≠ 0) (hens : ensure_k g k = some g2)
    (hget : htGet (firstTab g2 k) x = none)
    (henv : g2.env.get? x = some (.choice ps)) :
    h_first (fuel + 1) k g x
      = firstProds fuel k (putFirst g2 k x h_stringmap_new) x ps h_stringmap_new := by
  rw [h_first]
  have henv' : (putFirst g2 k x h_stringmap_new).env.get? x = some (.choice ps) := henv
  simp only [if_neg hk, hens, hget, henv']

theorem firstProds_eq_zero (k : Nat) (g : HCFGrammar) (x : Nat)
    (ps : List (List Nat)) (ret : HCFStringMap) :
    firstProds 0 k g x ps ret = none := rfl

theorem firstProds_eq_nil (fuel k : Nat) (g : HCFGrammar) (x : Nat)
    (ret : HCFStringMap) : firstProds (fuel + 1) k g x [] ret = some (ret, g) := by
  rw [firstProds]

theorem firstProds_eq_cons_none (fuel k : Nat) (g : HCFGrammar) (x : Nat)
    (p : List Nat) (rest : List (List Nat)) (ret : HCFStringMap)
    (hseq : h_first_seq fuel k g p = none) :
    firstProds (fuel + 1) k g x (p :: rest) ret = none := by
  rw [firstProds]
  simp only [hseq]

theorem firstProds_eq_cons_some (fuel k : Nat) (g g2 : HCFGrammar) (x : Nat)
    (p : List Nat) (rest : List (List Nat)) (ret fs : HCFStringMap)
    (hseq : h_first_seq fuel k g p = some (fs, g2)) :
    firstProds (fuel + 1) k g x (p :: rest) ret
      = firstProds fuel k (putFirst g2 k x (h_stringmap_update ret fs)) x rest
          (h_stringmap_update ret fs) := by
  rw [firstProds]
  simp only [hseq]

theorem h_first_seq_eq_zero (k : Nat) (g : HCFGrammar) (s : List Nat) :
    h_first_seq 0 k g s = none := rfl

theorem h_first_seq_eq_nil (fuel k : Nat) (g : HCFGrammar) :
    h_first_seq (fuel + 1) k g [] = some (g.singleton_epsilon, g) := by
  rw [h_first_seq]

theorem h_first_seq_eq_cons_none (fuel k : Nat) (g : HCFGrammar) (x : Nat)
    (tail : List Nat) (hx : h_first fuel k g x = none) :
    h_first_seq (fuel + 1) k g (x :: tail) = none := by
  rw [h_first_seq]
  simp only [hx]

theorem h_first_seq_eq_cons_eps (fuel k : Nat) (g g2 : HCFGrammar) (x : Nat)
    (tail : List Nat) (first_x : HCFStringMap)
    (hx : h_first fuel k g x = some (first_x, g2))
    (hsing : is_singleton_epsilon first_x = true) :
    h_first_seq (fuel + 1) k g (x :: tail) = h_first_seq fuel k g2 tail := by
  rw [h_first_seq]
  simp only [hx, hsing, if_true]

theorem h_first_seq_eq_cons_full (fuel k : Nat) (g g2 : HCFGrammar) (x : Nat)
    (tail : List Nat) (first_x : HCFStringMap)
    (hx : h_first fuel k g x = some (first_x, g2))
    (hsing : is_singleton_epsilon first_x = false)
    (hsh : any_string_shorter k first_x = false) :
    h_first_seq (fuel + 1) k g (x :: tail) = some (first_x, g2) := by
  rw [h_first_seq]
  simp only [hx, hsing, hsh]
  rfl

theorem h_first_seq_eq_cons_ext (fuel k : Nat) (g g2 : HCFGrammar) (x : Nat)
    (tail : List Nat) (first_x : HCFStringMap)
    (hx : h_first fuel k g x = some (first_x, g2))
    (hsing : is_singleton_epsilon first_x = false)
    (hsh : any_string_shorter k first_x = true) :
    h_first_seq (fuel + 1) k g (x :: tail)
      = first_extend fuel k g2 first_x tail h_stringmap_new := by
  rw [h_first_seq]
  simp only [hx, hsing, hsh]
  rfl

theorem first_extend_eq_zero (k : Nat) (g : HCFGrammar) (as : HCFStringMap)
    (tail : List Nat) (ret : HCFStringMap) :
    first_extend 0 k g as tail ret = none := rfl

theorem first_extend_eq_no_eps (fuel k : Nat) (g : HCFGrammar)
    (aend : Option HSMVal) (acl : List (Nat × HCFStringMap))
    (tail : List Nat) (ret : HCFStringMap) :
    first_extend (fuel + 1) k g (.mk none aend acl) tail ret
      = extendChildren fuel k g acl tail
          (match aend with
           | some _ => h_stringmap_put_end ret INSET
           | none => ret) := by
  simp only [first_extend]

theorem first_extend_eq_eps_none (fuel k : Nat) (g : HCFGrammar) (v : HSMVal)
    (aend : Option HSMVal) (acl : List (Nat × HCFStringMap))
    (tail : List Nat) (ret : HCFStringMap)
    (hseq : h_first_seq fuel k g tail = none) :
    first_extend (fuel + 1) k g (.mk (some v) aend acl) tail ret = none := by
  simp only [first_extend, hseq]

theorem first_extend_eq_eps_some (fuel k : Nat) (g g2 : HCFGrammar) (v : HSMVal)
    (aend : Option HSMVal) (acl : List (Nat × HCFStringMap))
    (tail : List Nat) (ret fs : HCFStringMap)
    (hseq : h_first_seq fuel k g tail = some (fs, g2)) :
    first_extend (fuel + 1) k g (.mk (some v) aend acl) tail ret
      = extendChildren fuel k g2 acl tail
          (match aend with
           | some _ => h_stringmap_put_end (h_stringmap_update ret fs) INSET
           | none => h_stringmap_update ret fs) := by
  simp only [first_extend, hseq]

theorem extendChildren_eq_zero (k : Nat) (g : HCFGrammar)
    (cl : List (Nat × HCFStringMap)) (tail : List Nat) (ret : HCFStringMap) :
    extendChildren 0 k g cl tail ret = none := rfl

theorem extendChildren_eq_nil (fuel k : Nat) (g : HCFGrammar) (tail : List Nat)
    (ret : HCFStringMap) : extendChildren (fuel + 1) k g [] tail ret = some (ret, g) := by
  rw [extendChildren]

theorem extendChildren_eq_cons_none (fuel k : Nat) (g : HCFGrammar) (c : Nat)
    (as_ : HCFStringMap) (rest : List (Nat × HCFStringMap)) (tail : List Nat)
    (ret : HCFStringMap)
    (hext : first_extend fuel (sub1_64 k) g as_ tail h_stringmap_new = none) :
    extendChildren (fuel + 1) k g ((c, as_) :: rest) tail ret = none := by
  rw [extendChildren]
  simp only [hext]

theorem extendChildren_eq_cons_some (fuel k : Nat) (g g2 : HCFGrammar) (c : Nat)
    (as_ : HCFStringMap) (rest : List (Nat × HCFStringMap)) (tail : List Nat)
    (ret ret_ : HCFStringMap)
    (hext : first_extend fuel (sub1_64 k) g as_ tail h_stringmap_new = some (ret_, g2)) :
    extendChildren (fuel + 1) k g ((c, as_) :: rest) tail ret
      = extendChildren fuel k g2 rest tail (h_stringmap_put_char ret c (.sub ret_)) := by
  rw [extendChildren]
  simp only [hext]

theorem h_follow_eq_zero (k : Nat) (g : HCFGrammar) (x : Nat) :
    h_follow 0 k g x = none := rfl

theorem h_follow_eq_k0 (fuel : Nat) (g : HCFGrammar) (x : Nat) :
    h_follow (fuel + 1) 0 g x = some (g.singleton_epsilon, g) := by
  rw [h_follow, if_pos rfl]

theorem h_follow_eq_ensure_none (fuel k : Nat) (g : HCFGrammar) (x : Nat)
    (hk : k ≠ 0) (hens : ensure_k g k = none) : h_follow (fuel + 1) k g x = none := by
  rw [h_follow]
  simp only [if_neg hk, hens]

theorem h_follow_eq_hit (fuel k : Nat) (g g2 : HCFGrammar) (x : Nat) (ret : HCFStringMap)
    (hk : k ≠ 0) (hens : ensure_k g k = some g2)
    (hget : htGet (followTab g2 k) x = some ret) :
    h_follow (fuel + 1) k g x = some (ret, g2) := by
  rw [h_follow]
  simp only [if_neg hk, hens, hget]

theorem h_follow_eq_miss (fuel k : Nat) (g g2 : HCFGrammar) (x : Nat)
    (hk : k ≠ 0) (hens : ensure_k g k = some g2)
    (hget : htGet (followTab g2 k) x = none) :
    h_follow (fuel + 1) k g x
      = followNts fuel k
          (putFollow (putFollow g2 k x h_stringmap_new) k x
            (if x = g2.start then h_stringmap_put_end h_stringmap_new INSET
             else h_stringmap_new))
          x g2.nts
          (if x = g2.start then h_stringmap_put_end h_stringmap_new INSET
           else h_stringmap_new) := by
  rw [h_follow]
  simp only [if_neg hk, hens, hget]
  rfl

theorem followNts_eq_zero (k : Nat) (g : HCFGrammar) (x : Nat)
    (l : List (Nat × Nat)) (ret : HCFStringMap) : followNts 0 k g x l ret = none := rfl

theorem followNts_eq_nil (fuel k : Nat) (g : HCFGrammar) (x : Nat)
    (ret : HCFStringMap) : followNts (fuel + 1) k g x [] ret = some (ret, g) := by
  rw [followNts]

theorem followNts_eq_cons_bad (fuel k : Nat) (g : HCFGrammar) (x a v : Nat)
    (rest : List (Nat × Nat)) (ret : HCFStringMap)
    (henv : ∀ ps, g.env.get? a ≠ some (.choice ps)) :
    followNts (fuel + 1) k g x ((a, v) :: rest) ret = none := by
  rw [followNts]
  cases he : g.env.get? a with
  | none => rfl
  | some d =>
    cases d with
    | char c => rfl
    | hend => rfl
    | charset cs => rfl
    | choice ps => exact absurd he (henv ps)

theorem followNts_eq_cons_none (fuel k : Nat) (g : HCFGrammar) (x a v : Nat)
    (ps : List (List Nat)) (rest : List (Nat × Nat)) (ret : HCFStringMap)
    (henv : g.env.get? a = some (.choice ps))
    (hp : followProds fuel k g x a ps ret = none) :
    followNts (fuel + 1) k g x ((a, v) :: rest) ret = none := by
  rw [followNts]
  simp only [henv, hp]

theorem followNts_eq_cons_some (fuel k : Nat) (g g2 : HCFGrammar) (x a v : Nat)
    (ps : List (List Nat)) (rest : List (Nat × Nat)) (ret ret2 : HCFStringMap)
    (henv : g.env.get? a = some (.choice ps))
    (hp : followProds fuel k g x a ps ret = some (ret2, g2)) :
    followNts (fuel + 1) k g x ((a, v) :: rest) ret
      = followNts fuel k g2 x rest ret2 := by
  rw [followNts]
  simp only [henv, hp]

theorem followProds_eq_zero (k : Nat) (g : HCFGrammar) (x a : Nat)
    (ps : List (List Nat)) (ret : HCFStringMap) :
    followProds 0 k g x a ps ret = none := rfl

theorem followProds_eq_nil (fuel k : Nat) (g : HCFGrammar) (x a : Nat)
    (ret : HCFStringMap) : followProds (fuel + 1) k g x a [] ret = some (ret, g) := by
  rw [followProds]

theorem followProds_eq_cons_none (fuel k : Nat) (g : HCFGrammar) (x a : Nat)
    (p : List Nat) (rest : List (List Nat)) (ret : HCFStringMap)
    (ho : followOcc fuel k g x a p ret = none) :
    followProds (fuel + 1) k g x a (p :: rest) ret = none := by
  rw [followProds]
  simp only [ho]

theorem followProds_eq_cons_some (fuel k : Nat) (g g2 : HCFGrammar) (x a : Nat)
    (p : List Nat) (rest : List (List Nat)) (ret ret2 : HCFStringMap)
    (ho : followOcc fuel k g x a p ret = some (ret2, g2)) :
    followProds (fuel + 1) k g x a (p :: rest) ret
      = followProds fuel k g2 x a rest ret2 := by
  rw [followProds]
  simp only [ho]

theorem followOcc_eq_zero (k : Nat) (g : HCFGrammar) (x a : Nat)
    (s : List Nat) (ret : HCFStringMap) : followOcc 0 k g x a s ret = none := rfl

theorem followOcc_eq_nil (fuel k : Nat) (g : HCFGrammar) (x a : Nat)
    (ret : HCFStringMap) : followOcc (fuel + 1) k g x a [] ret = some (ret, g) := by
  rw [followOcc]

theorem followOcc_eq_cons_skip (fuel k : Nat) (g : HCFGrammar) (x a y : Nat)
    (tail : List Nat) (ret : HCFStringMap) (hy : y ≠ x) :
    followOcc (fuel + 1) k g x a (y :: tail) ret = followOcc fuel k g x a tail ret := by
  rw [followOcc]
  simp only [if_neg hy]

theorem followOcc_eq_cons_seq_none (fuel k : Nat) (g : HCFGrammar) (x a : Nat)
    (tail : List Nat) (ret : HCFStringMap)
    (hseq : h_first_seq fuel k g tail = none) :
    followOcc (fuel + 1) k g x a (x :: tail) ret = none := by
  rw [followOcc]
  simp only [if_pos rfl, hseq, if_true]

theorem followOcc_eq_cons_sse_none (fuel k : Nat) (g g2 : HCFGrammar) (x a : Nat)
    (tail : List Nat) (ret ft : HCFStringMap)
    (hseq : h_first_seq fuel k g tail = some (ft, g2))
    (hsse : stringset_extend fuel k g2 ft a ret = none) :
    followOcc (fuel + 1) k g x a (x :: tail) ret = none := by
  rw [followOcc]
  simp only [if_pos rfl, hseq, hsse, if_true]

theorem followOcc_eq_cons_sse_some (fuel k : Nat) (g g2 g3 : HCFGrammar) (x a : Nat)
    (tail : List Nat) (ret ft ret2 : HCFStringMap)
    (hseq : h_first_seq fuel k g tail = some (ft, g2))
    (hsse : stringset_extend fuel k g2 ft a ret = some (ret2, g3)) :
    followOcc (fuel + 1) k g x a (x :: tail) ret
      = followOcc fuel k (putFollow g3 k x ret2) x a tail ret2 := by
  rw [followOcc]
  simp only [if_pos rfl, hseq, hsse, if_true]

theorem stringset_extend_eq_zero (k : Nat) (g : HCFGrammar) (as : HCFStringMap)
    (a : Nat) (ret : HCFStringMap) : stringset_extend 0 k g as a ret = none := rfl

theorem stringset_extend_eq_no_eps (fuel k : Nat) (g : HCFGrammar)
    (aend : Option HSMVal) (acl : List (Nat × HCFStringMap))
    (a : Nat) (ret : HCFStringMap) :
    stringset_extend (fuel + 1) k g (.mk none aend acl) a ret
      = sseChildren fuel k g acl a
          (match aend with
           | some _ => h_stringmap_put_end ret INSET
           | none => ret) := by
  simp only [stringset_extend]

theorem stringset_extend_eq_eps_none (fuel k : Nat) (g : HCFGrammar) (v : HSMVal)
    (aend : Option HSMVal) (acl : List (Nat × HCFStringMap))
    (a : Nat) (ret : HCFStringMap)
    (hfol : h_follow fuel k g a = none) :
    stringset_extend (fuel + 1) k g (.mk (some v) aend acl) a ret = none := by
  simp only [stringset_extend, hfol]

theorem stringset_extend_eq_eps_some (fuel k : Nat) (g g2 : HCFGrammar) (v : HSMVal)
    (aend : Option HSMVal) (acl : List (Nat × HCFStringMap))
    (a : Nat) (ret fs : HCFStringMap)
    (hfol : h_follow fuel k g a = some (fs, g2)) :
    stringset_extend (fuel + 1) k g (.mk (some v) aend acl) a ret
      = sseChildren fuel k g2 acl a
          (match aend with
           | some _ => h_stringmap_put_end (h_stringmap_update ret fs) INSET
           | none => h_stringmap_update ret fs) := by
  simp only [stringset_extend, hfol]

theorem sseChildren_eq_zero (k : Nat) (g : HCFGrammar)
    (cl : List (Nat × HCFStringMap)) (a : Nat) (ret : HCFStringMap) :
    sseChildren 0 k g cl a ret = none := rfl

theorem sseChildren_eq_nil (fuel k : Nat) (g : HCFGrammar) (a : Nat)
    (ret : HCFStringMap) : sseChildren (fuel + 1) k g [] a ret = some (ret, g) := by
  rw [sseChildren]

theorem sseChildren_eq_cons_none (fuel k : Nat) (g : HCFGrammar) (c : Nat)
    (as_ : HCFStringMap) (rest : List (Nat × HCFStringMap)) (a : Nat)
    (ret : HCFStringMap)
    (hext : stringset_extend fuel (sub1_64 k) g as_ a h_stringmap_new = none) :
    sseChildren (fuel + 1) k g ((c, as_) :: rest) a ret = none := by
  rw [sseChildren]
  simp only [hext]

theorem sseChildren_eq_cons_some (fuel k : Nat) (g g2 : HCFGrammar) (c : Nat)
    (as_ : HCFStringMap) (rest : List (Nat × HCFStringMap)) (a : Nat)
    (ret ret_ : HCFStringMap)
    (hext : stringset_extend fuel (sub1_64 k) g as_ a h_stringmap_new = some (ret_, g2)) :
    sseChildren (fuel + 1) k g ((c, as_) :: rest) a ret
      = sseChildren fuel k g2 rest a (h_stringmap_put_char ret c (.sub ret_)) := by
  rw [sseChildren]
  simp only [hext]

/-! ## Fuel monotonicity -/

theorem fuelMono : ∀ fuel : Nat,
    (∀ k g x r, h_first fuel k g x = some r → h_first (fuel + 1) k g x = some r) ∧
    (∀ k g x ps ret r, firstProds fuel k g x ps ret = some r →
      firstProds (fuel + 1) k g x ps ret = some r) ∧
    (∀ k g s r, h_first_seq fuel k g s = some r → h_first_seq (fuel + 1) k g s = some r) ∧
    (∀ k g as tail ret r, first_extend fuel k g as tail ret = some r →
      first_extend (fuel + 1) k g as tail ret = some r) ∧
    (∀ k g cl tail ret r, extendChildren fuel k g cl tail ret = some r →
      extendChildren (fuel + 1) k g cl tail ret = some r) ∧
    (∀ k g x r, h_follow fuel k g x = some r → h_follow (fuel + 1) k g x = some r) ∧
    (∀ k g x l ret r, followNts fuel k g x l ret = some r →
      followNts (fuel + 1) k g x l ret = some r) ∧
    (∀ k g x a ps ret r, followProds fuel k g x a ps ret = some r →
      followProds (fuel + 1) k g x a ps ret = some r) ∧
    (∀ k g x a s ret r, followOcc fuel k g x a s ret = some r →
      followOcc (fuel + 1) k g x a s ret = some r) ∧
    (∀ k g as a ret r, stringset_extend fuel k g as a ret = some r →
      stringset_extend (fuel + 1) k g as a ret = some r) ∧
    (∀ k g cl a ret r, sseChildren fuel k g cl a ret = some r →
      sseChildren (fuel + 1) k g cl a ret = some r) := by
  intro fuel
  induction fuel with
  | zero =>
    refine ⟨?_, ?_, ?_, ?_, ?_, ?_, ?_, ?_, ?_, ?_, ?_⟩ <;> intros <;>
      simp_all [h_first_eq_zero, firstProds_eq_zero, h_first_seq_eq_zero,
        first_extend_eq_zero, extendChildren_eq_zero, h_follow_eq_zero,
        followNts_eq_zero, followProds_eq_zero, followOcc_eq_zero,
        stringset_extend_eq_zero, sseChildren_eq_zero]
  | succ fuel ih =>
    obtain ⟨ihf, ihfp, ihseq, ihext, ihec, ihfo, ihfn, ihfpr, ihocc, ihsse, ihsc⟩ := ih
    refine ⟨?_, ?_, ?_, ?_, ?_, ?_, ?_, ?_, ?_, ?_, ?_⟩
    · -- h_first
      intro k g x r h
      by_cases hk : k = 0
      · subst hk; rw [h_first_eq_k0] at h; rw [h_first_eq_k0]; exact h
      · cases hens : ensure_k g k with
        | none =>
          rw [h_first_eq_ensure_none fuel k g x hk hens] at h; cases h
        | some g2 =>
          cases hget : htGet (firstTab g2 k) x with
          | some m =>
            rw [h_first_eq_hit fuel k g g2 x m hk hens hget] at h
            rw [h_first_eq_hit (fuel + 1) k g g2 x m hk hens hget]; exact h
          | none =>
            cases henv : g2.env.get? x with
            | none =>
              rw [h_first_eq_env_none fuel k g g2 x hk hens hget henv] at h; cases h
            | some d =>
              cases d with
              | hend =>
                rw [h_first_eq_hend fuel k g g2 x hk hens hget henv] at h
                rw [h_first_eq_hend (fuel + 1) k g g2 x hk hens hget henv]; exact h
              | char c =>
                rw [h_first_eq_char fuel k g g2 x c hk hens hget henv] at h
                rw [h_first_eq_char (fuel + 1) k g g2 x c hk hens hget henv]; exact h
              | charset cs =>
                rw [h_first_eq_charset fuel k g g2 x cs hk hens hget henv] at h
                rw [h_first_eq_charset (fuel + 1) k g g2 x cs hk hens hget henv]; exact h
              | choice ps =>
                rw [h_first_eq_choice fuel k g g2 x ps hk hens hget henv] at h
                rw [h_first_eq_choice (fuel + 1) k g g2 x ps hk hens hget henv]
                exact ihfp _ _ _ _ _ _ h
    · -- firstProds
      intro k g x ps ret r h
      cases ps with
      | nil =>
        rw [firstProds_eq_nil] at h; rw [firstProds_eq_nil]; exact h
      | cons p rest =>
        cases hseq : h_first_seq fuel k g p with
        | none => rw [firstProds_eq_cons_none fuel k g x p rest ret hseq] at h; cases h
        | some fg =>
          obtain ⟨fs, g2⟩ := fg
          rw [firstProds_eq_cons_some fuel k g g2 x p rest ret fs hseq] at h
          rw [firstProds_eq_cons_some (fuel + 1) k g g2 x p rest ret fs
            (ihseq _ _ _ _ hseq)]
          exact ihfp _ _ _ _ _ _ h
    · -- h_first_seq
      intro k g s r h
      cases s with
      | nil => rw [h_first_seq_eq_nil] at h; rw [h_first_seq_eq_nil]; exact h
      | cons x tail =>
        cases hx : h_first fuel k g x with
        | none => rw [h_first_seq_eq_cons_none fuel k g x tail hx] at h; cases h
        | some fg =>
          obtain ⟨first_x, g2⟩ := fg
          cases hsing : is_singleton_epsilon first_x with
          | true =>
            rw [h_first_seq_eq_cons_eps fuel k g g2 x tail first_x hx hsing] at h
            rw [h_first_seq_eq_cons_eps (fuel + 1) k g g2 x tail first_x
              (ihf _ _ _ _ hx) hsing]
            exact ihseq _ _ _ _ h
          | false =>
            cases hsh : any_string_shorter k first_x with
            | false =>
              rw [h_first_seq_eq_cons_full fuel k g g2 x tail first_x hx hsing hsh] at h
              rw [h_first_seq_eq_cons_full (fuel + 1) k g g2 x tail first_x
                (ihf _ _ _ _ hx) hsing hsh]
              exact h
            | true =>
              rw [h_first_seq_eq_cons_ext fuel k g g2 x tail first_x hx hsing hsh] at h
              rw [h_first_seq_eq_cons_ext (fuel + 1) k g g2 x tail first_x
                (ihf _ _ _ _ hx) hsing hsh]
              exact ihext _ _ _ _ _ _ h
    · -- first_extend
      intro k g as tail ret r h
      obtain ⟨aeps, aend, acl⟩ := as
      cases aeps with
      | none =>
        rw [first_extend_eq_no_eps fuel k g aend acl tail ret] at h
        rw [first_extend_eq_no_eps (fuel + 1) k g aend acl tail ret]
        exact ihec _ _ _ _ _ _ h
      | some v =>
        cases hseq : h_first_seq fuel k g tail with
        | none =>
          rw [first_extend_eq_eps_none fuel k g v aend acl tail ret hseq] at h; cases h
        | some fg =>
          obtain ⟨fs, g2⟩ := fg
          rw [first_extend_eq_eps_some fuel k g g2 v aend acl tail ret fs hseq] at h
          rw [first_extend_eq_eps_some (fuel + 1) k g g2 v aend acl tail ret fs
            (ihseq _ _ _ _ hseq)]
          exact ihec _ _ _ _ _ _ h
    · -- extendChildren
      intro k g cl tail ret r h
      cases cl with
      | nil => rw [extendChildren_eq_nil] at h; rw [extendChildren_eq_nil]; exact h
      | cons p rest =>
        obtain ⟨c, as_⟩ := p
        cases hext : first_extend fuel (sub1_64 k) g as_ tail h_stringmap_new with
        | none =>
          rw [extendChildren_eq_cons_none fuel k g c as_ rest tail ret hext] at h
          cases h
        | some rg =>
          obtain ⟨ret_, g2⟩ := rg
          rw [extendChildren_eq_cons_some fuel k g g2 c as_ rest tail ret ret_ hext] at h
          rw [extendChildren_eq_cons_some (fuel + 1) k g g2 c as_ rest tail ret ret_
            (ihext _ _ _ _ _ _ hext)]
          exact ihec _ _ _ _ _ _ h
    · -- h_follow
      intro k g x r h
      by_cases hk : k = 0
      · subst hk; rw [h_follow_eq_k0] at h; rw [h_follow_eq_k0]; exact h
      · cases hens : ensure_k g k with
        | none => rw [h_follow_eq_ensure_none fuel k g x hk hens] at h; cases h
        | some g2 =>
          cases hget : htGet (followTab g2 k) x with
          | some m =>
            rw [h_follow_eq_hit fuel k g g2 x m hk hens hget] at h
            rw [h_follow_eq_hit (fuel + 1) k g g2 x m hk hens hget]; exact h
          | none =>
            rw [h_follow_eq_miss fuel k g g2 x hk hens hget] at h
            rw [h_follow_eq_miss (fuel + 1) k g g2 x hk hens hget]
            exact ihfn _ _ _ _ _ _ h
    · -- followNts
      intro k g x l ret r h
      cases l with
      | nil => rw [followNts_eq_nil] at h; rw [followNts_eq_nil]; exact h
      | cons p rest =>
        obtain ⟨a, v⟩ := p
        cases henv : g.env.get? a with
        | none =>
          have hbad : ∀ ps, g.env.get? a ≠ some (.choice ps) := by
            intro ps hps; rw [henv] at hps; cases hps
          rw [followNts_eq_cons_bad fuel k g x a v rest ret hbad] at h; cases h
        | some d =>
          cases d with
          | char c =>
            have hbad : ∀ ps, g.env.get? a ≠ some (.choice ps) := by
              intro ps hps; rw [henv] at hps; cases hps
            rw [followNts_eq_cons_bad fuel k g x a v rest ret hbad] at h; cases h
          | hend =>
            have hbad : ∀ ps, g.env.get? a ≠ some (.choice ps) := by
              intro ps hps; rw [henv] at hps; cases hps
            rw [followNts_eq_cons_bad fuel k g x a v rest ret hbad] at h; cases h
          | charset cs =>
            have hbad : ∀ ps, g.env.get? a ≠ some (.choice ps) := by
              intro ps hps; rw [henv] at hps; cases hps
            rw [followNts_eq_cons_bad fuel k g x a v rest ret hbad] at h; cases h
          | choice ps =>
            cases hp : followProds fuel k g x a ps ret with
            | none =>
              rw [followNts_eq_cons_none fuel k g x a v ps rest ret henv hp] at h
              cases h
            | some rg =>
              obtain ⟨ret2, g2⟩ := rg
              rw [followNts_eq_cons_some fuel k g g2 x a v ps rest ret ret2 henv hp] at h
              rw [followNts_eq_cons_some (fuel + 1) k g g2 x a v ps rest ret ret2 henv
                (ihfpr _ _ _ _ _ _ _ hp)]
              exact ihfn _ _ _ _ _ _ h
    · -- followProds
      intro k g x a ps ret r h
      cases ps with
      | nil => rw [followProds_eq_nil] at h; rw [followProds_eq_nil]; exact h
      | cons p rest =>
        cases ho : followOcc fuel k g x a p ret with
        | none => rw [followProds_eq_cons_none fuel k g x a p rest ret ho] at h; cases h
        | some rg =>
          obtain ⟨ret2, g2⟩ := rg
          rw [followProds_eq_cons_some fuel k g g2 x a p rest ret ret2 ho] at h
          rw [followProds_eq_cons_some (fuel + 1) k g g2 x a p rest ret ret2
            (ihocc _ _ _ _ _ _ _ ho)]
          exact ihfpr _ _ _ _ _ _ _ h
    · -- followOcc
      intro k g x a s ret r h
      cases s with
      | nil => rw [followOcc_eq_nil] at h; rw [followOcc_eq_nil]; exact h
      | cons y tail =>
        by_cases hy : y = x
        · subst hy
          cases hseq : h_first_seq fuel k g tail with
          | none =>
            rw [followOcc_eq_cons_seq_none fuel k g y a tail ret hseq] at h; cases h
          | some fg =>
            obtain ⟨ft, g2⟩ := fg
            cases hsse : stringset_extend fuel k g2 ft a ret with
            | none =>
              rw [followOcc_eq_cons_sse_none fuel k g g2 y a tail ret ft hseq hsse] at h
              cases h
            | some rg =>
              obtain ⟨ret2, g3⟩ := rg
              rw [followOcc_eq_cons_sse_some fuel k g g2 g3 y a tail ret ft ret2
                hseq hsse] at h
              rw [followOcc_eq_cons_sse_some (fuel + 1) k g g2 g3 y a tail ret ft ret2
                (ihseq _ _ _ _ hseq) (ihsse _ _ _ _ _ _ hsse)]
              exact ihocc _ _ _ _ _ _ _ h
        · rw [followOcc_eq_cons_skip fuel k g x a y tail ret hy] at h
          rw [followOcc_eq_cons_skip (fuel + 1) k g x a y tail ret hy]
          exact ihocc _ _ _ _ _ _ _ h
    · -- stringset_extend
      intro k g as a ret r h
      obtain ⟨aeps, aend, acl⟩ := as
      cases aeps with
      | none =>
        rw [stringset_extend_eq_no_eps fuel k g aend acl a ret] at h
        rw [stringset_extend_eq_no_eps (fuel + 1) k g aend acl a ret]
        exact ihsc _ _ _ _ _ _ h
      | some v =>
        cases hfol : h_follow fuel k g a with
        | none =>
          rw [stringset_extend_eq_eps_none fuel k g v aend acl a ret hfol] at h; cases h
        | some fg =>
          obtain ⟨fs, g2⟩ := fg
          rw [stringset_extend_eq_eps_some fuel k g g2 v aend acl a ret fs hfol] at h
          rw [stringset_extend_eq_eps_some (fuel + 1) k g g2 v aend acl a ret fs
            (ihfo _ _ _ _ hfol)]
          exact ihsc _ _ _ _ _ _ h
    · -- sseChildren
      intro k g cl a ret r h
      cases cl with
      | nil => rw [sseChildren_eq_nil] at h; rw [sseChildren_eq_nil]; exact h
      | cons p rest =>
        obtain ⟨c, as_⟩ := p
        cases hext : stringset_extend fuel (sub1_64 k) g as_ a h_stringmap_new with
        | none =>
          rw [sseChildren_eq_cons_none fuel k g c as_ rest a ret hext] at h; cases h
        | some rg =>
          obtain ⟨ret_, g2⟩ := rg
          rw [sseChildren_eq_cons_some fuel k g g2 c as_ rest a ret ret_ hext] at h
          rw [sseChildren_eq_cons_some (fuel + 1) k g g2 c as_ rest a ret ret_
            (ihsse _ _ _ _ _ _ hext)]
          exact ihsc _ _ _ _ _ _ h

theorem h_first_mono_le (f1 f2 k : Nat) (g : HCFGrammar) (x : Nat)
    (r : HCFStringMap × HCFGrammar) (hle : f1 ≤ f2)
    (h : h_first f1 k g x = some r) : h_first f2 k g x = some r := by
  induction hle with
  | refl => exact h
  | step _ ih => exact (fuelMono _).1 _ _ _ _ ih

theorem h_first_seq_mono_le (f1 f2 k : Nat) (g : HCFGrammar) (s : List Nat)
    (r : HCFStringMap × HCFGrammar) (hle : f1 ≤ f2)
    (h : h_first_seq f1 k g s = some r) : h_first_seq f2 k g s = some r := by
  induction hle with
  | refl => exact h
  | step _ ih => exact (fuelMono _).2.2.1 _ _ _ _ ih

theorem h_follow_mono_le (f1 f2 k : Nat) (g : HCFGrammar) (x : Nat)
    (r : HCFStringMap × HCFGrammar) (hle : f1 ≤ f2)
    (h : h_follow f1 k g x = some r) : h_follow f2 k g x = some r := by
  induction hle with
  | refl => exact h
  | step _ ih => exact (fuelMono _).2.2.2.2.2.1 _ _ _ _ ih


/-! ## State-invariant helper lemmas -/

theorem list_len_two {α : Type} (l : List α) (h : l.length = 2) : ∃ a b, l = [a, b] := by
  cases l with
  | nil => cases h
  | cons a t =>
    cases t with
    | nil => simp at h
    | cons b t2 =>
      cases t2 with
      | nil => exact ⟨a, b, rfl⟩
      | cons c t3 => simp at h

theorem ensure_k_cases (g g2 : HCFGrammar) (k : Nat) (h : ensure_k g k = some g2) :
    (k ≤ g.kmax ∧ g2 = g) ∨
    (¬ k ≤ g.kmax ∧ k = 1 ∧
      g2 = { g with first := [[], []], follow := [[], []], kmax := 1 }) := by
  unfold ensure_k at h
  split_ifs at h with h1 h2
  · exact Or.inl ⟨h1, (Option.some.inj h).symm⟩
  · exact Or.inr ⟨h1, h2, (Option.some.inj h).symm⟩

theorem EnvEq_refl (g : HCFGrammar) : EnvEq g g := ⟨rfl, rfl, rfl, rfl, rfl⟩

theorem EnvEq_trans (g1 g2 g3 : HCFGrammar) (h : EnvEq g1 g2) (h' : EnvEq g2 g3) :
    EnvEq g1 g3 :=
  ⟨h'.1.trans h.1, h'.2.1.trans h.2.1, h'.2.2.1.trans h.2.2.1,
   h'.2.2.2.1.trans h.2.2.2.1, h'.2.2.2.2.trans h.2.2.2.2⟩

theorem EnvEq_putFirst (g : HCFGrammar) (k x : Nat) (m : HCFStringMap) :
    EnvEq g (putFirst g k x m) := ⟨rfl, rfl, rfl, rfl, rfl⟩

theorem EnvEq_putFollow (g : HCFGrammar) (k x : Nat) (m : HCFStringMap) :
    EnvEq g (putFollow g k x m) := ⟨rfl, rfl, rfl, rfl, rfl⟩

theorem FolEq_refl (g : HCFGrammar) : FolEq g g := fun _ _ => rfl

theorem FolEq_trans (g1 g2 g3 : HCFGrammar) (h : FolEq g1 g2) (h' : FolEq g2 g3) :
    FolEq g1 g3 := fun j y => (h' j y).trans (h j y)

theorem SEI_transport (g g' : HCFGrammar) (hE : EnvEq g g') (hF : FolEq g g')
    (hS : StartEndInv g) : StartEndInv g' := by
  intro m hm
  rw [hF 1 g'.start, hE.2.1] at hm
  exact hS m hm

theorem WFG_ensure (g g2 : HCFGrammar) (k : Nat) (hW : WFG g)
    (h : ensure_k g k = some g2) :
    WFG g2 ∧ EnvEq g g2 ∧ g.kmax ≤ g2.kmax ∧ FolEq g g2 ∧
      (k ≠ 0 → k = 1 ∧ g2.kmax = 1) := by
  rcases ensure_k_cases g g2 k h with ⟨hk, hg⟩ | ⟨hk, hk1, hg⟩
  · subst hg
    refine ⟨hW, EnvEq_refl _, le_refl _, FolEq_refl _, ?_⟩
    intro hk0
    have hb := hW.1
    have h1 : k = 1 := by omega
    subst h1
    exact ⟨rfl, by omega⟩
  · subst hk1
    have hk0 : g.kmax = 0 := by
      have := hW.1; omega
    obtain ⟨hf0, hfo0⟩ := hW.2.1 hk0
    have hfir : firstTab g2 1 = [] := by rw [hg]; rfl
    have hfol : ∀ j, followTab g2 j = [] := by
      intro j
      rw [hg]
      unfold followTab
      match j with
      | 0 => rfl
      | 1 => rfl
      | _ + 2 => rfl
    have hkm : g2.kmax = 1 := by rw [hg]
    refine ⟨?_, ?_, ?_, ?_, fun _ => ⟨rfl, hkm⟩⟩
    · refine ⟨by omega, ?_, fun _ => ?_, ?_, ?_, ?_⟩
      · intro h0; rw [hkm] at h0; exact absurd h0 one_ne_zero
      · rw [hg]; exact ⟨rfl, rfl⟩
      · rw [hg]; exact hW.2.2.2.1
      · intro p hp; rw [hfir] at hp; cases hp
      · intro p hp; rw [hfol 1] at hp; cases hp
    · rw [hg]; exact ⟨rfl, rfl, rfl, rfl, rfl⟩
    · omega
    · intro j y
      have h1 : followTab g j = [] := by
        unfold followTab; rw [hfo0]; cases j <;> rfl
      rw [h1, hfol j]

theorem firstTab_putFollow (g : HCFGrammar) (k x : Nat) (m : HCFStringMap) (j : Nat) :
    firstTab (putFollow g k x m) j = firstTab g j := rfl

theorem followTab_putFirst (g : HCFGrammar) (k x : Nat) (m : HCFStringMap) (j : Nat) :
    followTab (putFirst g k x m) j = followTab g j := rfl

theorem firstTab_putFirst_one (g : HCFGrammar) (x : Nat) (m : HCFStringMap)
    (h2 : g.first.length = 2) :
    firstTab (putFirst g 1 x m) 1 = htPut (firstTab g 1) x m := by
  obtain ⟨a, b, hab⟩ := list_len_two g.first h2
  simp only [firstTab, putFirst]
  rw [hab]
  rfl

theorem followTab_putFollow_one (g : HCFGrammar) (x : Nat) (m : HCFStringMap)
    (h2 : g.follow.length = 2) :
    followTab (putFollow g 1 x m) 1 = htPut (followTab g 1) x m := by
  obtain ⟨a, b, hab⟩ := list_len_two g.follow h2
  simp only [followTab, putFollow]
  rw [hab]
  rfl

theorem WFG_putFirst (g : HCFGrammar) (x : Nat) (m : HCFStringMap)
    (hW : WFG g) (hm : SMWF m) : WFG (putFirst g 1 x m) := by
  obtain ⟨hk1, h0, h1, hsng, hfe, hfoe⟩ := hW
  refine ⟨hk1, ?_, ?_, hsng, ?_, hfoe⟩
  · intro hz
    obtain ⟨ha, hb⟩ := h0 hz
    constructor
    · show (g.first.set 1 _) = []
      rw [ha]; rfl
    · exact hb
  · intro hz
    obtain ⟨ha, hb⟩ := h1 hz
    exact ⟨by simp only [putFirst, List.length_set]; exact ha, hb⟩
  · intro p hp
    by_cases hl : g.first.length = 2
    · rw [firstTab_putFirst_one g x m hl] at hp
      rcases mem_htPut (firstTab g 1) x m p hp with h' | h'
      · exact hfe p h'
      · rw [h']; exact hm
    · have hz : g.kmax = 0 := by
        rcases Nat.lt_or_ge g.kmax 1 with h' | h'
        · omega
        · exact absurd (h1 (by omega)).1 hl
      obtain ⟨ha, _⟩ := h0 hz
      have he : firstTab (putFirst g 1 x m) 1 = [] := by
        show ((g.first.set 1 _).get? 1).getD [] = []
        rw [ha]; rfl
      rw [he] at hp
      cases hp

theorem WFG_putFollow (g : HCFGrammar) (x : Nat) (m : HCFStringMap)
    (hW : WFG g) (hm : SMWF m) : WFG (putFollow g 1 x m) := by
  obtain ⟨hk1, h0, h1, hsng, hfe, hfoe⟩ := hW
  refine ⟨hk1, ?_, ?_, hsng, hfe, ?_⟩
  · intro hz
    obtain ⟨ha, hb⟩ := h0 hz
    constructor
    · exact ha
    · show (g.follow.set 1 _) = []
      rw [hb]; rfl
  · intro hz
    obtain ⟨ha, hb⟩ := h1 hz
    exact ⟨ha, by simp only [putFollow, List.length_set]; exact hb⟩
  · intro p hp
    by_cases hl : g.follow.length = 2
    · rw [followTab_putFollow_one g x m hl] at hp
      rcases mem_htPut (followTab g 1) x m p hp with h' | h'
      · exact hfoe p h'
      · rw [h']; exact hm
    · have hz : g.kmax = 0 := by
        rcases Nat.lt_or_ge g.kmax 1 with h' | h'
        · omega
        · exact absurd (h1 (by omega)).2 hl
      obtain ⟨_, hb⟩ := h0 hz
      have he : followTab (putFollow g 1 x m) 1 = [] := by
        show ((g.follow.set 1 _).get? 1).getD [] = []
        rw [hb]; rfl
      rw [he] at hp
      cases hp

theorem FolEq_putFirst (g : HCFGrammar) (k x : Nat) (m : HCFStringMap) :
    FolEq g (putFirst g k x m) := fun _ _ => rfl

theorem SEI_putFollow (g : HCFGrammar) (x : Nat) (m : HCFStringMap)
    (hl : g.follow.length = 2)
    (hS : StartEndInv g) (hend : x = g.start → m.end_branch.isSome = true) :
    StartEndInv (putFollow g 1 x m) := by
  intro n hn
  rw [show (putFollow g 1 x m).start = g.start from rfl,
    followTab_putFollow_one g x m hl, htGet_put] at hn
  by_cases hx : x = g.start
  · rw [if_pos hx] at hn
    rw [← Option.some.inj hn]
    exact hend hx
  · rw [if_neg hx] at hn
    exact hS n hn

theorem SMWF_firstTab_entry (g : HCFGrammar) (x : Nat) (m : HCFStringMap)
    (hW : WFG g) (h : htGet (firstTab g 1) x = some m) : SMWF m :=
  hW.2.2.2.2.1 (x, m) (htGet_mem _ _ _ h)

theorem SMWF_followTab_entry (g : HCFGrammar) (x : Nat) (m : HCFStringMap)
    (hW : WFG g) (h : htGet (followTab g 1) x = some m) : SMWF m :=
  hW.2.2.2.2.2 (x, m) (htGet_mem _ _ _ h)

theorem SMWF_singleton_of_WFG (g : HCFGrammar) (hW : WFG g) :
    SMWF g.singleton_epsilon := by
  rw [hW.2.2.2.1]
  exact SMWF_singleton

theorem put_char_end (m : HCFStringMap) (c : Nat) (v : HSMVal) :
    (h_stringmap_put_char m c v).end_branch = m.end_branch := rfl

theorem put_end_end (m : HCFStringMap) (v : HSMVal) :
    (h_stringmap_put_end m v).end_branch = some v := rfl


theorem some_pair_inj {α β : Type} {a c : α} {b d : β}
    (h : (some (a, b) : Option (α × β)) = some (c, d)) : a = c ∧ b = d := by
  injection h with h1
  injection h1 with h2 h3
  exact ⟨h2, h3⟩

theorem update_end_mono (A B : HCFStringMap) (h : A.end_branch.isSome = true) :
    (h_stringmap_update A B).end_branch.isSome = true := by
  rw [update_end]
  split
  · assumption
  · exact h

theorem SEI_double_putFollow (g2 : HCFGrammar) (x : Nat) (R : HCFStringMap)
    (h2 : g2.follow.length = 2) (hS : StartEndInv g2)
    (hend : x = g2.start → R.end_branch.isSome = true) :
    StartEndInv (putFollow (putFollow g2 1 x h_stringmap_new) 1 x R) := by
  intro n hn
  have hl2 : (putFollow g2 1 x h_stringmap_new).follow.length = 2 := by
    simp only [putFollow, List.length_set]; exact h2
  rw [show (putFollow (putFollow g2 1 x h_stringmap_new) 1 x R).start = g2.start from rfl,
    followTab_putFollow_one _ x R hl2, htGet_put] at hn
  by_cases hx : x = g2.start
  · rw [if_pos hx] at hn
    rw [← Option.some.inj hn]
    exact hend hx
  · rw [if_neg hx] at hn
    rw [show followTab (putFollow g2 1 x h_stringmap_new) 1
        = htPut (followTab g2 1) x h_stringmap_new from
        followTab_putFollow_one g2 x _ h2, htGet_put, if_neg hx] at hn
    exact hS n hn

/-- Invariant preservation across every function of the FIRST/FOLLOW engine:
the non-table grammar fields are unchanged, `kmax` only grows, grammar
well-formedness is preserved, the FIRST side never touches a FOLLOW memo
entry, every produced string set is leaf-shaped, the FOLLOW set of the start
symbol always carries End, and the FOLLOW accumulator's End flag is never
cleared. -/
theorem invPres : ∀ fuel : Nat,
    (∀ k g x A g', WFG g → h_first fuel k g x = some (A, g') →
      EnvEq g g' ∧ g.kmax ≤ g'.kmax ∧ WFG g' ∧ FolEq g g' ∧ SMWF A) ∧
    (∀ k g x ps ret ret' g', k = 1 → WFG g → SMWF ret →
      firstProds fuel k g x ps ret = some (ret', g') →
      EnvEq g g' ∧ g.kmax ≤ g'.kmax ∧ WFG g' ∧ FolEq g g' ∧ SMWF ret') ∧
    (∀ k g s A g', WFG g → h_first_seq fuel k g s = some (A, g') →
      EnvEq g g' ∧ g.kmax ≤ g'.kmax ∧ WFG g' ∧ FolEq g g' ∧ SMWF A) ∧
    (∀ k g as tail ret ret' g', WFG g → SMWF ret →
      first_extend fuel k g as tail ret = some (ret', g') →
      EnvEq g g' ∧ g.kmax ≤ g'.kmax ∧ WFG g' ∧ FolEq g g' ∧ SMWF ret') ∧
    (∀ k g cl tail ret ret' g', WFG g → SMWF ret →
      extendChildren fuel k g cl tail ret = some (ret', g') →
      EnvEq g g' ∧ g.kmax ≤ g'.kmax ∧ WFG g' ∧ FolEq g g' ∧ SMWF ret') ∧
    (∀ k g x ret g', WFG g → StartEndInv g → h_follow fuel k g x = some (ret, g') →
      EnvEq g g' ∧ g.kmax ≤ g'.kmax ∧ WFG g' ∧ StartEndInv g' ∧ SMWF ret ∧
        (x = g.start → k ≠ 0 → ret.end_branch.isSome = true)) ∧
    (∀ k g x l ret ret' g', k = 1 → g.kmax = 1 → WFG g → StartEndInv g → SMWF ret →
      (x = g.start → ret.end_branch.isSome = true) →
      followNts fuel k g x l ret = some (ret', g') →
      EnvEq g g' ∧ g.kmax ≤ g'.kmax ∧ WFG g' ∧ StartEndInv g' ∧ SMWF ret' ∧
        (x = g.start → ret'.end_branch.isSome = true)) ∧
    (∀ k g x a ps ret ret' g', k = 1 → g.kmax = 1 → WFG g → StartEndInv g →
      SMWF ret → (x = g.start → ret.end_branch.isSome = true) →
      followProds fuel k g x a ps ret = some (ret', g') →
      EnvEq g g' ∧ g.kmax ≤ g'.kmax ∧ WFG g' ∧ StartEndInv g' ∧ SMWF ret' ∧
        (x = g.start → ret'.end_branch.isSome = true)) ∧
    (∀ k g x a s ret ret' g', k = 1 → g.kmax = 1 → WFG g → StartEndInv g →
      SMWF ret → (x = g.start → ret.end_branch.isSome = true) →
      followOcc fuel k g x a s ret = some (ret', g') →
      EnvEq g g' ∧ g.kmax ≤ g'.kmax ∧ WFG g' ∧ StartEndInv g' ∧ SMWF ret' ∧
        (x = g.start → ret'.end_branch.isSome = true)) ∧
    (∀ k g as a ret ret' g', WFG g → StartEndInv g → SMWF ret →
      stringset_extend fuel k g as a ret = some (ret', g') →
      EnvEq g g' ∧ g.kmax ≤ g'.kmax ∧ WFG g' ∧ StartEndInv g' ∧ SMWF ret' ∧
        (ret.end_branch.isSome = true → ret'.end_branch.isSome = true)) ∧
    (∀ k g cl a ret ret' g', WFG g → StartEndInv g → SMWF ret →
      sseChildren fuel k g cl a ret = some (ret', g') →
      EnvEq g g' ∧ g.kmax ≤ g'.kmax ∧ WFG g' ∧ StartEndInv g' ∧ SMWF ret' ∧
        (ret.end_branch.isSome = true → ret'.end_branch.isSome = true)) := by
  intro fuel
  induction fuel with
  | zero =>
    refine ⟨?_, ?_, ?_, ?_, ?_, ?_, ?_, ?_, ?_, ?_, ?_⟩ <;> intros <;>
      simp_all [h_first_eq_zero, firstProds_eq_zero, h_first_seq_eq_zero,
        first_extend_eq_zero, extendChildren_eq_zero, h_follow_eq_zero,
        followNts_eq_zero, followProds_eq_zero, followOcc_eq_zero,
        stringset_extend_eq_zero, sseChildren_eq_zero]
  | succ fuel ih =>
    obtain ⟨ihf, ihfp, ihseq, ihext, ihec, ihfo, ihfn, ihfpr, ihocc, ihsse, ihsc⟩ := ih
    refine ⟨?_, ?_, ?_, ?_, ?_, ?_, ?_, ?_, ?_, ?_, ?_⟩
    · -- h_first
      intro k g x A g' hW h
      by_cases hk : k = 0
      · subst hk
        rw [h_first_eq_k0] at h
        obtain ⟨h1, h2⟩ := some_pair_inj h
        subst h1; subst h2
        exact ⟨EnvEq_refl g, le_refl _, hW, FolEq_refl g, SMWF_singleton_of_WFG g hW⟩
      · cases hens : ensure_k g k with
        | none => rw [h_first_eq_ensure_none fuel k g x hk hens] at h; cases h
        | some g2 =>
          obtain ⟨hW2, hE2, hm2, hF2, hk1⟩ := WFG_ensure g g2 k hW hens
          obtain ⟨hke, hkm2⟩ := hk1 hk
          subst hke
          cases hget : htGet (firstTab g2 1) x with
          | some m =>
            rw [h_first_eq_hit fuel 1 g g2 x m hk hens hget] at h
            obtain ⟨h1, h2⟩ := some_pair_inj h
            subst h1; subst h2
            exact ⟨hE2, hm2, hW2, hF2, SMWF_firstTab_entry g2 x m hW2 hget⟩
          | none =>
            cases henv : g2.env.get? x with
            | none =>
              rw [h_first_eq_env_none fuel 1 g g2 x hk hens hget henv] at h; cases h
            | some d =>
              cases d with
              | hend =>
                rw [h_first_eq_hend fuel 1 g g2 x hk hens hget henv] at h
                obtain ⟨h1, h2⟩ := some_pair_inj h
                subst h1; subst h2
                refine ⟨EnvEq_trans _ _ _ hE2 ⟨rfl, rfl, rfl, rfl, rfl⟩, hm2,
                  WFG_putFirst _ x _ (WFG_putFirst g2 x _ hW2 SMWF_new)
                    (SMWF_put_end _ _ SMWF_new),
                  FolEq_trans _ _ _ hF2 (fun _ _ => rfl),
                  SMWF_put_end _ _ SMWF_new⟩
              | char c =>
                rw [h_first_eq_char fuel 1 g g2 x c hk hens hget henv] at h
                obtain ⟨h1, h2⟩ := some_pair_inj h
                subst h1; subst h2
                refine ⟨EnvEq_trans _ _ _ hE2 ⟨rfl, rfl, rfl, rfl, rfl⟩, hm2,
                  WFG_putFirst _ x _ (WFG_putFirst g2 x _ hW2 SMWF_new)
                    (SMWF_put_char _ _ _ SMWF_new),
                  FolEq_trans _ _ _ hF2 (fun _ _ => rfl),
                  SMWF_put_char _ _ _ SMWF_new⟩
              | charset cs =>
                rw [h_first_eq_charset fuel 1 g g2 x cs hk hens hget henv] at h
                obtain ⟨h1, h2⟩ := some_pair_inj h
                subst h1; subst h2
                refine ⟨EnvEq_trans _ _ _ hE2 ⟨rfl, rfl, rfl, rfl, rfl⟩, hm2,
                  WFG_putFirst _ x _ (WFG_putFirst g2 x _ hW2 SMWF_new)
                    (SMWF_charset_fold cs (List.range 256) _ SMWF_new),
                  FolEq_trans _ _ _ hF2 (fun _ _ => rfl),
                  SMWF_charset_fold cs (List.range 256) _ SMWF_new⟩
              | choice ps =>
                rw [h_first_eq_choice fuel 1 g g2 x ps hk hens hget henv] at h
                have hWp : WFG (putFirst g2 1 x h_stringmap_new) :=
                  WFG_putFirst g2 x _ hW2 SMWF_new
                obtain ⟨hE', hm', hW', hF', hsm'⟩ :=
                  ihfp 1 (putFirst g2 1 x h_stringmap_new) x ps h_stringmap_new A g'
                    rfl hWp SMWF_new h
                exact ⟨EnvEq_trans _ _ _ hE2
                    (EnvEq_trans _ _ _ (EnvEq_putFirst g2 1 x _) hE'),
                  le_trans hm2 hm', hW',
                  FolEq_trans _ _ _ hF2
                    (FolEq_trans _ _ _ (FolEq_putFirst g2 1 x _) hF'), hsm'⟩
    · -- firstProds
      intro k g x ps ret ret' g' hk1e hW hr h
      subst hk1e
      cases ps with
      | nil =>
        rw [firstProds_eq_nil] at h
        obtain ⟨h1, h2⟩ := some_pair_inj h
        subst h1; subst h2
        exact ⟨EnvEq_refl g, le_refl _, hW, FolEq_refl g, hr⟩
      | cons p rest =>
        cases hseq : h_first_seq fuel 1 g p with
        | none => rw [firstProds_eq_cons_none fuel 1 g x p rest ret hseq] at h; cases h
        | some fg =>
          obtain ⟨fs, g2⟩ := fg
          rw [firstProds_eq_cons_some fuel 1 g g2 x p rest ret fs hseq] at h
          obtain ⟨hE2, hm2, hW2, hF2, hsfs⟩ := ihseq 1 g p fs g2 hW hseq
          have hup : SMWF (h_stringmap_update ret fs) := SMWF_update _ _ hr hsfs
          have hWp : WFG (putFirst g2 1 x (h_stringmap_update ret fs)) :=
            WFG_putFirst g2 x _ hW2 hup
          obtain ⟨hE', hm', hW', hF', hsm'⟩ :=
            ihfp 1 _ x rest _ ret' g' rfl hWp hup h
          exact ⟨EnvEq_trans _ _ _ hE2
              (EnvEq_trans _ _ _ (EnvEq_putFirst g2 1 x _) hE'),
            le_trans hm2 hm', hW',
            FolEq_trans _ _ _ hF2
              (FolEq_trans _ _ _ (FolEq_putFirst g2 1 x _) hF'), hsm'⟩
    · -- h_first_seq
      intro k g s A g' hW h
      cases s with
      | nil =>
        rw [h_first_seq_eq_nil] at h
        obtain ⟨h1, h2⟩ := some_pair_inj h
        subst h1; subst h2
        exact ⟨EnvEq_refl g, le_refl _, hW, FolEq_refl g, SMWF_singleton_of_WFG g hW⟩
      | cons x tail =>
        cases hx : h_first fuel k g x with
        | none => rw [h_first_seq_eq_cons_none fuel k g x tail hx] at h; cases h
        | some fg =>
          obtain ⟨first_x, g2⟩ := fg
          obtain ⟨hE2, hm2, hW2, hF2, hsx⟩ := ihf k g x first_x g2 hW hx
          cases hsing : is_singleton_epsilon first_x with
          | true =>
            rw [h_first_seq_eq_cons_eps fuel k g g2 x tail first_x hx hsing] at h
            obtain ⟨hE', hm', hW', hF', hsm'⟩ := ihseq k g2 tail A g' hW2 h
            exact ⟨EnvEq_trans _ _ _ hE2 hE', le_trans hm2 hm', hW',
              FolEq_trans _ _ _ hF2 hF', hsm'⟩
          | false =>
            cases hsh : any_string_shorter k first_x with
            | false =>
              rw [h_first_seq_eq_cons_full fuel k g g2 x tail first_x hx hsing hsh] at h
              obtain ⟨h1, h2⟩ := some_pair_inj h
              subst h1; subst h2
              exact ⟨hE2, hm2, hW2, hF2, hsx⟩
            | true =>
              rw [h_first_seq_eq_cons_ext fuel k g g2 x tail first_x hx hsing hsh] at h
              obtain ⟨hE', hm', hW', hF', hsm'⟩ :=
                ihext k g2 first_x tail h_stringmap_new A g' hW2 SMWF_new h
              exact ⟨EnvEq_trans _ _ _ hE2 hE', le_trans hm2 hm', hW',
                FolEq_trans _ _ _ hF2 hF', hsm'⟩
    · -- first_extend
      intro k g as tail ret ret' g' hW hr h
      obtain ⟨aeps, aend, acl⟩ := as
      cases aeps with
      | none =>
        rw [first_extend_eq_no_eps fuel k g aend acl tail ret] at h
        cases aend with
        | none => exact ihec k g acl tail ret ret' g' hW hr h
        | some w =>
          exact ihec k g acl tail (h_stringmap_put_end ret INSET) ret' g' hW
            (SMWF_put_end ret INSET hr) h
      | some v =>
        cases hseq : h_first_seq fuel k g tail with
        | none =>
          rw [first_extend_eq_eps_none fuel k g v aend acl tail ret hseq] at h; cases h
        | some fg =>
          obtain ⟨fs, g2⟩ := fg
          rw [first_extend_eq_eps_some fuel k g g2 v aend acl tail ret fs hseq] at h
          obtain ⟨hE2, hm2, hW2, hF2, hsfs⟩ := ihseq k g tail fs g2 hW hseq
          cases aend with
          | none =>
            obtain ⟨hE', hm', hW', hF', hsm'⟩ :=
              ihec k g2 acl tail (h_stringmap_update ret fs) ret' g' hW2
                (SMWF_update _ _ hr hsfs) h
            exact ⟨EnvEq_trans _ _ _ hE2 hE', le_trans hm2 hm', hW',
              FolEq_trans _ _ _ hF2 hF', hsm'⟩
          | some w =>
            obtain ⟨hE', hm', hW', hF', hsm'⟩ :=
              ihec k g2 acl tail
                (h_stringmap_put_end (h_stringmap_update ret fs) INSET) ret' g' hW2
                (SMWF_put_end _ _ (SMWF_update _ _ hr hsfs)) h
            exact ⟨EnvEq_trans _ _ _ hE2 hE', le_trans hm2 hm', hW',
              FolEq_trans _ _ _ hF2 hF', hsm'⟩
    · -- extendChildren
      intro k g cl tail ret ret' g' hW hr h
      cases cl with
      | nil =>
        rw [extendChildren_eq_nil] at h
        obtain ⟨h1, h2⟩ := some_pair_inj h
        subst h1; subst h2
        exact ⟨EnvEq_refl g, le_refl _, hW, FolEq_refl g, hr⟩
      | cons p rest =>
        obtain ⟨c, as_⟩ := p
        cases hext : first_extend fuel (sub1_64 k) g as_ tail h_stringmap_new with
        | none =>
          rw [extendChildren_eq_cons_none fuel k g c as_ rest tail ret hext] at h
          cases h
        | some rg =>
          obtain ⟨ret_, g2⟩ := rg
          rw [extendChildren_eq_cons_some fuel k g g2 c as_ rest tail ret ret_ hext] at h
          obtain ⟨hE2, hm2, hW2, hF2, hsr⟩ :=
            ihext (sub1_64 k) g as_ tail h_stringmap_new ret_ g2 hW SMWF_new hext
          obtain ⟨hE', hm', hW', hF', hsm'⟩ :=
            ihec k g2 rest tail _ ret' g' hW2 (SMWF_put_char _ _ _ hr) h
          exact ⟨EnvEq_trans _ _ _ hE2 hE', le_trans hm2 hm', hW',
            FolEq_trans _ _ _ hF2 hF', hsm'⟩
    · -- h_follow
      intro k g x ret g' hW hS h
      by_cases hk : k = 0
      · subst hk
        rw [h_follow_eq_k0] at h
        obtain ⟨h1, h2⟩ := some_pair_inj h
        subst h1; subst h2
        exact ⟨EnvEq_refl g, le_refl _, hW, hS, SMWF_singleton_of_WFG g hW,
          fun _ h0 => absurd rfl h0⟩
      · cases hens : ensure_k g k with
        | none => rw [h_follow_eq_ensure_none fuel k g x hk hens] at h; cases h
        | some g2 =>
          obtain ⟨hW2, hE2, hm2, hF2, hk1⟩ := WFG_ensure g g2 k hW hens
          obtain ⟨hke, hkm2⟩ := hk1 hk
          subst hke
          have hS2 : StartEndInv g2 := SEI_transport g g2 hE2 hF2 hS
          cases hget : htGet (followTab g2 1) x with
          | some m =>
            rw [h_follow_eq_hit fuel 1 g g2 x m hk hens hget] at h
            obtain ⟨h1, h2⟩ := some_pair_inj h
            subst h1; subst h2
            refine ⟨hE2, hm2, hW2, hS2, SMWF_followTab_entry g2 x m hW2 hget, ?_⟩
            intro hxg _
            exact hS2 m (by rw [← (hxg.trans hE2.2.1.symm)]; exact hget)
          | none =>
            rw [h_follow_eq_miss fuel 1 g g2 x hk hens hget] at h
            have hlen2 : g2.follow.length = 2 := (hW2.2.2.1 hkm2).2
            by_cases hx : x = g2.start
            · rw [if_pos hx] at h
              have hWG3 : WFG (putFollow (putFollow g2 1 x h_stringmap_new) 1 x
                  (h_stringmap_put_end h_stringmap_new INSET)) :=
                WFG_putFollow _ x _ (WFG_putFollow g2 x _ hW2 SMWF_new)
                  (SMWF_put_end _ _ SMWF_new)
              have hSG3 : StartEndInv (putFollow (putFollow g2 1 x h_stringmap_new) 1 x
                  (h_stringmap_put_end h_stringmap_new INSET)) :=
                SEI_double_putFollow g2 x _ hlen2 hS2 (fun _ => rfl)
              obtain ⟨hE', hm', hW', hS', hsm', hfr'⟩ :=
                ihfn 1 (putFollow (putFollow g2 1 x h_stringmap_new) 1 x
                    (h_stringmap_put_end h_stringmap_new INSET)) x g2.nts
                  (h_stringmap_put_end h_stringmap_new INSET) ret g' rfl hkm2 hWG3 hSG3
                  (SMWF_put_end _ _ SMWF_new) (fun _ => rfl) h
              refine ⟨EnvEq_trans _ _ _ hE2
                  (EnvEq_trans _ _ _ ⟨rfl, rfl, rfl, rfl, rfl⟩ hE'),
                le_trans hm2 hm', hW', hS', hsm', fun _ _ => hfr' hx⟩
            · rw [if_neg hx] at h
              have hWG3 : WFG (putFollow (putFollow g2 1 x h_stringmap_new) 1 x
                  h_stringmap_new) :=
                WFG_putFollow _ x _ (WFG_putFollow g2 x _ hW2 SMWF_new) SMWF_new
              have hSG3 : StartEndInv (putFollow (putFollow g2 1 x h_stringmap_new) 1 x
                  h_stringmap_new) :=
                SEI_double_putFollow g2 x _ hlen2 hS2 (fun hxx => absurd hxx hx)
              obtain ⟨hE', hm', hW', hS', hsm', hfr'⟩ :=
                ihfn 1 (putFollow (putFollow g2 1 x h_stringmap_new) 1 x
                    h_stringmap_new) x g2.nts
                  h_stringmap_new ret g' rfl hkm2 hWG3 hSG3 SMWF_new
                  (fun hxx => absurd hxx hx) h
              refine ⟨EnvEq_trans _ _ _ hE2
                  (EnvEq_trans _ _ _ ⟨rfl, rfl, rfl, rfl, rfl⟩ hE'),
                le_trans hm2 hm', hW', hS', hsm', ?_⟩
              intro hxg _
              exact absurd (hxg.trans hE2.2.1.symm) hx
    · -- followNts
      intro k g x l ret ret' g' hk1e hkm hW hS hr hfr h
      subst hk1e
      cases l with
      | nil =>
        rw [followNts_eq_nil] at h
        obtain ⟨h1, h2⟩ := some_pair_inj h
        subst h1; subst h2
        exact ⟨EnvEq_refl g, le_refl _, hW, hS, hr, hfr⟩
      | cons p rest =>
        obtain ⟨a, v⟩ := p
        cases henv : g.env.get? a with
        | none =>
          have hbad : ∀ ps, g.env.get? a ≠ some (.choice ps) := by
            intro ps hps; rw [henv] at hps; cases hps
          rw [followNts_eq_cons_bad fuel 1 g x a v rest ret hbad] at h; cases h
        | some d =>
          cases d with
          | char c =>
            have hbad : ∀ ps, g.env.get? a ≠ some (.choice ps) := by
              intro ps hps; rw [henv] at hps; cases hps
            rw [followNts_eq_cons_bad fuel 1 g x a v rest ret hbad] at h; cases h
          | hend =>
            have hbad : ∀ ps, g.env.get? a ≠ some (.choice ps) := by
              intro ps hps; rw [henv] at hps; cases hps
            rw [followNts_eq_cons_bad fuel 1 g x a v rest ret hbad] at h; cases h
          | charset cs =>
            have hbad : ∀ ps, g.env.get? a ≠ some (.choice ps) := by
              intro ps hps; rw [henv] at hps; cases hps
            rw [followNts_eq_cons_bad fuel 1 g x a v rest ret hbad] at h; cases h
          | choice ps =>
            cases hp : followProds fuel 1 g x a ps ret with
            | none =>
              rw [followNts_eq_cons_none fuel 1 g x a v ps rest ret henv hp] at h
              cases h
            | some rg =>
              obtain ⟨ret2, g2⟩ := rg
              rw [followNts_eq_cons_some fuel 1 g g2 x a v ps rest ret ret2 henv hp] at h
              obtain ⟨hE2, hm2, hW2, hS2, hsr2, hfr2⟩ :=
                ihfpr 1 g x a ps ret ret2 g2 rfl hkm hW hS hr hfr hp
              have hkm2 : g2.kmax = 1 := by
                have := hW2.1; omega
              obtain ⟨hE', hm', hW', hS', hsm', hfr'⟩ :=
                ihfn 1 g2 x rest ret2 ret' g' rfl hkm2 hW2 hS2 hsr2
                  (fun hxx => hfr2 (hxx.trans hE2.2.1)) h
              exact ⟨EnvEq_trans _ _ _ hE2 hE', le_trans hm2 hm', hW', hS', hsm',
                fun hxx => hfr' (hxx.trans hE2.2.1.symm)⟩
    · -- followProds
      intro k g x a ps ret ret' g' hk1e hkm hW hS hr hfr h
      subst hk1e
      cases ps with
      | nil =>
        rw [followProds_eq_nil] at h
        obtain ⟨h1, h2⟩ := some_pair_inj h
        subst h1; subst h2
        exact ⟨EnvEq_refl g, le_refl _, hW, hS, hr, hfr⟩
      | cons p rest =>
        cases ho : followOcc fuel 1 g x a p ret with
        | none => rw [followProds_eq_cons_none fuel 1 g x a p rest ret ho] at h; cases h
        | some rg =>
          obtain ⟨ret2, g2⟩ := rg
          rw [followProds_eq_cons_some fuel 1 g g2 x a p rest ret ret2 ho] at h
          obtain ⟨hE2, hm2, hW2, hS2, hsr2, hfr2⟩ :=
            ihocc 1 g x a p ret ret2 g2 rfl hkm hW hS hr hfr ho
          have hkm2 : g2.kmax = 1 := by
            have := hW2.1; omega
          obtain ⟨hE', hm', hW', hS', hsm', hfr'⟩ :=
            ihfpr 1 g2 x a rest ret2 ret' g' rfl hkm2 hW2 hS2 hsr2
              (fun hxx => hfr2 (hxx.trans hE2.2.1)) h
          exact ⟨EnvEq_trans _ _ _ hE2 hE', le_trans hm2 hm', hW', hS', hsm',
            fun hxx => hfr' (hxx.trans hE2.2.1.symm)⟩
    · -- followOcc
      intro k g x a s ret ret' g' hk1e hkm hW hS hr hfr h
      subst hk1e
      cases s with
      | nil =>
        rw [followOcc_eq_nil] at h
        obtain ⟨h1, h2⟩ := some_pair_inj h
        subst h1; subst h2
        exact ⟨EnvEq_refl g, le_refl _, hW, hS, hr, hfr⟩
      | cons y tail =>
        by_cases hy : y = x
        · subst hy
          cases hseq : h_first_seq fuel 1 g tail with
          | none =>
            rw [followOcc_eq_cons_seq_none fuel 1 g y a tail ret hseq] at h; cases h
          | some fg =>
            obtain ⟨ft, g2⟩ := fg
            obtain ⟨hE2, hm2, hW2, hF2, hsft⟩ := ihseq 1 g tail ft g2 hW hseq
            have hS2 : StartEndInv g2 := SEI_transport g g2 hE2 hF2 hS
            cases hsse : stringset_extend fuel 1 g2 ft a ret with
            | none =>
              rw [followOcc_eq_cons_sse_none fuel 1 g g2 y a tail ret ft hseq hsse] at h
              cases h
            | some rg =>
              obtain ⟨ret2, g3⟩ := rg
              rw [followOcc_eq_cons_sse_some fuel 1 g g2 g3 y a tail ret ft ret2
                hseq hsse] at h
              obtain ⟨hE3, hm3, hW3, hS3, hsr2, hem⟩ :=
                ihsse 1 g2 ft a ret ret2 g3 hW2 hS2 hr hsse
              have hkm3 : g3.kmax = 1 := by
                have := hW3.1; omega
              have hlen3 : g3.follow.length = 2 := (hW3.2.2.1 hkm3).2
              have hfr3 : y = g3.start → ret2.end_branch.isSome = true := by
                intro hxx
                exact hem (hfr ((hxx.trans hE3.2.1).trans hE2.2.1))
              have hW4 : WFG (putFollow g3 1 y ret2) := WFG_putFollow g3 y ret2 hW3 hsr2
              have hS4 : StartEndInv (putFollow g3 1 y ret2) :=
                SEI_putFollow g3 y ret2 hlen3 hS3 hfr3
              obtain ⟨hE', hm', hW', hS', hsm', hfr'⟩ :=
                ihocc 1 (putFollow g3 1 y ret2) y a tail ret2 ret' g' rfl hkm3
                  hW4 hS4 hsr2 hfr3 h
              refine ⟨EnvEq_trans _ _ _ hE2 (EnvEq_trans _ _ _ hE3
                  (EnvEq_trans _ _ _ (EnvEq_putFollow g3 1 y ret2) hE')),
                le_trans hm2 (le_trans hm3 hm'), hW', hS', hsm', ?_⟩
              intro hxx
              exact hfr' (((hxx.trans hE2.2.1.symm).trans hE3.2.1.symm))
        · rw [followOcc_eq_cons_skip fuel 1 g x a y tail ret hy] at h
          exact ihocc 1 g x a tail ret ret' g' rfl hkm hW hS hr hfr h
    · -- stringset_extend
      intro k g as a ret ret' g' hW hS hr h
      obtain ⟨aeps, aend, acl⟩ := as
      cases aeps with
      | none =>
        rw [stringset_extend_eq_no_eps fuel k g aend acl a ret] at h
        cases aend with
        | none => exact ihsc k g acl a ret ret' g' hW hS hr h
        | some w =>
          obtain ⟨hE', hm', hW', hS', hsm', hem'⟩ :=
            ihsc k g acl a (h_stringmap_put_end ret INSET) ret' g' hW hS
              (SMWF_put_end _ _ hr) h
          exact ⟨hE', hm', hW', hS', hsm', fun _ => hem' rfl⟩
      | some v =>
        cases hfol : h_follow fuel k g a with
        | none =>
          rw [stringset_extend_eq_eps_none fuel k g v aend acl a ret hfol] at h; cases h
        | some fg =>
          obtain ⟨fs, g2⟩ := fg
          rw [stringset_extend_eq_eps_some fuel k g g2 v aend acl a ret fs hfol] at h
          obtain ⟨hE2, hm2, hW2, hS2, hsfs, _⟩ := ihfo k g a fs g2 hW hS hfol
          cases aend with
          | none =>
            obtain ⟨hE', hm', hW', hS', hsm', hem'⟩ :=
              ihsc k g2 acl a (h_stringmap_update ret fs) ret' g' hW2 hS2
                (SMWF_update _ _ hr hsfs) h
            exact ⟨EnvEq_trans _ _ _ hE2 hE', le_trans hm2 hm', hW', hS', hsm',
              fun he => hem' (update_end_mono ret fs he)⟩
          | some w =>
            obtain ⟨hE', hm', hW', hS', hsm', hem'⟩ :=
              ihsc k g2 acl a
                (h_stringmap_put_end (h_stringmap_update ret fs) INSET) ret' g' hW2 hS2
                (SMWF_put_end _ _ (SMWF_update _ _ hr hsfs)) h
            exact ⟨EnvEq_trans _ _ _ hE2 hE', le_trans hm2 hm', hW', hS', hsm',
              fun _ => hem' rfl⟩
    · -- sseChildren
      intro k g cl a ret ret' g' hW hS hr h
      cases cl with
      | nil =>
        rw [sseChildren_eq_nil] at h
        obtain ⟨h1, h2⟩ := some_pair_inj h
        subst h1; subst h2
        exact ⟨EnvEq_refl g, le_refl _, hW, hS, hr, fun he => he⟩
      | cons p rest =>
        obtain ⟨c, as_⟩ := p
        cases hext : stringset_extend fuel (sub1_64 k) g as_ a h_stringmap_new with
        | none =>
          rw [sseChildren_eq_cons_none fuel k g c as_ rest a ret hext] at h; cases h
        | some rg =>
          obtain ⟨ret_, g2⟩ := rg
          rw [sseChildren_eq_cons_some fuel k g g2 c as_ rest a ret ret_ hext] at h
          obtain ⟨hE2, hm2, hW2, hS2, hsr, _⟩ :=
            ihsse (sub1_64 k) g as_ a h_stringmap_new ret_ g2 hW hS SMWF_new hext
          obtain ⟨hE', hm', hW', hS', hsm', hem'⟩ :=
            ihsc k g2 rest a _ ret' g' hW2 hS2 (SMWF_put_char _ _ _ hr) h
          refine ⟨EnvEq_trans _ _ _ hE2 hE', le_trans hm2 hm', hW', hS', hsm', ?_⟩
          intro he
          apply hem'
          rw [put_char_end]
          exact he


/-! ## Shared facts about the scenario-2 grammar state -/

theorem WFG_g_aSb : WFG g_aSb := by
  refine ⟨by decide, fun _ => ⟨rfl, rfl⟩, fun h1 => absurd h1 (by decide), rfl, ?_, ?_⟩
  · intro p hp
    exact absurd hp (List.not_mem_nil p)
  · intro p hp
    exact absurd hp (List.not_mem_nil p)

theorem SEI_g_aSb : StartEndInv g_aSb := by
  intro m hm
  exact Option.noConfusion hm

theorem follow_run_aSb : h_follow 50 1 g_aSb 0 = some (follow_aSb, gFol_aSb) := by rfl

/-- C7: for every grammar state and every `k ≥ 1` for which the lookahead
tables can be allocated (witnessed by a completing `h_follow` run), the set
returned by `h_follow` for the start symbol carries the End flag; moreover
the memoized FOLLOW set of the start symbol carries End in the final state,
and every later FOLLOW computation preserves that (End is never removed by
a later contribution). -/
theorem claim_follow_start_end (fuel k : Nat) (g g' : HCFGrammar) (ret : HCFStringMap)
    (hk : 1 ≤ k) (hW : WFG g) (hS : StartEndInv g)
    (hrun : h_follow fuel k g g.start = some (ret, g')) :
    ret.end_branch.isSome = true ∧ StartEndInv g' ∧
      (∀ fuel2 y ret2 g'', h_follow fuel2 k g' y = some (ret2, g'') →
        StartEndInv g'') := by
  obtain ⟨hE', hm', hW', hS', hsm', hfr⟩ :=
    (invPres fuel).2.2.2.2.2.1 k g g.start ret g' hW hS hrun
  refine ⟨hfr rfl (by omega), hS', ?_⟩
  intro fuel2 y ret2 g'' h2
  exact ((invPres fuel2).2.2.2.2.2.1 k g' y ret2 g'' hW' hS' h2).2.2.2.1

theorem claim_follow_start_end_witness :
    follow_aSb.end_branch.isSome = true ∧ StartEndInv gFol_aSb ∧
      (∀ fuel2 y ret2 g'', h_follow fuel2 1 gFol_aSb y = some (ret2, g'') →
        StartEndInv g'') :=
  claim_follow_start_end 50 1 g_aSb gFol_aSb follow_aSb (by decide)
    WFG_g_aSb SEI_g_aSb follow_run_aSb


/-! ## Byte-level membership lemmas and the k = 0 child extension -/

theorem get_byte (m : HCFStringMap) (c : Nat) :
    h_stringmap_get m [c] false
      = (htGet m.char_branches c).bind HCFStringMap.epsilon_branch := by
  show (if ([] : List Nat).isEmpty && false && m.end_branch.isSome then m.end_branch
      else match htGet m.char_branches c with
        | none => none
        | some m' => h_stringmap_get m' [] false) = _
  simp only [List.isEmpty_nil, Bool.and_false, Bool.true_and, Bool.false_and,
    Bool.false_eq_true, if_false]
  cases hg : htGet m.char_branches c with
  | none => rfl
  | some m' => rfl

theorem present_byte (m : HCFStringMap) (c : Nat) :
    h_stringmap_present m [c] false
      = ((htGet m.char_branches c).bind HCFStringMap.epsilon_branch).isSome := by
  unfold h_stringmap_present
  rw [get_byte]

theorem present_new (s : List Nat) (e : Bool) :
    h_stringmap_present h_stringmap_new s e = false := by
  cases s with
  | nil => rfl
  | cons c r =>
    unfold h_stringmap_present h_stringmap_get
    simp [h_stringmap_new, HCFStringMap.end_branch, HCFStringMap.char_branches, htGet]

theorem present_put_end_false (m : HCFStringMap) (v : HSMVal) (s : List Nat) :
    h_stringmap_present (h_stringmap_put_end m v) s false
      = h_stringmap_present m s false := by
  cases s with
  | nil => rfl
  | cons c r =>
    unfold h_stringmap_present h_stringmap_get
    simp only [Bool.and_false, Bool.false_and, Bool.false_eq_true, if_false]
    rfl

theorem present_put_char_self (m : HCFStringMap) (c : Nat) (v : HSMVal) :
    h_stringmap_present (h_stringmap_put_char m c v) [c] false = true := by
  rw [present_byte]
  show ((htGet (htPut m.char_branches c (h_stringmap_put_epsilon h_stringmap_new v))
    c).bind HCFStringMap.epsilon_branch).isSome = true
  rw [htGet_put, if_pos rfl]
  rfl

theorem present_put_char_ne (m : HCFStringMap) (c0 c : Nat) (v : HSMVal)
    (hne : c0 ≠ c) :
    h_stringmap_present (h_stringmap_put_char m c0 v) [c] false
      = h_stringmap_present m [c] false := by
  rw [present_byte, present_byte]
  show ((htGet (htPut m.char_branches c0 (h_stringmap_put_epsilon h_stringmap_new v))
    c).bind HCFStringMap.epsilon_branch).isSome = _
  rw [htGet_put, if_neg hne]

theorem put_char_epsilon (m : HCFStringMap) (c : Nat) (v : HSMVal) :
    (h_stringmap_put_char m c v).epsilon_branch = m.epsilon_branch := rfl

theorem ass_zero (m : HCFStringMap) : any_string_shorter 0 m = false := rfl

theorem ass_one (m : HCFStringMap) :
    any_string_shorter 1 m = m.epsilon_branch.isSome := by
  have h1 : any_string_shorter 1 m
      = (m.epsilon_branch.isSome
        || m.char_branches.any (fun p => any_string_shorter 0 p.2)) := rfl
  rw [h1]
  have hz : (m.char_branches.any fun p => any_string_shorter 0 p.2) = false := by
    rw [List.any_eq_false]
    intro p _
    rw [ass_zero]
    exact Bool.false_ne_true
  rw [hz, Bool.or_false]

theorem sing_eps (m : HCFStringMap) (h : is_singleton_epsilon m = true) :
    m.epsilon_branch.isSome = true := by
  unfold is_singleton_epsilon at h
  simp only [Bool.and_eq_true] at h
  exact h.1.1

theorem h_first_some_k_one (fuel k : Nat) (g : HCFGrammar) (x : Nat)
    (r : HCFStringMap × HCFGrammar) (hW : WFG g) (hk : k ≠ 0)
    (h : h_first fuel k g x = some r) : k = 1 := by
  cases fuel with
  | zero => cases h
  | succ f =>
    cases hens : ensure_k g k with
    | none => rw [h_first_eq_ensure_none f k g x hk hens] at h; cases h
    | some g2 => exact ((WFG_ensure g g2 k hW hens).2.2.2.2 hk).1

theorem h_first_seq_k0_inv : ∀ fuel (s : List Nat) (g : HCFGrammar)
    (S : HCFStringMap) (g'' : HCFGrammar),
    h_first_seq fuel 0 g s = some (S, g'') → S = g.singleton_epsilon ∧ g'' = g := by
  intro fuel
  induction fuel with
  | zero => intro s g S g'' h; cases h
  | succ fuel ih =>
    intro s g S g'' h
    cases s with
    | nil =>
      rw [h_first_seq_eq_nil] at h
      obtain ⟨h1, h2⟩ := some_pair_inj h
      exact ⟨h1.symm, h2.symm⟩
    | cons y t =>
      cases fuel with
      | zero =>
        rw [h_first_seq_eq_cons_none 0 0 g y t (h_first_eq_zero 0 g y)] at h
        cases h
      | succ f2 =>
        cases hs : is_singleton_epsilon g.singleton_epsilon with
        | true =>
          rw [h_first_seq_eq_cons_eps (f2 + 1) 0 g g y t g.singleton_epsilon
            (h_first_eq_k0 f2 g y) hs] at h
          exact ih t g S g'' h
        | false =>
          rw [h_first_seq_eq_cons_full (f2 + 1) 0 g g y t g.singleton_epsilon
            (h_first_eq_k0 f2 g y) hs rfl] at h
          obtain ⟨h1, h2⟩ := some_pair_inj h
          exact ⟨h1.symm, h2.symm⟩

theorem child_extend_k0 (fuel : Nat) (g : HCFGrammar) (mc : HCFStringMap)
    (tail : List Nat) (ret_ : HCFStringMap) (gI : HCFGrammar)
    (hleaf : ∃ w, mc = HCFStringMap.mk (some w) none [])
    (hsng : is_singleton_epsilon g.singleton_epsilon = true)
    (hext : first_extend fuel 0 g mc tail h_stringmap_new = some (ret_, gI)) :
    gI = g ∧ ret_.epsilon_branch.isSome = true := by
  obtain ⟨w, rfl⟩ := hleaf
  cases fuel with
  | zero => cases hext
  | succ f =>
    cases hseq : h_first_seq f 0 g tail with
    | none =>
      rw [first_extend_eq_eps_none f 0 g w none [] tail _ hseq] at hext
      cases hext
    | some fg =>
      obtain ⟨fs, gX⟩ := fg
      obtain ⟨hfs, hgX⟩ := h_first_seq_k0_inv f tail g fs gX hseq
      rw [hfs, hgX] at hseq
      rw [first_extend_eq_eps_some f 0 g g w none [] tail h_stringmap_new
        g.singleton_epsilon hseq] at hext
      cases f with
      | zero => cases hext
      | succ f2 =>
        rw [extendChildren_eq_nil] at hext
        obtain ⟨h1, h2⟩ := some_pair_inj hext
        subst h1; subst h2
        refine ⟨rfl, ?_⟩
        rw [update_epsilon]
        have he := sing_eps g.singleton_epsilon hsng
        simp [he]

theorem extendChildren_spec : ∀ fuel (g : HCFGrammar)
    (cl : List (Nat × HCFStringMap)) (tail : List Nat) (ret ret' : HCFStringMap)
    (g' : HCFGrammar),
    (∀ p ∈ cl, ∃ w, p.2 = HCFStringMap.mk (some w) none []) →
    is_singleton_epsilon g.singleton_epsilon = true →
    extendChildren fuel 1 g cl tail ret = some (ret', g') →
    g' = g ∧ ret'.epsilon_branch = ret.epsilon_branch ∧
      ret'.end_branch = ret.end_branch ∧
      (∀ c mc, (c, mc) ∈ cl → h_stringmap_present ret' [c] false = true) ∧
      (∀ c, h_stringmap_present ret [c] false = true →
        h_stringmap_present ret' [c] false = true) := by
  intro fuel
  induction fuel with
  | zero => intro g cl tail ret ret' g' _ _ h; cases h
  | succ fuel ih =>
    intro g cl tail ret ret' g' hleaves hsng h
    cases cl with
    | nil =>
      rw [extendChildren_eq_nil] at h
      obtain ⟨h1, h2⟩ := some_pair_inj h
      subst h1; subst h2
      exact ⟨rfl, rfl, rfl, fun c mc hmem => absurd hmem (List.not_mem_nil _),
        fun c hc => hc⟩
    | cons p rest =>
      obtain ⟨c0, mc⟩ := p
      cases hext : first_extend fuel (sub1_64 1) g mc tail h_stringmap_new with
      | none =>
        rw [extendChildren_eq_cons_none fuel 1 g c0 mc rest tail ret hext] at h
        cases h
      | some rg =>
        obtain ⟨ret_, gI⟩ := rg
        obtain ⟨hgI, hre⟩ := child_extend_k0 fuel g mc tail ret_ gI
          (hleaves (c0, mc) (List.mem_cons_self _ _)) hsng hext
        rw [hgI] at hext
        rw [extendChildren_eq_cons_some fuel 1 g g c0 mc rest tail ret ret_ hext] at h
        obtain ⟨hg', hepsP, hendP, hI, hII⟩ :=
          ih g rest tail (h_stringmap_put_char ret c0 (.sub ret_)) ret' g'
            (fun p hp => hleaves p (List.mem_cons_of_mem _ hp)) hsng h
        refine ⟨hg', hepsP.trans (put_char_epsilon ret c0 _), hendP, ?_, ?_⟩
        · intro c mc' hmem
          rcases List.mem_cons.mp hmem with heq | hmem'
          · have hc : c = c0 := congrArg Prod.fst heq
            subst hc
            exact hII c (present_put_char_self ret c (.sub ret_))
          · exact hI c mc' hmem'
        · intro c hc
          apply hII c
          by_cases hcc : c0 = c
          · subst hcc
            exact present_put_char_self ret c0 (.sub ret_)
          · rw [present_put_char_ne ret c0 c _ hcc]
            exact hc

/-- C1: the concatenation behaviour of `h_first_seq` in its general
(`first_extend`) branch, at the only allocatable lookahead `k = 1` (so the
strings of length `< k` reduce to ε and the strings of length `k` are
single bytes).  Given a run in which `FIRST(k, X1) = A` is neither exactly
`{ε}` nor free of strings shorter than `k`, and `FIRST(k, rest) = B`:
ε ∈ A; every string of `B` (ε·b for the ε of `A`) is present in the
result, including the End marker; every one-byte (length-`k`) string of
`A` is copied through; and if End ∈ A then End is in the result. -/
theorem claim_first_seq_concat (fuel k : Nat) (g g1 g2 g' : HCFGrammar) (x : Nat)
    (tail : List Nat) (A B ret : HCFStringMap)
    (hk : 1 ≤ k) (hW : WFG g)
    (hA : h_first fuel k g x = some (A, g1))
    (hsing : is_singleton_epsilon A = false)
    (hsh : any_string_shorter k A = true)
    (hB : h_first_seq fuel k g1 tail = some (B, g2))
    (hrun : h_first_seq (fuel + 2) k g (x :: tail) = some (ret, g')) :
    h_stringmap_present A [] false = true ∧
    (∀ s, h_stringmap_present B s false = true →
      h_stringmap_present ret s false = true) ∧
    (B.end_branch.isSome = true → ret.end_branch.isSome = true) ∧
    (∀ c, h_stringmap_present A [c] false = true →
      h_stringmap_present ret [c] false = true) ∧
    (A.end_branch.isSome = true → ret.end_branch.isSome = true) := by
  have hk1 : k = 1 := h_first_some_k_one fuel k g x (A, g1) hW (by omega) hA
  subst hk1
  obtain ⟨hE1, hm1, hW1, hF1, hsA⟩ := (invPres fuel).1 1 g x A g1 hW hA
  obtain ⟨hE2, hm2, hW2, hF2, hsB⟩ := (invPres fuel).2.2.1 1 g1 tail B g2 hW1 hB
  have heps : A.epsilon_branch.isSome = true := by rw [← ass_one A]; exact hsh
  have hA' : h_first (fuel + 1) 1 g x = some (A, g1) :=
    h_first_mono_le fuel (fuel + 1) 1 g x (A, g1) (Nat.le_succ fuel) hA
  rw [h_first_seq_eq_cons_ext (fuel + 1) 1 g g1 x tail A hA' hsing hsh] at hrun
  have hsng2 : is_singleton_epsilon g2.singleton_epsilon = true := by
    rw [hW2.2.2.2.1]
    rfl
  -- membership in the base accumulator: `update new B` behaves as `B`
  have hR0 : ∀ s, h_stringmap_present (h_stringmap_update h_stringmap_new B) s false
      = h_stringmap_present B s false := by
    intro s
    rw [present_update_leaf h_stringmap_new B SMWF_new hsB s false, present_new,
      Bool.false_or]
  have hR0end : (h_stringmap_update h_stringmap_new B).end_branch.isSome
      = B.end_branch.isSome := by
    rw [update_end]
    cases hBe : B.end_branch.isSome with
    | true => simp [hBe]
    | false => simp [hBe, h_stringmap_new, HCFStringMap.end_branch]
  obtain ⟨aeps, aend, acl⟩ := A
  have hleaves : ∀ p ∈ acl, ∃ w, p.2 = HCFStringMap.mk (some w) none [] := hsA
  cases aeps with
  | none => exact absurd heps (by simp [HCFStringMap.epsilon_branch])
  | some v =>
    rw [first_extend_eq_eps_some fuel 1 g1 g2 v aend acl tail h_stringmap_new B hB]
      at hrun
    have hbyteA : ∀ c,
        h_stringmap_present (HCFStringMap.mk (some v) aend acl) [c] false = true →
        ∃ mc, (c, mc) ∈ acl := by
      intro c hc
      rw [present_byte] at hc
      rw [bind_eps_isSome_leaf (HCFStringMap.mk (some v) aend acl) hsA c] at hc
      cases hg : htGet (HCFStringMap.mk (some v) aend acl).char_branches c with
      | none => rw [hg] at hc; cases hc
      | some mc => exact ⟨mc, htGet_mem _ _ _ hg⟩
    cases aend with
    | none =>
      obtain ⟨hg', hepsP, hendP, hI, hII⟩ :=
        extendChildren_spec fuel g2 acl tail
          (h_stringmap_update h_stringmap_new B) ret g' hleaves hsng2 hrun
      refine ⟨heps, ?_, ?_, ?_, ?_⟩
      · intro s hs
        match s with
        | [] =>
          rw [present_nil] at hs ⊢
          rw [hepsP, update_epsilon]
          simp [hs]
        | [c] =>
          exact hII c (by rw [hR0 [c]]; exact hs)
        | c :: d :: r =>
          rw [present_cons_cons_leaf B hsB c d r false] at hs
          cases hs
      · intro hBe
        rw [hendP, hR0end]
        exact hBe
      · intro c hc
        obtain ⟨mc, hmem⟩ := hbyteA c hc
        exact hI c mc hmem
      · intro habs
        exact absurd habs (by simp [HCFStringMap.end_branch])
    | some w =>
      obtain ⟨hg', hepsP, hendP, hI, hII⟩ :=
        extendChildren_spec fuel g2 acl tail
          (h_stringmap_put_end (h_stringmap_update h_stringmap_new B) INSET) ret g'
          hleaves hsng2 hrun
      refine ⟨heps, ?_, ?_, ?_, ?_⟩
      · intro s hs
        match s with
        | [] =>
          rw [present_nil] at hs ⊢
          rw [hepsP]
          show (h_stringmap_update h_stringmap_new B).epsilon_branch.isSome = true
          rw [update_epsilon]
          simp [hs]
        | [c] =>
          refine hII c ?_
          rw [present_put_end_false, hR0 [c]]
          exact hs
        | c :: d :: r =>
          rw [present_cons_cons_leaf B hsB c d r false] at hs
          cases hs
      · intro _
        rw [hendP]
        rfl
      · intro c hc
        obtain ⟨mc, hmem⟩ := hbyteA c hc
        exact hI c mc hmem
      · intro _
        rw [hendP]
        rfl

theorem claim_first_seq_concat_witness :
    (h_stringmap_present first_aSb [] false = true ∧
      (∀ s, h_stringmap_present seqB_aSb s false = true →
        h_stringmap_present retC1_aSb s false = true) ∧
      (seqB_aSb.end_branch.isSome = true → retC1_aSb.end_branch.isSome = true) ∧
      (∀ c, h_stringmap_present first_aSb [c] false = true →
        h_stringmap_present retC1_aSb [c] false = true) ∧
      (first_aSb.end_branch.isSome = true → retC1_aSb.end_branch.isSome = true)) ∧
    h_stringmap_present seqB_aSb [98] false = true ∧
    h_stringmap_present retC1_aSb [98] false = true ∧
    h_stringmap_present retC1_aSb [97] false = true :=
  ⟨claim_first_seq_concat 50 1 g_aSb gFst_aSb gSeqB_aSb gC1_aSb 0 [2]
      first_aSb seqB_aSb retC1_aSb (by decide) WFG_g_aSb rfl (by decide) (by decide)
      rfl rfl,
    by decide, by decide, by decide⟩


/-! ## Memo-table entry tracking -/

theorem putFirst_first_length (g : HCFGrammar) (k x : Nat) (m : HCFStringMap) :
    (putFirst g k x m).first.length = g.first.length := by
  simp [putFirst, List.length_set]

theorem putFollow_follow_length (g : HCFGrammar) (k x : Nat) (m : HCFStringMap) :
    (putFollow g k x m).follow.length = g.follow.length := by
  simp [putFollow, List.length_set]

theorem FstEq_ensure (g g2 : HCFGrammar) (k : Nat) (hW : WFG g)
    (h : ensure_k g k = some g2) :
    ∀ j y, htGet (firstTab g2 j) y = htGet (firstTab g j) y := by
  rcases ensure_k_cases g g2 k h with ⟨hk, hg⟩ | ⟨hk, hk1, hg⟩
  · subst hg; intro j y; rfl
  · have hk0 : g.kmax = 0 := by
      have := hW.1; omega
    obtain ⟨hf0, _⟩ := hW.2.1 hk0
    intro j y
    have h1 : firstTab g j = [] := by
      unfold firstTab; rw [hf0]; cases j <;> rfl
    have h2 : firstTab g2 j = [] := by
      rw [hg]
      unfold firstTab
      match j with
      | 0 => rfl
      | 1 => rfl
      | _ + 2 => rfl
    rw [h1, h2]

theorem firstTab_get_put_self (g : HCFGrammar) (x : Nat) (m : HCFStringMap)
    (h2 : g.first.length = 2) :
    htGet (firstTab (putFirst g 1 x m) 1) x = some m := by
  rw [firstTab_putFirst_one g x m h2, htGet_put, if_pos rfl]

theorem firstTab_get_put_ne (g : HCFGrammar) (x y : Nat) (m : HCFStringMap)
    (h2 : g.first.length = 2) (hne : y ≠ x) :
    htGet (firstTab (putFirst g 1 x m) 1) y = htGet (firstTab g 1) y := by
  rw [firstTab_putFirst_one g x m h2, htGet_put, if_neg (fun he => hne he.symm)]

theorem followTab_get_put_self (g : HCFGrammar) (x : Nat) (m : HCFStringMap)
    (h2 : g.follow.length = 2) :
    htGet (followTab (putFollow g 1 x m) 1) x = some m := by
  rw [followTab_putFollow_one g x m h2, htGet_put, if_pos rfl]

theorem followTab_get_put_ne (g : HCFGrammar) (x y : Nat) (m : HCFStringMap)
    (h2 : g.follow.length = 2) (hne : y ≠ x) :
    htGet (followTab (putFollow g 1 x m) 1) y = htGet (followTab g 1) y := by
  rw [followTab_putFollow_one g x m h2, htGet_put, if_neg (fun he => hne he.symm)]

theorem first_len_two_of_entry (g : HCFGrammar) (hW : WFG g) (x : Nat)
    (m : HCFStringMap) (h : htGet (firstTab g 1) x = some m) :
    g.first.length = 2 ∧ g.kmax = 1 := by
  by_cases h0 : g.kmax = 0
  · obtain ⟨hf0, _⟩ := hW.2.1 h0
    have h1 : firstTab g 1 = [] := by
      unfold firstTab; rw [hf0]; rfl
    rw [h1] at h
    cases h
  · have hkm : g.kmax = 1 := by
      have := hW.1; omega
    exact ⟨(hW.2.2.1 hkm).1, hkm⟩

theorem follow_len_two_of_entry (g : HCFGrammar) (hW : WFG g) (x : Nat)
    (m : HCFStringMap) (h : htGet (followTab g 1) x = some m) :
    g.follow.length = 2 ∧ g.kmax = 1 := by
  by_cases h0 : g.kmax = 0
  · obtain ⟨_, hf0⟩ := hW.2.1 h0
    have h1 : followTab g 1 = [] := by
      unfold followTab; rw [hf0]; rfl
    rw [h1] at h
    cases h
  · have hkm : g.kmax = 1 := by
      have := hW.1; omega
    exact ⟨(hW.2.2.1 hkm).2, hkm⟩

/-- Memo-entry tracking across the engine: every existing FIRST/FOLLOW memo
entry other than the one being computed keeps its exact value, the entry
under computation always equals the accumulator just written, and a
completed computation leaves its own result as the memo entry of its key. -/
theorem resEq : ∀ fuel : Nat,
    (∀ k g x A g', WFG g → h_first fuel k g x = some (A, g') →
      (∀ y m, htGet (firstTab g 1) y = some m → htGet (firstTab g' 1) y = some m) ∧
      (k ≠ 0 → htGet (firstTab g' 1) x = some A)) ∧
    (∀ g x ps ret ret' g', WFG g → SMWF ret →
      htGet (firstTab g 1) x = some ret →
      firstProds fuel 1 g x ps ret = some (ret', g') →
      (∀ y m, y ≠ x → htGet (firstTab g 1) y = some m →
        htGet (firstTab g' 1) y = some m) ∧
      htGet (firstTab g' 1) x = some ret') ∧
    (∀ k g s A g', WFG g → h_first_seq fuel k g s = some (A, g') →
      ∀ y m, htGet (firstTab g 1) y = some m → htGet (firstTab g' 1) y = some m) ∧
    (∀ k g as tail ret ret' g', WFG g →
      first_extend fuel k g as tail ret = some (ret', g') →
      ∀ y m, htGet (firstTab g 1) y = some m → htGet (firstTab g' 1) y = some m) ∧
    (∀ k g cl tail ret ret' g', WFG g →
      extendChildren fuel k g cl tail ret = some (ret', g') →
      ∀ y m, htGet (firstTab g 1) y = some m → htGet (firstTab g' 1) y = some m) ∧
    (∀ k g x ret g', WFG g → StartEndInv g → h_follow fuel k g x = some (ret, g') →
      (∀ y m, htGet (followTab g 1) y = some m → htGet (followTab g' 1) y = some m) ∧
      (k ≠ 0 → htGet (followTab g' 1) x = some ret)) ∧
    (∀ g x l ret ret' g', g.kmax = 1 → WFG g → StartEndInv g → SMWF ret →
      (x = g.start → ret.end_branch.isSome = true) →
      htGet (followTab g 1) x = some ret →
      followNts fuel 1 g x l ret = some (ret', g') →
      (∀ y m, y ≠ x → htGet (followTab g 1) y = some m →
        htGet (followTab g' 1) y = some m) ∧
      htGet (followTab g' 1) x = some ret') ∧
    (∀ g x a ps ret ret' g', g.kmax = 1 → WFG g → StartEndInv g → SMWF ret →
      (x = g.start → ret.end_branch.isSome = true) →
      htGet (followTab g 1) x = some ret →
      followProds fuel 1 g x a ps ret = some (ret', g') →
      (∀ y m, y ≠ x → htGet (followTab g 1) y = some m →
        htGet (followTab g' 1) y = some m) ∧
      htGet (followTab g' 1) x = some ret') ∧
    (∀ g x a s ret ret' g', g.kmax = 1 → WFG g → StartEndInv g → SMWF ret →
      (x = g.start → ret.end_branch.isSome = true) →
      htGet (followTab g 1) x = some ret →
      followOcc fuel 1 g x a s ret = some (ret', g') →
      (∀ y m, y ≠ x → htGet (followTab g 1) y = some m →
        htGet (followTab g' 1) y = some m) ∧
      htGet (followTab g' 1) x = some ret') ∧
    (∀ k g as a ret ret' g', WFG g → StartEndInv g → SMWF ret →
      stringset_extend fuel k g as a ret = some (ret', g') →
      ∀ y m, htGet (followTab g 1) y = some m → htGet (followTab g' 1) y = some m) ∧
    (∀ k g cl a ret ret' g', WFG g → StartEndInv g → SMWF ret →
      sseChildren fuel k g cl a ret = some (ret', g') →
      ∀ y m, htGet (followTab g 1) y = some m → htGet (followTab g' 1) y = some m) := by
  intro fuel
  induction fuel with
  | zero =>
    refine ⟨?_, ?_, ?_, ?_, ?_, ?_, ?_, ?_, ?_, ?_, ?_⟩ <;> intros <;>
      simp_all [h_first_eq_zero, firstProds_eq_zero, h_first_seq_eq_zero,
        first_extend_eq_zero, extendChildren_eq_zero, h_follow_eq_zero,
        followNts_eq_zero, followProds_eq_zero, followOcc_eq_zero,
        stringset_extend_eq_zero, sseChildren_eq_zero]
  | succ fuel ih =>
    obtain ⟨ihf, ihfp, ihseq, ihext, ihec, ihfo, ihfn, ihfpr, ihocc, ihsse, ihsc⟩ := ih
    refine ⟨?_, ?_, ?_, ?_, ?_, ?_, ?_, ?_, ?_, ?_, ?_⟩
    · -- h_first
      intro k g x A g' hW h
      by_cases hk : k = 0
      · subst hk
        rw [h_first_eq_k0] at h
        obtain ⟨h1, h2⟩ := some_pair_inj h
        subst h1; subst h2
        exact ⟨fun y m hy => hy, fun h0 => absurd rfl h0⟩
      · cases hens : ensure_k g k with
        | none => rw [h_first_eq_ensure_none fuel k g x hk hens] at h; cases h
        | some g2 =>
          obtain ⟨hW2, hE2, hm2, hF2, hk1⟩ := WFG_ensure g g2 k hW hens
          obtain ⟨hke, hkm2⟩ := hk1 hk
          subst hke
          have hFstE := FstEq_ensure g g2 1 hW hens
          have len2 : g2.first.length = 2 := (hW2.2.2.1 hkm2).1
          cases hget : htGet (firstTab g2 1) x with
          | some m =>
            rw [h_first_eq_hit fuel 1 g g2 x m hk hens hget] at h
            obtain ⟨h1, h2⟩ := some_pair_inj h
            subst h1; subst h2
            exact ⟨fun y m' hy => by rw [hFstE 1 y]; exact hy, fun _ => hget⟩
          | none =>
            have len2' : (putFirst g2 1 x h_stringmap_new).first.length = 2 := by
              rw [putFirst_first_length]; exact len2
            cases henv : g2.env.get? x with
            | none =>
              rw [h_first_eq_env_none fuel 1 g g2 x hk hens hget henv] at h; cases h
            | some d =>
              have hPresTerm : ∀ V : HCFStringMap,
                  (∀ y m', htGet (firstTab g 1) y = some m' →
                    htGet (firstTab (putFirst (putFirst g2 1 x h_stringmap_new) 1 x V)
                      1) y = some m') ∧
                  htGet (firstTab (putFirst (putFirst g2 1 x h_stringmap_new) 1 x V) 1)
                    x = some V := by
                intro V
                constructor
                · intro y m' hy
                  have hy2 : htGet (firstTab g2 1) y = some m' := by
                    rw [hFstE 1 y]; exact hy
                  by_cases hyx : y = x
                  · subst hyx; rw [hget] at hy2; cases hy2
                  · rw [firstTab_get_put_ne _ x y V len2' hyx,
                      firstTab_get_put_ne _ x y _ len2 hyx]
                    exact hy2
                · exact firstTab_get_put_self _ x V len2'
              cases d with
              | hend =>
                rw [h_first_eq_hend fuel 1 g g2 x hk hens hget henv] at h
                obtain ⟨h1, h2⟩ := some_pair_inj h
                subst h1; subst h2
                exact ⟨(hPresTerm _).1, fun _ => (hPresTerm _).2⟩
              | char c =>
                rw [h_first_eq_char fuel 1 g g2 x c hk hens hget henv] at h
                obtain ⟨h1, h2⟩ := some_pair_inj h
                subst h1; subst h2
                exact ⟨(hPresTerm _).1, fun _ => (hPresTerm _).2⟩
              | charset cs =>
                rw [h_first_eq_charset fuel 1 g g2 x cs hk hens hget henv] at h
                obtain ⟨h1, h2⟩ := some_pair_inj h
                subst h1; subst h2
                exact ⟨(hPresTerm _).1, fun _ => (hPresTerm _).2⟩
              | choice ps =>
                rw [h_first_eq_choice fuel 1 g g2 x ps hk hens hget henv] at h
                have hWp : WFG (putFirst g2 1 x h_stringmap_new) :=
                  WFG_putFirst g2 x _ hW2 SMWF_new
                have hx1 : htGet (firstTab (putFirst g2 1 x h_stringmap_new) 1) x
                    = some h_stringmap_new := firstTab_get_put_self g2 x _ len2
                obtain ⟨hP1, hP2⟩ :=
                  ihfp (putFirst g2 1 x h_stringmap_new) x ps h_stringmap_new A g'
                    hWp SMWF_new hx1 h
                constructor
                · intro y m' hy
                  have hy2 : htGet (firstTab g2 1) y = some m' := by
                    rw [hFstE 1 y]; exact hy
                  by_cases hyx : y = x
                  · subst hyx; rw [hget] at hy2; cases hy2
                  · refine hP1 y m' hyx ?_
                    rw [firstTab_get_put_ne _ x y _ len2 hyx]
                    exact hy2
                · exact fun _ => hP2
    · -- firstProds
      intro g x ps ret ret' g' hW hr hx h
      cases ps with
      | nil =>
        rw [firstProds_eq_nil] at h
        obtain ⟨h1, h2⟩ := some_pair_inj h
        subst h1; subst h2
        exact ⟨fun y m _ hy => hy, hx⟩
      | cons p rest =>
        cases hseq : h_first_seq fuel 1 g p with
        | none => rw [firstProds_eq_cons_none fuel 1 g x p rest ret hseq] at h; cases h
        | some fg =>
          obtain ⟨fs, g2⟩ := fg
          rw [firstProds_eq_cons_some fuel 1 g g2 x p rest ret fs hseq] at h
          obtain ⟨hE2, hm2, hW2, hF2, hsfs⟩ := (invPres fuel).2.2.1 1 g p fs g2 hW hseq
          have hPres3 := ihseq 1 g p fs g2 hW hseq
          have hx2 : htGet (firstTab g2 1) x = some ret := hPres3 x ret hx
          obtain ⟨len2, hkm2⟩ := first_len_two_of_entry g2 hW2 x ret hx2
          have hup : SMWF (h_stringmap_update ret fs) := SMWF_update _ _ hr hsfs
          have hWp : WFG (putFirst g2 1 x (h_stringmap_update ret fs)) :=
            WFG_putFirst g2 x _ hW2 hup
          have hxP : htGet (firstTab (putFirst g2 1 x (h_stringmap_update ret fs)) 1) x
              = some (h_stringmap_update ret fs) := firstTab_get_put_self g2 x _ len2
          obtain ⟨hP1, hP2⟩ :=
            ihfp (putFirst g2 1 x (h_stringmap_update ret fs)) x rest
              (h_stringmap_update ret fs) ret' g' hWp hup hxP h
          constructor
          · intro y m' hyx hy
            refine hP1 y m' hyx ?_
            rw [firstTab_get_put_ne _ x y _ len2 hyx]
            exact hPres3 y m' hy
          · exact hP2
    · -- h_first_seq
      intro k g s A g' hW h
      cases s with
      | nil =>
        rw [h_first_seq_eq_nil] at h
        obtain ⟨h1, h2⟩ := some_pair_inj h
        subst h1; subst h2
        exact fun y m hy => hy
      | cons x tail =>
        cases hx : h_first fuel k g x with
        | none => rw [h_first_seq_eq_cons_none fuel k g x tail hx] at h; cases h
        | some fg =>
          obtain ⟨first_x, g2⟩ := fg
          obtain ⟨hE2, hm2, hW2, hF2, hsx⟩ := (invPres fuel).1 k g x first_x g2 hW hx
          have hPres1 := (ihf k g x first_x g2 hW hx).1
          cases hsing : is_singleton_epsilon first_x with
          | true =>
            rw [h_first_seq_eq_cons_eps fuel k g g2 x tail first_x hx hsing] at h
            have hPres2 := ihseq k g2 tail A g' hW2 h
            exact fun y m hy => hPres2 y m (hPres1 y m hy)
          | false =>
            cases hsh : any_string_shorter k first_x with
            | false =>
              rw [h_first_seq_eq_cons_full fuel k g g2 x tail first_x hx hsing hsh] at h
              obtain ⟨h1, h2⟩ := some_pair_inj h
              subst h1; subst h2
              exact hPres1
            | true =>
              rw [h_first_seq_eq_cons_ext fuel k g g2 x tail first_x hx hsing hsh] at h
              have hPres2 := ihext k g2 first_x tail h_stringmap_new A g' hW2 h
              exact fun y m hy => hPres2 y m (hPres1 y m hy)
    · -- first_extend
      intro k g as tail ret ret' g' hW h
      obtain ⟨aeps, aend, acl⟩ := as
      cases aeps with
      | none =>
        rw [first_extend_eq_no_eps fuel k g aend acl tail ret] at h
        cases aend with
        | none => exact ihec k g acl tail ret ret' g' hW h
        | some w => exact ihec k g acl tail _ ret' g' hW h
      | some v =>
        cases hseq : h_first_seq fuel k g tail with
        | none =>
          rw [first_extend_eq_eps_none fuel k g v aend acl tail ret hseq] at h; cases h
        | some fg =>
          obtain ⟨fs, g2⟩ := fg
          rw [first_extend_eq_eps_some fuel k g g2 v aend acl tail ret fs hseq] at h
          obtain ⟨hE2, hm2, hW2, hF2, hsfs⟩ :=
            (invPres fuel).2.2.1 k g tail fs g2 hW hseq
          have hPres1 := ihseq k g tail fs g2 hW hseq
          cases aend with
          | none =>
            have hPres2 := ihec k g2 acl tail _ ret' g' hW2 h
            exact fun y m hy => hPres2 y m (hPres1 y m hy)
          | some w =>
            have hPres2 := ihec k g2 acl tail _ ret' g' hW2 h
            exact fun y m hy => hPres2 y m (hPres1 y m hy)
    · -- extendChildren
      intro k g cl tail ret ret' g' hW h
      cases cl with
      | nil =>
        rw [extendChildren_eq_nil] at h
        obtain ⟨h1, h2⟩ := some_pair_inj h
        subst h1; subst h2
        exact fun y m hy => hy
      | cons p rest =>
        obtain ⟨c, as_⟩ := p
        cases hext : first_extend fuel (sub1_64 k) g as_ tail h_stringmap_new with
        | none =>
          rw [extendChildren_eq_cons_none fuel k g c as_ rest tail ret hext] at h
          cases h
        | some rg =>
          obtain ⟨ret_, g2⟩ := rg
          rw [extendChildren_eq_cons_some fuel k g g2 c as_ rest tail ret ret_ hext] at h
          obtain ⟨hE2, hm2, hW2, hF2, hsr⟩ :=
            (invPres fuel).2.2.2.1 (sub1_64 k) g as_ tail h_stringmap_new ret_ g2
              hW SMWF_new hext
          have hPres1 := ihext (sub1_64 k) g as_ tail h_stringmap_new ret_ g2 hW hext
          have hPres2 := ihec k g2 rest tail _ ret' g' hW2 h
          exact fun y m hy => hPres2 y m (hPres1 y m hy)
    · -- h_follow
      intro k g x ret g' hW hS h
      by_cases hk : k = 0
      · subst hk
        rw [h_follow_eq_k0] at h
        obtain ⟨h1, h2⟩ := some_pair_inj h
        subst h1; subst h2
        exact ⟨fun y m hy => hy, fun h0 => absurd rfl h0⟩
      · cases hens : ensure_k g k with
        | none => rw [h_follow_eq_ensure_none fuel k g x hk hens] at h; cases h
        | some g2 =>
          obtain ⟨hW2, hE2, hm2, hF2, hk1⟩ := WFG_ensure g g2 k hW hens
          obtain ⟨hke, hkm2⟩ := hk1 hk
          subst hke
          have hS2 : StartEndInv g2 := SEI_transport g g2 hE2 hF2 hS
          cases hget : htGet (followTab g2 1) x with
          | some m =>
            rw [h_follow_eq_hit fuel 1 g g2 x m hk hens hget] at h
            obtain ⟨h1, h2⟩ := some_pair_inj h
            subst h1; subst h2
            exact ⟨fun y m' hy => by rw [hF2 1 y]; exact hy, fun _ => hget⟩
          | none =>
            rw [h_follow_eq_miss fuel 1 g g2 x hk hens hget] at h
            have hlen2 : g2.follow.length = 2 := (hW2.2.2.1 hkm2).2
            have hlen2' : (putFollow g2 1 x h_stringmap_new).follow.length = 2 := by
              rw [putFollow_follow_length]; exact hlen2
            by_cases hx : x = g2.start
            · rw [if_pos hx] at h
              have hWG3 : WFG (putFollow (putFollow g2 1 x h_stringmap_new) 1 x
                  (h_stringmap_put_end h_stringmap_new INSET)) :=
                WFG_putFollow _ x _ (WFG_putFollow g2 x _ hW2 SMWF_new)
                  (SMWF_put_end _ _ SMWF_new)
              have hSG3 : StartEndInv (putFollow (putFollow g2 1 x h_stringmap_new) 1 x
                  (h_stringmap_put_end h_stringmap_new INSET)) :=
                SEI_double_putFollow g2 x _ hlen2 hS2 (fun _ => rfl)
              have hxG3 : htGet (followTab (putFollow (putFollow g2 1 x
                  h_stringmap_new) 1 x (h_stringmap_put_end h_stringmap_new INSET)) 1) x
                  = some (h_stringmap_put_end h_stringmap_new INSET) :=
                followTab_get_put_self _ x _ hlen2'
              obtain ⟨hP1, hP2⟩ :=
                ihfn (putFollow (putFollow g2 1 x h_stringmap_new) 1 x
                    (h_stringmap_put_end h_stringmap_new INSET)) x g2.nts
                  (h_stringmap_put_end h_stringmap_new INSET) ret g' hkm2 hWG3 hSG3
                  (SMWF_put_end _ _ SMWF_new) (fun _ => rfl) hxG3 h
              constructor
              · intro y m' hy
                have hy2 : htGet (followTab g2 1) y = some m' := by
                  rw [hF2 1 y]; exact hy
                by_cases hyx : y = x
                · subst hyx; rw [hget] at hy2; cases hy2
                · refine hP1 y m' hyx ?_
                  rw [followTab_get_put_ne _ x y _ hlen2' hyx,
                    followTab_get_put_ne _ x y _ hlen2 hyx]
                  exact hy2
              · exact fun _ => hP2
            · rw [if_neg hx] at h
              have hWG3 : WFG (putFollow (putFollow g2 1 x h_stringmap_new) 1 x
                  h_stringmap_new) :=
                WFG_putFollow _ x _ (WFG_putFollow g2 x _ hW2 SMWF_new) SMWF_new
              have hSG3 : StartEndInv (putFollow (putFollow g2 1 x h_stringmap_new) 1 x
                  h_stringmap_new) :=
                SEI_double_putFollow g2 x _ hlen2 hS2 (fun hxx => absurd hxx hx)
              have hxG3 : htGet (followTab (putFollow (putFollow g2 1 x
                  h_stringmap_new) 1 x h_stringmap_new) 1) x = some h_stringmap_new :=
                followTab_get_put_self _ x _ hlen2'
              obtain ⟨hP1, hP2⟩ :=
                ihfn (putFollow (putFollow g2 1 x h_stringmap_new) 1 x
                    h_stringmap_new) x g2.nts h_stringmap_new ret g' hkm2 hWG3 hSG3
                  SMWF_new (fun hxx => absurd hxx hx) hxG3 h
              constructor
              · intro y m' hy
                have hy2 : htGet (followTab g2 1) y = some m' := by
                  rw [hF2 1 y]; exact hy
                by_cases hyx : y = x
                · subst hyx; rw [hget] at hy2; cases hy2
                · refine hP1 y m' hyx ?_
                  rw [followTab_get_put_ne _ x y _ hlen2' hyx,
                    followTab_get_put_ne _ x y _ hlen2 hyx]
                  exact hy2
              · exact fun _ => hP2
    · -- followNts
      intro g x l ret ret' g' hkm hW hS hr hfr hx h
      cases l with
      | nil =>
        rw [followNts_eq_nil] at h
        obtain ⟨h1, h2⟩ := some_pair_inj h
        subst h1; subst h2
        exact ⟨fun y m _ hy => hy, hx⟩
      | cons p rest =>
        obtain ⟨a, v⟩ := p
        cases henv : g.env.get? a with
        | none =>
          have hbad : ∀ qs, g.env.get? a ≠ some (.choice qs) := by
            intro qs hqs; rw [henv] at hqs; cases hqs
          rw [followNts_eq_cons_bad fuel 1 g x a v rest ret hbad] at h; cases h
        | some d =>
          cases d with
          | char c =>
            have hbad : ∀ qs, g.env.get? a ≠ some (.choice qs) := by
              intro qs hqs; rw [henv] at hqs; cases hqs
            rw [followNts_eq_cons_bad fuel 1 g x a v rest ret hbad] at h; cases h
          | hend =>
            have hbad : ∀ qs, g.env.get? a ≠ some (.choice qs) := by
              intro qs hqs; rw [henv] at hqs; cases hqs
            rw [followNts_eq_cons_bad fuel 1 g x a v rest ret hbad] at h; cases h
          | charset cs =>
            have hbad : ∀ qs, g.env.get? a ≠ some (.choice qs) := by
              intro qs hqs; rw [henv] at hqs; cases hqs
            rw [followNts_eq_cons_bad fuel 1 g x a v rest ret hbad] at h; cases h
          | choice ps =>
            cases hp : followProds fuel 1 g x a ps ret with
            | none =>
              rw [followNts_eq_cons_none fuel 1 g x a v ps rest ret henv hp] at h
              cases h
            | some rg =>
              obtain ⟨ret2, g2⟩ := rg
              rw [followNts_eq_cons_some fuel 1 g g2 x a v ps rest ret ret2 henv hp] at h
              obtain ⟨hE2, hm2, hW2, hS2, hsr2, hfr2⟩ :=
                (invPres fuel).2.2.2.2.2.2.2.1 1 g x a ps ret ret2 g2 rfl hkm hW hS
                  hr hfr hp
              obtain ⟨hQ1, hQ2⟩ := ihfpr g x a ps ret ret2 g2 hkm hW hS hr hfr hx hp
              have hkm2 : g2.kmax = 1 := by
                have := hW2.1; omega
              obtain ⟨hP1, hP2⟩ :=
                ihfn g2 x rest ret2 ret' g' hkm2 hW2 hS2 hsr2
                  (fun hxx => hfr2 (hxx.trans hE2.2.1)) hQ2 h
              exact ⟨fun y m hyx hy => hP1 y m hyx (hQ1 y m hyx hy), hP2⟩
    · -- followProds
      intro g x a ps ret ret' g' hkm hW hS hr hfr hx h
      cases ps with
      | nil =>
        rw [followProds_eq_nil] at h
        obtain ⟨h1, h2⟩ := some_pair_inj h
        subst h1; subst h2
        exact ⟨fun y m _ hy => hy, hx⟩
      | cons p rest =>
        cases ho : followOcc fuel 1 g x a p ret with
        | none => rw [followProds_eq_cons_none fuel 1 g x a p rest ret ho] at h; cases h
        | some rg =>
          obtain ⟨ret2, g2⟩ := rg
          rw [followProds_eq_cons_some fuel 1 g g2 x a p rest ret ret2 ho] at h
          obtain ⟨hE2, hm2, hW2, hS2, hsr2, hfr2⟩ :=
            (invPres fuel).2.2.2.2.2.2.2.2.1 1 g x a p ret ret2 g2 rfl hkm hW hS
              hr hfr ho
          obtain ⟨hQ1, hQ2⟩ := ihocc g x a p ret ret2 g2 hkm hW hS hr hfr hx ho
          have hkm2 : g2.kmax = 1 := by
            have := hW2.1; omega
          obtain ⟨hP1, hP2⟩ :=
            ihfpr g2 x a rest ret2 ret' g' hkm2 hW2 hS2 hsr2
              (fun hxx => hfr2 (hxx.trans hE2.2.1)) hQ2 h
          exact ⟨fun y m hyx hy => hP1 y m hyx (hQ1 y m hyx hy), hP2⟩
    · -- followOcc
      intro g x a s ret ret' g' hkm hW hS hr hfr hx h
      cases s with
      | nil =>
        rw [followOcc_eq_nil] at h
        obtain ⟨h1, h2⟩ := some_pair_inj h
        subst h1; subst h2
        exact ⟨fun y m _ hy => hy, hx⟩
      | cons y0 tail =>
        by_cases hy0 : y0 = x
        · subst hy0
          cases hseq : h_first_seq fuel 1 g tail with
          | none =>
            rw [followOcc_eq_cons_seq_none fuel 1 g y0 a tail ret hseq] at h; cases h
          | some fg =>
            obtain ⟨ft, g2⟩ := fg
            obtain ⟨hE2, hm2, hW2, hF2, hsft⟩ :=
              (invPres fuel).2.2.1 1 g tail ft g2 hW hseq
            have hS2 : StartEndInv g2 := SEI_transport g g2 hE2 hF2 hS
            have hx2 : htGet (followTab g2 1) y0 = some ret := by
              rw [hF2 1 y0]; exact hx
            cases hsse : stringset_extend fuel 1 g2 ft a ret with
            | none =>
              rw [followOcc_eq_cons_sse_none fuel 1 g g2 y0 a tail ret ft hseq hsse]
                at h
              cases h
            | some rg =>
              obtain ⟨ret2, g3⟩ := rg
              rw [followOcc_eq_cons_sse_some fuel 1 g g2 g3 y0 a tail ret ft ret2
                hseq hsse] at h
              obtain ⟨hE3, hm3, hW3, hS3, hsr2, hem⟩ :=
                (invPres fuel).2.2.2.2.2.2.2.2.2.1 1 g2 ft a ret ret2 g3 hW2 hS2
                  hr hsse
              have hPres10 := ihsse 1 g2 ft a ret ret2 g3 hW2 hS2 hr hsse
              have hx3 : htGet (followTab g3 1) y0 = some ret := hPres10 y0 ret hx2
              have hkm3 : g3.kmax = 1 := by
                have := hW3.1; omega
              have hlen3 : g3.follow.length = 2 := (hW3.2.2.1 hkm3).2
              have hfr3 : y0 = g3.start → ret2.end_branch.isSome = true := by
                intro hxx
                exact hem (hfr ((hxx.trans hE3.2.1).trans hE2.2.1))
              have hW4 : WFG (putFollow g3 1 y0 ret2) := WFG_putFollow g3 y0 ret2 hW3 hsr2
              have hS4 : StartEndInv (putFollow g3 1 y0 ret2) :=
                SEI_putFollow g3 y0 ret2 hlen3 hS3 hfr3
              have hx4 : htGet (followTab (putFollow g3 1 y0 ret2) 1) y0 = some ret2 :=
                followTab_get_put_self g3 y0 ret2 hlen3
              obtain ⟨hP1, hP2⟩ :=
                ihocc (putFollow g3 1 y0 ret2) y0 a tail ret2 ret' g' hkm3
                  hW4 hS4 hsr2 hfr3 hx4 h
              constructor
              · intro y m hyx hy
                refine hP1 y m hyx ?_
                rw [followTab_get_put_ne g3 y0 y ret2 hlen3 hyx]
                refine hPres10 y m ?_
                rw [hF2 1 y]
                exact hy
              · exact hP2
        · rw [followOcc_eq_cons_skip fuel 1 g x a y0 tail ret hy0] at h
          exact ihocc g x a tail ret ret' g' hkm hW hS hr hfr hx h
    · -- stringset_extend
      intro k g as a ret ret' g' hW hS hr h
      obtain ⟨aeps, aend, acl⟩ := as
      cases aeps with
      | none =>
        rw [stringset_extend_eq_no_eps fuel k g aend acl a ret] at h
        cases aend with
        | none => exact ihsc k g acl a ret ret' g' hW hS hr h
        | some w =>
          exact ihsc k g acl a _ ret' g' hW hS (SMWF_put_end _ _ hr) h
      | some v =>
        cases hfol : h_follow fuel k g a with
        | none =>
          rw [stringset_extend_eq_eps_none fuel k g v aend acl a ret hfol] at h; cases h
        | some fg =>
          obtain ⟨fs, g2⟩ := fg
          rw [stringset_extend_eq_eps_some fuel k g g2 v aend acl a ret fs hfol] at h
          obtain ⟨hE2, hm2, hW2, hS2, hsfs, _⟩ :=
            (invPres fuel).2.2.2.2.2.1 k g a fs g2 hW hS hfol
          have hPres1 := (ihfo k g a fs g2 hW hS hfol).1
          cases aend with
          | none =>
            have hPres2 := ihsc k g2 acl a _ ret' g' hW2 hS2
              (SMWF_update _ _ hr hsfs) h
            exact fun y m hy => hPres2 y m (hPres1 y m hy)
          | some w =>
            have hPres2 := ihsc k g2 acl a _ ret' g' hW2 hS2
              (SMWF_put_end _ _ (SMWF_update _ _ hr hsfs)) h
            exact fun y m hy => hPres2 y m (hPres1 y m hy)
    · -- sseChildren
      intro k g cl a ret ret' g' hW hS hr h
      cases cl with
      | nil =>
        rw [sseChildren_eq_nil] at h
        obtain ⟨h1, h2⟩ := some_pair_inj h
        subst h1; subst h2
        exact fun y m hy => hy
      | cons p rest =>
        obtain ⟨c, as_⟩ := p
        cases hext : stringset_extend fuel (sub1_64 k) g as_ a h_stringmap_new with
        | none =>
          rw [sseChildren_eq_cons_none fuel k g c as_ rest a ret hext] at h; cases h
        | some rg =>
          obtain ⟨ret_, g2⟩ := rg
          rw [sseChildren_eq_cons_some fuel k g g2 c as_ rest a ret ret_ hext] at h
          obtain ⟨hE2, hm2, hW2, hS2, hsr, _⟩ :=
            (invPres fuel).2.2.2.2.2.2.2.2.2.1 (sub1_64 k) g as_ a h_stringmap_new
              ret_ g2 hW hS SMWF_new hext
          have hPres1 := ihsse (sub1_64 k) g as_ a h_stringmap_new ret_ g2 hW hS
            SMWF_new hext
          have hPres2 := ihsc k g2 rest a _ ret' g' hW2 hS2
            (SMWF_put_char _ _ _ hr) h
          exact fun y m hy => hPres2 y m (hPres1 y m hy)


/-! ## Termination support: fuel lifting, counting, closed forms at k = 0 -/

theorem firstProds_mono_le (f1 f2 k : Nat) (g : HCFGrammar) (x : Nat)
    (ps : List (List Nat)) (ret : HCFStringMap) (r : HCFStringMap × HCFGrammar)
    (hle : f1 ≤ f2) (h : firstProds f1 k g x ps ret = some r) :
    firstProds f2 k g x ps ret = some r := by
  induction hle with
  | refl => exact h
  | step _ ih => exact (fuelMono _).2.1 _ _ _ _ _ _ ih

theorem first_extend_mono_le (f1 f2 k : Nat) (g : HCFGrammar) (as : HCFStringMap)
    (tail : List Nat) (ret : HCFStringMap) (r : HCFStringMap × HCFGrammar)
    (hle : f1 ≤ f2) (h : first_extend f1 k g as tail ret = some r) :
    first_extend f2 k g as tail ret = some r := by
  induction hle with
  | refl => exact h
  | step _ ih => exact (fuelMono _).2.2.2.1 _ _ _ _ _ _ ih

theorem extendChildren_mono_le (f1 f2 k : Nat) (g : HCFGrammar)
    (cl : List (Nat × HCFStringMap)) (tail : List Nat) (ret : HCFStringMap)
    (r : HCFStringMap × HCFGrammar)
    (hle : f1 ≤ f2) (h : extendChildren f1 k g cl tail ret = some r) :
    extendChildren f2 k g cl tail ret = some r := by
  induction hle with
  | refl => exact h
  | step _ ih => exact (fuelMono _).2.2.2.2.1 _ _ _ _ _ _ ih

theorem followNts_mono_le (f1 f2 k : Nat) (g : HCFGrammar) (x : Nat)
    (l : List (Nat × Nat)) (ret : HCFStringMap) (r : HCFStringMap × HCFGrammar)
    (hle : f1 ≤ f2) (h : followNts f1 k g x l ret = some r) :
    followNts f2 k g x l ret = some r := by
  induction hle with
  | refl => exact h
  | step _ ih => exact (fuelMono _).2.2.2.2.2.2.1 _ _ _ _ _ _ ih

theorem followProds_mono_le (f1 f2 k : Nat) (g : HCFGrammar) (x a : Nat)
    (ps : List (List Nat)) (ret : HCFStringMap) (r : HCFStringMap × HCFGrammar)
    (hle : f1 ≤ f2) (h : followProds f1 k g x a ps ret = some r) :
    followProds f2 k g x a ps ret = some r := by
  induction hle with
  | refl => exact h
  | step _ ih => exact (fuelMono _).2.2.2.2.2.2.2.1 _ _ _ _ _ _ _ ih

theorem followOcc_mono_le (f1 f2 k : Nat) (g : HCFGrammar) (x a : Nat)
    (s : List Nat) (ret : HCFStringMap) (r : HCFStringMap × HCFGrammar)
    (hle : f1 ≤ f2) (h : followOcc f1 k g x a s ret = some r) :
    followOcc f2 k g x a s ret = some r := by
  induction hle with
  | refl => exact h
  | step _ ih => exact (fuelMono _).2.2.2.2.2.2.2.2.1 _ _ _ _ _ _ _ ih

theorem stringset_extend_mono_le (f1 f2 k : Nat) (g : HCFGrammar) (as : HCFStringMap)
    (a : Nat) (ret : HCFStringMap) (r : HCFStringMap × HCFGrammar)
    (hle : f1 ≤ f2) (h : stringset_extend f1 k g as a ret = some r) :
    stringset_extend f2 k g as a ret = some r := by
  induction hle with
  | refl => exact h
  | step _ ih => exact (fuelMono _).2.2.2.2.2.2.2.2.2.1 _ _ _ _ _ _ ih

theorem sseChildren_mono_le (f1 f2 k : Nat) (g : HCFGrammar)
    (cl : List (Nat × HCFStringMap)) (a : Nat) (ret : HCFStringMap)
    (r : HCFStringMap × HCFGrammar)
    (hle : f1 ≤ f2) (h : sseChildren f1 k g cl a ret = some r) :
    sseChildren f2 k g cl a ret = some r := by
  induction hle with
  | refl => exact h
  | step _ ih => exact (fuelMono _).2.2.2.2.2.2.2.2.2.2 _ _ _ _ _ _ ih

theorem countP_le_of_imp (l : List Nat) (p q : Nat → Bool)
    (h : ∀ y ∈ l, p y = true → q y = true) : l.countP p ≤ l.countP q := by
  induction l with
  | nil => exact le_refl _
  | cons a t ih =>
    rw [List.countP_cons, List.countP_cons]
    have ht := ih (fun y hy => h y (List.mem_cons_of_mem a hy))
    by_cases hpa : p a = true
    · rw [if_pos hpa, if_pos (h a (List.mem_cons_self a t) hpa)]
      omega
    · rw [if_neg hpa]
      have hz : (0:Nat) ≤ if q a = true then 1 else 0 := by split <;> omega
      omega

theorem countP_lt_of_flip (l : List Nat) (p q : Nat → Bool) (x : Nat)
    (hx : x ∈ l) (hqx : q x = true) (hpx : p x = false)
    (h : ∀ y ∈ l, p y = true → q y = true) : l.countP p < l.countP q := by
  induction l with
  | nil => cases hx
  | cons a t ih =>
    rw [List.countP_cons, List.countP_cons]
    rcases List.mem_cons.mp hx with rfl | hxt
    · rw [if_neg (by simp [hpx]), if_pos hqx]
      have := countP_le_of_imp t p q (fun y hy => h y (List.mem_cons_of_mem x hy))
      omega
    · have ht := ih hxt (fun y hy => h y (List.mem_cons_of_mem a hy))
      by_cases hpa : p a = true
      · rw [if_pos hpa, if_pos (h a (List.mem_cons_self a t) hpa)]
        omega
      · rw [if_neg hpa]
        have h1 : (0:Nat) ≤ if q a = true then 1 else 0 := by split <;> omega
        omega

theorem presMono_of_presEq {t t' : List (Nat × HCFStringMap)}
    (h : ∀ y m, htGet t y = some m → htGet t' y = some m) :
    ∀ y, htPresent t y = true → htPresent t' y = true := by
  intro y hy
  unfold htPresent at hy ⊢
  cases hg : htGet t y with
  | none => rw [hg] at hy; cases hy
  | some m => rw [h y m hg]; rfl

theorem presMono_of_presEqX {t t' : List (Nat × HCFStringMap)} {x : Nat}
    {r : HCFStringMap}
    (h : ∀ y m, y ≠ x → htGet t y = some m → htGet t' y = some m)
    (hx : htGet t' x = some r) :
    ∀ y, htPresent t y = true → htPresent t' y = true := by
  intro y hy
  unfold htPresent at hy ⊢
  by_cases hyx : y = x
  · subst hyx; rw [hx]; rfl
  · cases hg : htGet t y with
    | none => rw [hg] at hy; cases hy
    | some m => rw [h y m hyx hg]; rfl

theorem missingF_le (g g' : HCFGrammar) (hlen : g'.env.length = g.env.length)
    (hkeys : ∀ y, htPresent (firstTab g 1) y = true →
      htPresent (firstTab g' 1) y = true) : missingF g' ≤ missingF g := by
  unfold missingF
  rw [hlen]
  refine countP_le_of_imp _ _ _ ?_
  intro y _ hy
  cases hpo : htPresent (firstTab g 1) y with
  | false => rfl
  | true =>
    rw [hkeys y hpo] at hy
    simp at hy

theorem missingFol_le (g g' : HCFGrammar) (hlen : g'.env.length = g.env.length)
    (hkeys : ∀ y, htPresent (followTab g 1) y = true →
      htPresent (followTab g' 1) y = true) : missingFol g' ≤ missingFol g := by
  unfold missingFol
  rw [hlen]
  refine countP_le_of_imp _ _ _ ?_
  intro y _ hy
  cases hpo : htPresent (followTab g 1) y with
  | false => rfl
  | true =>
    rw [hkeys y hpo] at hy
    simp at hy

theorem missingF_putFirst_lt (g : HCFGrammar) (x : Nat) (m : HCFStringMap)
    (hx : x < g.env.length) (h2 : g.first.length = 2)
    (habs : htGet (firstTab g 1) x = none) :
    missingF (putFirst g 1 x m) < missingF g := by
  unfold missingF
  have hlen : (putFirst g 1 x m).env.length = g.env.length := rfl
  rw [hlen]
  refine countP_lt_of_flip _ _ _ x (List.mem_range.mpr hx) ?_ ?_ ?_
  · show Bool.not (htPresent (firstTab g 1) x) = true
    unfold htPresent
    rw [habs]
    rfl
  · show Bool.not (htPresent (firstTab (putFirst g 1 x m) 1) x) = false
    unfold htPresent
    rw [firstTab_get_put_self g x m h2]
    rfl
  · intro y _ hy
    show Bool.not (htPresent (firstTab g 1) y) = true
    have hy2 : Bool.not (htPresent (firstTab (putFirst g 1 x m) 1) y) = true := hy
    by_cases hyx : y = x
    · subst hyx
      unfold htPresent
      rw [habs]
      rfl
    · unfold htPresent at hy2 ⊢
      rw [firstTab_get_put_ne g x y m h2 hyx] at hy2
      exact hy2

theorem missingFol_putFollow2_lt (g : HCFGrammar) (x : Nat) (m m2 : HCFStringMap)
    (hx : x < g.env.length) (h2 : g.follow.length = 2)
    (habs : htGet (followTab g 1) x = none) :
    missingFol (putFollow (putFollow g 1 x m) 1 x m2) < missingFol g := by
  unfold missingFol
  have h2' : (putFollow g 1 x m).follow.length = 2 := by
    rw [putFollow_follow_length]; exact h2
  have hlen : (putFollow (putFollow g 1 x m) 1 x m2).env.length = g.env.length := rfl
  rw [hlen]
  refine countP_lt_of_flip _ _ _ x (List.mem_range.mpr hx) ?_ ?_ ?_
  · show Bool.not (htPresent (followTab g 1) x) = true
    unfold htPresent
    rw [habs]
    rfl
  · show Bool.not (htPresent (followTab (putFollow (putFollow g 1 x m) 1 x m2) 1) x)
      = false
    unfold htPresent
    rw [followTab_get_put_self _ x m2 h2']
    rfl
  · intro y _ hy
    show Bool.not (htPresent (followTab g 1) y) = true
    have hy2 : Bool.not (htPresent (followTab (putFollow (putFollow g 1 x m) 1 x m2)
      1) y) = true := hy
    by_cases hyx : y = x
    · subst hyx
      unfold htPresent
      rw [habs]
      rfl
    · unfold htPresent at hy2 ⊢
      rw [followTab_get_put_ne _ x y m2 h2' hyx,
        followTab_get_put_ne g x y m h2 hyx] at hy2
      exact hy2

theorem envClosed_eq_of_env (g g' : HCFGrammar) (h : g'.env = g.env) :
    envClosed g' = envClosed g := by
  unfold envClosed
  rw [h]

theorem NtsChoice_transport (g g' : HCFGrammar) (hE : EnvEq g g')
    (h : NtsChoice g) : NtsChoice g' := by
  intro p hp
  rw [hE.2.2.1] at hp
  obtain ⟨ps, hps⟩ := h p hp
  exact ⟨ps, by rw [hE.1]; exact hps⟩

theorem envClosed_spec (g : HCFGrammar) (x : Nat) (ps : List (List Nat))
    (hC : envClosed g = true) (h : g.env.get? x = some (.choice ps)) :
    ∀ p ∈ ps, ∀ y ∈ p, y < g.env.length := by
  intro p hp y hy
  have hmem : HCFChoiceDef.choice ps ∈ g.env := List.get?_mem h
  have hd := List.all_eq_true.mp hC _ hmem
  unfold prodsClosed at hd
  have hp' := List.all_eq_true.mp hd p hp
  have hy' := List.all_eq_true.mp hp' y hy
  exact of_decide_eq_true hy'

theorem ensure_k_id (g : HCFGrammar) (h : 1 ≤ g.kmax) : ensure_k g 1 = some g := by
  unfold ensure_k
  rw [if_pos h]

theorem env_get_lt (g : HCFGrammar) (x : Nat) (hx : x < g.env.length) :
    ∃ d, g.env.get? x = some d := by
  cases h : g.env.get? x with
  | none =>
    have := List.get?_eq_none.mp h
    omega
  | some d => exact ⟨d, rfl⟩

theorem h_first_seq_k0_succeeds (g : HCFGrammar)
    (hsng : is_singleton_epsilon g.singleton_epsilon = true) :
    ∀ s : List Nat, h_first_seq (s.length + 1) 0 g s
      = some (g.singleton_epsilon, g) := by
  intro s
  induction s with
  | nil => rw [h_first_seq_eq_nil]
  | cons y t ih =>
    show h_first_seq (t.length + 1 + 1) 0 g (y :: t) = _
    rw [h_first_seq_eq_cons_eps (t.length + 1) 0 g g y t g.singleton_epsilon
      (h_first_eq_k0 t.length g y) hsng]
    exact ih

theorem first_extend_k0_leaf (g : HCFGrammar) (w : HSMVal) (tail : List Nat)
    (hsng : is_singleton_epsilon g.singleton_epsilon = true) :
    first_extend (tail.length + 2) 0 g (HCFStringMap.mk (some w) none []) tail
        h_stringmap_new
      = some (h_stringmap_update h_stringmap_new g.singleton_epsilon, g) := by
  show first_extend (tail.length + 1 + 1) 0 g _ tail h_stringmap_new = _
  rw [first_extend_eq_eps_some (tail.length + 1) 0 g g w none [] tail h_stringmap_new
    g.singleton_epsilon (h_first_seq_k0_succeeds g hsng tail)]
  show extendChildren (tail.length + 1) 0 g [] tail _ = _
  cases tail with
  | nil => rw [extendChildren_eq_nil]
  | cons c r =>
    show extendChildren (r.length + 1 + 1) 0 g [] (c :: r) _ = _
    rw [extendChildren_eq_nil]

theorem stringset_extend_k0_leaf (g : HCFGrammar) (w : HSMVal) (a : Nat)
    (_hsng : is_singleton_epsilon g.singleton_epsilon = true) :
    stringset_extend 3 0 g (HCFStringMap.mk (some w) none []) a h_stringmap_new
      = some (h_stringmap_update h_stringmap_new g.singleton_epsilon, g) := by
  have hfol : h_follow 2 0 g a = some (g.singleton_epsilon, g) := h_follow_eq_k0 1 g a
  show stringset_extend (2 + 1) 0 g _ a h_stringmap_new = _
  rw [stringset_extend_eq_eps_some 2 0 g g w none [] a h_stringmap_new
    g.singleton_epsilon hfol]
  show sseChildren (1 + 1) 0 g [] a _ = _
  rw [sseChildren_eq_nil]

theorem extendChildren_term (g : HCFGrammar) (tail : List Nat)
    (hsng : is_singleton_epsilon g.singleton_epsilon = true) :
    ∀ (cl : List (Nat × HCFStringMap)) (ret : HCFStringMap),
    (∀ p ∈ cl, ∃ w, p.2 = HCFStringMap.mk (some w) none []) →
    ∃ fuel ret', extendChildren fuel 1 g cl tail ret = some (ret', g) := by
  intro cl
  induction cl with
  | nil => exact fun ret _ => ⟨1, ret, extendChildren_eq_nil 0 1 g tail ret⟩
  | cons p rest ih =>
    intro ret hleaves
    obtain ⟨c, mc⟩ := p
    obtain ⟨w, hw⟩ := hleaves (c, mc) (List.mem_cons_self _ _)
    have hwm : mc = HCFStringMap.mk (some w) none [] := hw
    obtain ⟨f2, ret', h2⟩ :=
      ih (h_stringmap_put_char ret c
        (.sub (h_stringmap_update h_stringmap_new g.singleton_epsilon)))
        (fun q hq => hleaves q (List.mem_cons_of_mem _ hq))
    have hext : first_extend (max (tail.length + 2) f2) (sub1_64 1) g mc tail
        h_stringmap_new
        = some (h_stringmap_update h_stringmap_new g.singleton_epsilon, g) := by
      rw [hwm]
      exact first_extend_mono_le (tail.length + 2) _ 0 g _ tail h_stringmap_new _
        (le_max_left _ _) (first_extend_k0_leaf g w tail hsng)
    refine ⟨max (tail.length + 2) f2 + 1, ret', ?_⟩
    rw [extendChildren_eq_cons_some (max (tail.length + 2) f2) 1 g g c mc rest tail
      ret _ hext]
    exact extendChildren_mono_le f2 _ 1 g rest tail _ _ (le_max_right _ _) h2

theorem sseChildren_term (g : HCFGrammar) (a : Nat)
    (hsng : is_singleton_epsilon g.singleton_epsilon = true) :
    ∀ (cl : List (Nat × HCFStringMap)) (ret : HCFStringMap),
    (∀ p ∈ cl, ∃ w, p.2 = HCFStringMap.mk (some w) none []) →
    ∃ fuel ret', sseChildren fuel 1 g cl a ret = some (ret', g) := by
  intro cl
  induction cl with
  | nil => exact fun ret _ => ⟨1, ret, sseChildren_eq_nil 0 1 g a ret⟩
  | cons p rest ih =>
    intro ret hleaves
    obtain ⟨c, mc⟩ := p
    obtain ⟨w, hw⟩ := hleaves (c, mc) (List.mem_cons_self _ _)
    have hwm : mc = HCFStringMap.mk (some w) none [] := hw
    obtain ⟨f2, ret', h2⟩ :=
      ih (h_stringmap_put_char ret c
        (.sub (h_stringmap_update h_stringmap_new g.singleton_epsilon)))
        (fun q hq => hleaves q (List.mem_cons_of_mem _ hq))
    have hext : stringset_extend (max 3 f2) (sub1_64 1) g mc a h_stringmap_new
        = some (h_stringmap_update h_stringmap_new g.singleton_epsilon, g) := by
      rw [hwm]
      exact stringset_extend_mono_le 3 _ 0 g _ a h_stringmap_new _
        (le_max_left _ _) (stringset_extend_k0_leaf g w a hsng)
    refine ⟨max 3 f2 + 1, ret', ?_⟩
    rw [sseChildren_eq_cons_some (max 3 f2) 1 g g c mc rest a ret _ hext]
    exact sseChildren_mono_le f2 _ 1 g rest a _ _ (le_max_right _ _) h2


/-- Termination of the FIRST side at `k = 1`, by strong induction on the
number of missing memo entries: each miss installs its placeholder before
recursing, so every nested computation faces strictly fewer missing keys. -/
theorem termFirstAux : ∀ N : Nat,
    (∀ g x, WFG g → envClosed g = true → g.kmax = 1 → missingF g ≤ N →
      x < g.env.length → ∃ fuel r, h_first fuel 1 g x = some r) ∧
    (∀ ps g x ret, WFG g → envClosed g = true → g.kmax = 1 → missingF g ≤ N →
      SMWF ret → (∀ p ∈ ps, ∀ y ∈ p, y < g.env.length) →
      htGet (firstTab g 1) x = some ret →
      ∃ fuel r, firstProds fuel 1 g x ps ret = some r) ∧
    (∀ s g, WFG g → envClosed g = true → g.kmax = 1 → missingF g ≤ N →
      (∀ y ∈ s, y < g.env.length) →
      ∃ fuel r, h_first_seq fuel 1 g s = some r) := by
  intro N
  induction N using Nat.strong_induction_on with
  | _ N ih =>
    have H1 : ∀ g x, WFG g → envClosed g = true → g.kmax = 1 → missingF g ≤ N →
        x < g.env.length → ∃ fuel r, h_first fuel 1 g x = some r := by
      intro g x hW hC hkm hN hx
      have hens : ensure_k g 1 = some g := ensure_k_id g (by omega)
      cases hget : htGet (firstTab g 1) x with
      | some m => exact ⟨1, (m, g), h_first_eq_hit 0 1 g g x m one_ne_zero hens hget⟩
      | none =>
        obtain ⟨d, hd⟩ := env_get_lt g x hx
        have len2 : g.first.length = 2 := (hW.2.2.1 hkm).1
        cases d with
        | hend => exact ⟨1, _, h_first_eq_hend 0 1 g g x one_ne_zero hens hget hd⟩
        | char c => exact ⟨1, _, h_first_eq_char 0 1 g g x c one_ne_zero hens hget hd⟩
        | charset cs =>
          exact ⟨1, _, h_first_eq_charset 0 1 g g x cs one_ne_zero hens hget hd⟩
        | choice ps =>
          have hdec : missingF (putFirst g 1 x h_stringmap_new) < missingF g :=
            missingF_putFirst_lt g x h_stringmap_new hx len2 hget
          have hWp : WFG (putFirst g 1 x h_stringmap_new) :=
            WFG_putFirst g x _ hW SMWF_new
          have hCp : envClosed (putFirst g 1 x h_stringmap_new) = true := by
            rw [envClosed_eq_of_env g (putFirst g 1 x h_stringmap_new) rfl]; exact hC
          have hxp : htGet (firstTab (putFirst g 1 x h_stringmap_new) 1) x
              = some h_stringmap_new := firstTab_get_put_self g x _ len2
          have hps : ∀ p ∈ ps, ∀ y ∈ p,
              y < (putFirst g 1 x h_stringmap_new).env.length :=
            envClosed_spec g x ps hC hd
          obtain ⟨fuel, r, hrun⟩ :=
            (ih (missingF (putFirst g 1 x h_stringmap_new)) (by omega)).2.1 ps
              (putFirst g 1 x h_stringmap_new) x h_stringmap_new hWp hCp hkm
              (le_refl _) SMWF_new hps hxp
          refine ⟨fuel + 1, r, ?_⟩
          rw [h_first_eq_choice fuel 1 g g x ps one_ne_zero hens hget hd]
          exact hrun
    have HJ : ∀ s g, WFG g → envClosed g = true → g.kmax = 1 → missingF g ≤ N →
        (∀ y ∈ s, y < g.env.length) →
        ∃ fuel r, h_first_seq fuel 1 g s = some r := by
      intro s
      induction s with
      | nil =>
        exact fun g _ _ _ _ _ =>
          ⟨1, (g.singleton_epsilon, g), h_first_seq_eq_nil 0 1 g⟩
      | cons x tail ihs =>
        intro g hW hC hkm hN hs
        obtain ⟨f1, r1, hx1⟩ := H1 g x hW hC hkm hN (hs x (List.mem_cons_self _ _))
        obtain ⟨first_x, g2⟩ := r1
        obtain ⟨hE2, hm2, hW2, hF2, hsA⟩ := (invPres f1).1 1 g x first_x g2 hW hx1
        have hC2 : envClosed g2 = true := by
          rw [envClosed_eq_of_env g g2 hE2.1]; exact hC
        have hkm2 : g2.kmax = 1 := by
          have := hW2.1; omega
        have hlen2 : g2.env.length = g.env.length := by rw [hE2.1]
        have hN2 : missingF g2 ≤ N :=
          le_trans (missingF_le g g2 hlen2
            (presMono_of_presEq ((resEq f1).1 1 g x first_x g2 hW hx1).1)) hN
        have hs2 : ∀ y ∈ tail, y < g2.env.length := by
          intro y hy; rw [hlen2]; exact hs y (List.mem_cons_of_mem _ hy)
        cases hsing : is_singleton_epsilon first_x with
        | true =>
          obtain ⟨f2, r2, h2⟩ := ihs g2 hW2 hC2 hkm2 hN2 hs2
          refine ⟨max f1 f2 + 1, r2, ?_⟩
          rw [h_first_seq_eq_cons_eps (max f1 f2) 1 g g2 x tail first_x
            (h_first_mono_le f1 _ 1 g x _ (le_max_left _ _) hx1) hsing]
          exact h_first_seq_mono_le f2 _ 1 g2 tail r2 (le_max_right _ _) h2
        | false =>
          cases hsh : any_string_shorter 1 first_x with
          | false =>
            refine ⟨f1 + 1, (first_x, g2), ?_⟩
            rw [h_first_seq_eq_cons_full f1 1 g g2 x tail first_x hx1 hsing hsh]
          | true =>
            have heps : first_x.epsilon_branch.isSome = true := by
              rw [← ass_one]; exact hsh
            obtain ⟨f2, r2, h2⟩ := ihs g2 hW2 hC2 hkm2 hN2 hs2
            obtain ⟨B, g3⟩ := r2
            obtain ⟨hE3, hm3, hW3, hF3, hsB⟩ :=
              (invPres f2).2.2.1 1 g2 tail B g3 hW2 h2
            have hsng3 : is_singleton_epsilon g3.singleton_epsilon = true := by
              rw [hW3.2.2.2.1]; rfl
            obtain ⟨aeps, aend, acl⟩ := first_x
            have hleaves : ∀ p ∈ acl, ∃ w, p.2 = HCFStringMap.mk (some w) none [] :=
              hsA
            cases aeps with
            | none => exact absurd heps (by simp [HCFStringMap.epsilon_branch])
            | some v =>
              cases aend with
              | none =>
                obtain ⟨f3, ret', hec⟩ := extendChildren_term g3 tail hsng3 acl
                  (h_stringmap_update h_stringmap_new B) hleaves
                refine ⟨max f1 (max f2 f3) + 2, (ret', g3), ?_⟩
                rw [h_first_seq_eq_cons_ext (max f1 (max f2 f3) + 1) 1 g g2 x tail
                  (HCFStringMap.mk (some v) none acl)
                  (h_first_mono_le f1 (max f1 (max f2 f3) + 1) 1 g x _
                    (by omega) hx1) hsing hsh]
                rw [first_extend_eq_eps_some (max f1 (max f2 f3)) 1 g2 g3 v none acl
                  tail h_stringmap_new B
                  (h_first_seq_mono_le f2 (max f1 (max f2 f3)) 1 g2 tail _
                    (by omega) h2)]
                exact extendChildren_mono_le f3 (max f1 (max f2 f3)) 1 g3 acl tail _ _
                  (by omega) hec
              | some w =>
                obtain ⟨f3, ret', hec⟩ := extendChildren_term g3 tail hsng3 acl
                  (h_stringmap_put_end (h_stringmap_update h_stringmap_new B) INSET)
                  hleaves
                refine ⟨max f1 (max f2 f3) + 2, (ret', g3), ?_⟩
                rw [h_first_seq_eq_cons_ext (max f1 (max f2 f3) + 1) 1 g g2 x tail
                  (HCFStringMap.mk (some v) (some w) acl)
                  (h_first_mono_le f1 (max f1 (max f2 f3) + 1) 1 g x _
                    (by omega) hx1) hsing hsh]
                rw [first_extend_eq_eps_some (max f1 (max f2 f3)) 1 g2 g3 v (some w)
                  acl tail h_stringmap_new B
                  (h_first_seq_mono_le f2 (max f1 (max f2 f3)) 1 g2 tail _
                    (by omega) h2)]
                exact extendChildren_mono_le f3 (max f1 (max f2 f3)) 1 g3 acl tail _ _
                  (by omega) hec
    have H2 : ∀ ps g x ret, WFG g → envClosed g = true → g.kmax = 1 →
        missingF g ≤ N → SMWF ret → (∀ p ∈ ps, ∀ y ∈ p, y < g.env.length) →
        htGet (firstTab g 1) x = some ret →
        ∃ fuel r, firstProds fuel 1 g x ps ret = some r := by
      intro ps
      induction ps with
      | nil =>
        exact fun g x ret _ _ _ _ _ _ _ =>
          ⟨1, (ret, g), firstProds_eq_nil 0 1 g x ret⟩
      | cons p rest ihp =>
        intro g x ret hW hC hkm hN hr hps hx
        obtain ⟨f1, r1, hseq⟩ := HJ p g hW hC hkm hN (hps p (List.mem_cons_self _ _))
        obtain ⟨fs, g2⟩ := r1
        obtain ⟨hE2, hm2, hW2, hF2, hsfs⟩ := (invPres f1).2.2.1 1 g p fs g2 hW hseq
        have hPres := (resEq f1).2.2.1 1 g p fs g2 hW hseq
        have hx2 : htGet (firstTab g2 1) x = some ret := hPres x ret hx
        obtain ⟨len2, hkm2⟩ := first_len_two_of_entry g2 hW2 x ret hx2
        have hC2 : envClosed g2 = true := by
          rw [envClosed_eq_of_env g g2 hE2.1]; exact hC
        have hlen2 : g2.env.length = g.env.length := by rw [hE2.1]
        have hN2 : missingF g2 ≤ N :=
          le_trans (missingF_le g g2 hlen2 (presMono_of_presEq hPres)) hN
        have hup : SMWF (h_stringmap_update ret fs) := SMWF_update _ _ hr hsfs
        have hWp : WFG (putFirst g2 1 x (h_stringmap_update ret fs)) :=
          WFG_putFirst g2 x _ hW2 hup
        have hCp : envClosed (putFirst g2 1 x (h_stringmap_update ret fs)) = true := by
          rw [envClosed_eq_of_env g2 (putFirst g2 1 x (h_stringmap_update ret fs)) rfl]
          exact hC2
        have hNp : missingF (putFirst g2 1 x (h_stringmap_update ret fs)) ≤ N := by
          refine le_trans (missingF_le g2 _ rfl ?_) hN2
          intro y hy
          unfold htPresent at hy ⊢
          by_cases hyx : y = x
          · subst hyx
            rw [firstTab_get_put_self g2 y _ len2]
            rfl
          · rw [firstTab_get_put_ne g2 x y _ len2 hyx]
            exact hy
        have hxp : htGet (firstTab (putFirst g2 1 x (h_stringmap_update ret fs)) 1) x
            = some (h_stringmap_update ret fs) := firstTab_get_put_self g2 x _ len2
        have hpsp : ∀ q ∈ rest, ∀ y ∈ q,
            y < (putFirst g2 1 x (h_stringmap_update ret fs)).env.length := by
          intro q hq y hy
          show y < g2.env.length
          rw [hlen2]
          exact hps q (List.mem_cons_of_mem _ hq) y hy
        obtain ⟨f2, r2, h2⟩ := ihp (putFirst g2 1 x (h_stringmap_update ret fs)) x
          (h_stringmap_update ret fs) hWp hCp hkm2 hNp hup hpsp hxp
        refine ⟨max f1 f2 + 1, r2, ?_⟩
        rw [firstProds_eq_cons_some (max f1 f2) 1 g g2 x p rest ret fs
          (h_first_seq_mono_le f1 _ 1 g p _ (le_max_left _ _) hseq)]
        exact firstProds_mono_le f2 _ 1 _ x rest _ _ (le_max_right _ _) h2
    exact ⟨H1, H2, HJ⟩


theorem lt_length_of_get?_some {α : Type} (l : List α) (n : Nat) (a : α)
    (h : l.get? n = some a) : n < l.length := by
  by_contra hcon
  rw [List.get?_eq_none.mpr (by omega)] at h
  cases h

/-- Termination of the FOLLOW side at `k = 1`, by strong induction on the
number of missing FOLLOW memo entries. -/
theorem termFollowAux : ∀ N : Nat,
    (∀ g x, WFG g → StartEndInv g → envClosed g = true → NtsChoice g →
      g.kmax = 1 → missingFol g ≤ N → x < g.env.length →
      ∃ fuel r, h_follow fuel 1 g x = some r) ∧
    (∀ l g x ret, WFG g → StartEndInv g → envClosed g = true → NtsChoice g →
      g.kmax = 1 → missingFol g ≤ N → SMWF ret →
      (∀ p ∈ l, ∃ ps, g.env.get? p.1 = some (.choice ps)) →
      (x = g.start → ret.end_branch.isSome = true) →
      htGet (followTab g 1) x = some ret →
      ∃ fuel r, followNts fuel 1 g x l ret = some r) ∧
    (∀ ps g x a ret, WFG g → StartEndInv g → envClosed g = true → NtsChoice g →
      g.kmax = 1 → missingFol g ≤ N → SMWF ret →
      (∀ p ∈ ps, ∀ y ∈ p, y < g.env.length) → a < g.env.length →
      (x = g.start → ret.end_branch.isSome = true) →
      htGet (followTab g 1) x = some ret →
      ∃ fuel r, followProds fuel 1 g x a ps ret = some r) ∧
    (∀ s g x a ret, WFG g → StartEndInv g → envClosed g = true → NtsChoice g →
      g.kmax = 1 → missingFol g ≤ N → SMWF ret →
      (∀ y ∈ s, y < g.env.length) → a < g.env.length →
      (x = g.start → ret.end_branch.isSome = true) →
      htGet (followTab g 1) x = some ret →
      ∃ fuel r, followOcc fuel 1 g x a s ret = some r) ∧
    (∀ as a ret g, WFG g → StartEndInv g → envClosed g = true → NtsChoice g →
      g.kmax = 1 → missingFol g ≤ N → SMWF as → a < g.env.length →
      ∃ fuel r, stringset_extend fuel 1 g as a ret = some r) := by
  intro N
  induction N using Nat.strong_induction_on with
  | _ N ih =>
    have H1 : ∀ g x, WFG g → StartEndInv g → envClosed g = true → NtsChoice g →
        g.kmax = 1 → missingFol g ≤ N → x < g.env.length →
        ∃ fuel r, h_follow fuel 1 g x = some r := by
      intro g x hW hS hC hNt hkm hN hx
      have hens : ensure_k g 1 = some g := ensure_k_id g (by omega)
      cases hget : htGet (followTab g 1) x with
      | some m => exact ⟨1, (m, g), h_follow_eq_hit 0 1 g g x m one_ne_zero hens hget⟩
      | none =>
        have len2 : g.follow.length = 2 := (hW.2.2.1 hkm).2
        have len2' : (putFollow g 1 x h_stringmap_new).follow.length = 2 := by
          rw [putFollow_follow_length]; exact len2
        by_cases hx0 : x = g.start
        · have hdec : missingFol (putFollow (putFollow g 1 x h_stringmap_new) 1 x
              (h_stringmap_put_end h_stringmap_new INSET)) < missingFol g :=
            missingFol_putFollow2_lt g x h_stringmap_new _ hx len2 hget
          have hWG3 : WFG (putFollow (putFollow g 1 x h_stringmap_new) 1 x
              (h_stringmap_put_end h_stringmap_new INSET)) :=
            WFG_putFollow _ x _ (WFG_putFollow g x _ hW SMWF_new)
              (SMWF_put_end _ _ SMWF_new)
          have hSG3 : StartEndInv (putFollow (putFollow g 1 x h_stringmap_new) 1 x
              (h_stringmap_put_end h_stringmap_new INSET)) :=
            SEI_double_putFollow g x _ len2 hS (fun _ => rfl)
          have hxG3 : htGet (followTab (putFollow (putFollow g 1 x h_stringmap_new)
              1 x (h_stringmap_put_end h_stringmap_new INSET)) 1) x
              = some (h_stringmap_put_end h_stringmap_new INSET) :=
            followTab_get_put_self _ x _ len2'
          obtain ⟨f, r, hrun⟩ :=
            (ih _ (by omega)).2.1 g.nts
              (putFollow (putFollow g 1 x h_stringmap_new) 1 x
                (h_stringmap_put_end h_stringmap_new INSET)) x
              (h_stringmap_put_end h_stringmap_new INSET)
              hWG3 hSG3 hC hNt hkm (le_refl _) (SMWF_put_end _ _ SMWF_new)
              hNt (fun _ => rfl) hxG3
          refine ⟨f + 1, r, ?_⟩
          rw [h_follow_eq_miss f 1 g g x one_ne_zero hens hget, if_pos hx0]
          exact hrun
        · have hdec : missingFol (putFollow (putFollow g 1 x h_stringmap_new) 1 x
              h_stringmap_new) < missingFol g :=
            missingFol_putFollow2_lt g x h_stringmap_new _ hx len2 hget
          have hWG3 : WFG (putFollow (putFollow g 1 x h_stringmap_new) 1 x
              h_stringmap_new) :=
            WFG_putFollow _ x _ (WFG_putFollow g x _ hW SMWF_new) SMWF_new
          have hSG3 : StartEndInv (putFollow (putFollow g 1 x h_stringmap_new) 1 x
              h_stringmap_new) :=
            SEI_double_putFollow g x _ len2 hS (fun hxx => absurd hxx hx0)
          have hxG3 : htGet (followTab (putFollow (putFollow g 1 x h_stringmap_new)
              1 x h_stringmap_new) 1) x = some h_stringmap_new :=
            followTab_get_put_self _ x _ len2'
          obtain ⟨f, r, hrun⟩ :=
            (ih _ (by omega)).2.1 g.nts
              (putFollow (putFollow g 1 x h_stringmap_new) 1 x h_stringmap_new) x
              h_stringmap_new
              hWG3 hSG3 hC hNt hkm (le_refl _) SMWF_new
              hNt (fun hxx => absurd hxx hx0) hxG3
          refine ⟨f + 1, r, ?_⟩
          rw [h_follow_eq_miss f 1 g g x one_ne_zero hens hget, if_neg hx0]
          exact hrun
    have H5 : ∀ as a ret g, WFG g → StartEndInv g → envClosed g = true →
        NtsChoice g → g.kmax = 1 → missingFol g ≤ N → SMWF as →
        a < g.env.length →
        ∃ fuel r, stringset_extend fuel 1 g as a ret = some r := by
      intro as a ret g hW hS hC hNt hkm hN hsas ha
      obtain ⟨aeps, aend, acl⟩ := as
      have hleaves : ∀ p ∈ acl, ∃ w, p.2 = HCFStringMap.mk (some w) none [] := hsas
      have hsng : is_singleton_epsilon g.singleton_epsilon = true := by
        rw [hW.2.2.2.1]; rfl
      cases aeps with
      | none =>
        cases aend with
        | none =>
          obtain ⟨f, ret', hsc⟩ := sseChildren_term g a hsng acl ret hleaves
          refine ⟨f + 1, (ret', g), ?_⟩
          rw [stringset_extend_eq_no_eps f 1 g none acl a ret]
          exact hsc
        | some w =>
          obtain ⟨f, ret', hsc⟩ := sseChildren_term g a hsng acl
            (h_stringmap_put_end ret INSET) hleaves
          refine ⟨f + 1, (ret', g), ?_⟩
          rw [stringset_extend_eq_no_eps f 1 g (some w) acl a ret]
          exact hsc
      | some v =>
        obtain ⟨f1, r1, hfol⟩ := H1 g a hW hS hC hNt hkm hN ha
        obtain ⟨fs, g2⟩ := r1
        obtain ⟨hE2, hm2, hW2, hS2, hsfs, _⟩ :=
          (invPres f1).2.2.2.2.2.1 1 g a fs g2 hW hS hfol
        have hsng2 : is_singleton_epsilon g2.singleton_epsilon = true := by
          rw [hW2.2.2.2.1]; rfl
        cases aend with
        | none =>
          obtain ⟨f2, ret', hsc⟩ := sseChildren_term g2 a hsng2 acl
            (h_stringmap_update ret fs) hleaves
          refine ⟨max f1 f2 + 1, (ret', g2), ?_⟩
          rw [stringset_extend_eq_eps_some (max f1 f2) 1 g g2 v none acl a ret fs
            (h_follow_mono_le f1 _ 1 g a _ (le_max_left _ _) hfol)]
          exact sseChildren_mono_le f2 _ 1 g2 acl a _ _ (le_max_right _ _) hsc
        | some w =>
          obtain ⟨f2, ret', hsc⟩ := sseChildren_term g2 a hsng2 acl
            (h_stringmap_put_end (h_stringmap_update ret fs) INSET) hleaves
          refine ⟨max f1 f2 + 1, (ret', g2), ?_⟩
          rw [stringset_extend_eq_eps_some (max f1 f2) 1 g g2 v (some w) acl a ret fs
            (h_follow_mono_le f1 _ 1 g a _ (le_max_left _ _) hfol)]
          exact sseChildren_mono_le f2 _ 1 g2 acl a _ _ (le_max_right _ _) hsc
    have H4 : ∀ s g x a ret, WFG g → StartEndInv g → envClosed g = true →
        NtsChoice g → g.kmax = 1 → missingFol g ≤ N → SMWF ret →
        (∀ y ∈ s, y < g.env.length) → a < g.env.length →
        (x = g.start → ret.end_branch.isSome = true) →
        htGet (followTab g 1) x = some ret →
        ∃ fuel r, followOcc fuel 1 g x a s ret = some r := by
      intro s
      induction s with
      | nil =>
        exact fun g x a ret _ _ _ _ _ _ _ _ _ _ _ =>
          ⟨1, (ret, g), followOcc_eq_nil 0 1 g x a ret⟩
      | cons y0 tail ihs =>
        intro g x a ret hW hS hC hNt hkm hN hr hs ha hfr hx
        by_cases hy0 : y0 = x
        · subst hy0
          obtain ⟨f1, r1, hseq⟩ := (termFirstAux (missingF g)).2.2 tail g hW hC hkm
            (le_refl _) (fun y hy => hs y (List.mem_cons_of_mem _ hy))
          obtain ⟨ft, g2⟩ := r1
          obtain ⟨hE2, hm2, hW2, hF2, hsft⟩ :=
            (invPres f1).2.2.1 1 g tail ft g2 hW hseq
          have hS2 : StartEndInv g2 := SEI_transport g g2 hE2 hF2 hS
          have hC2 : envClosed g2 = true := by
            rw [envClosed_eq_of_env g g2 hE2.1]; exact hC
          have hNt2 : NtsChoice g2 := NtsChoice_transport g g2 hE2 hNt
          have hkm2 : g2.kmax = 1 := by
            have := hW2.1; omega
          have hlen2 : g2.env.length = g.env.length := by rw [hE2.1]
          have hN2 : missingFol g2 ≤ N := by
            refine le_trans (missingFol_le g g2 hlen2 ?_) hN
            exact presMono_of_presEq (fun y m hy => by rw [hF2 1 y]; exact hy)
          have hx2 : htGet (followTab g2 1) y0 = some ret := by
            rw [hF2 1 y0]; exact hx
          obtain ⟨f2, r2, hsse⟩ := H5 ft a ret g2 hW2 hS2 hC2 hNt2 hkm2 hN2 hsft
            (by rw [hlen2]; exact ha)
          obtain ⟨ret2, g3⟩ := r2
          obtain ⟨hE3, hm3, hW3, hS3, hsr2, hem⟩ :=
            (invPres f2).2.2.2.2.2.2.2.2.2.1 1 g2 ft a ret ret2 g3 hW2 hS2 hr hsse
          have hPres10 := (resEq f2).2.2.2.2.2.2.2.2.2.1 1 g2 ft a ret ret2 g3
            hW2 hS2 hr hsse
          have hkm3 : g3.kmax = 1 := by
            have := hW3.1; omega
          have hlen3f : g3.follow.length = 2 := (hW3.2.2.1 hkm3).2
          have hC3 : envClosed g3 = true := by
            rw [envClosed_eq_of_env g2 g3 hE3.1]; exact hC2
          have hNt3 : NtsChoice g3 := NtsChoice_transport g2 g3 hE3 hNt2
          have hlen3 : g3.env.length = g2.env.length := by rw [hE3.1]
          have hN3 : missingFol g3 ≤ N :=
            le_trans (missingFol_le g2 g3 hlen3 (presMono_of_presEq hPres10)) hN2
          have hx3 : htGet (followTab g3 1) y0 = some ret := hPres10 y0 ret hx2
          have hfr3 : y0 = g3.start → ret2.end_branch.isSome = true := by
            intro hxx
            exact hem (hfr ((hxx.trans hE3.2.1).trans hE2.2.1))
          have hW4 : WFG (putFollow g3 1 y0 ret2) := WFG_putFollow g3 y0 ret2 hW3 hsr2
          have hS4 : StartEndInv (putFollow g3 1 y0 ret2) :=
            SEI_putFollow g3 y0 ret2 hlen3f hS3 hfr3
          have hx4 : htGet (followTab (putFollow g3 1 y0 ret2) 1) y0 = some ret2 :=
            followTab_get_put_self g3 y0 ret2 hlen3f
          have hN4 : missingFol (putFollow g3 1 y0 ret2) ≤ N := by
            refine le_trans (missingFol_le g3 _ rfl ?_) hN3
            intro y hy
            unfold htPresent at hy ⊢
            by_cases hyx : y = y0
            · subst hyx
              rw [followTab_get_put_self g3 y ret2 hlen3f]
              rfl
            · rw [followTab_get_put_ne g3 y0 y ret2 hlen3f hyx]
              exact hy
          obtain ⟨f3, r3, h3⟩ := ihs (putFollow g3 1 y0 ret2) y0 a ret2 hW4 hS4
            (by rw [envClosed_eq_of_env g3 (putFollow g3 1 y0 ret2) rfl]; exact hC3)
            (NtsChoice_transport g3 _ ⟨rfl, rfl, rfl, rfl, rfl⟩ hNt3)
            hkm3 hN4 hsr2
            (by intro y hy
                show y < g3.env.length
                rw [hlen3, hlen2]
                exact hs y (List.mem_cons_of_mem _ hy))
            (by show a < g3.env.length
                rw [hlen3, hlen2]
                exact ha)
            hfr3 hx4
          refine ⟨max f1 (max f2 f3) + 1, r3, ?_⟩
          rw [followOcc_eq_cons_sse_some (max f1 (max f2 f3)) 1 g g2 g3 y0 a tail
            ret ft ret2
            (h_first_seq_mono_le f1 _ 1 g tail _ (by omega) hseq)
            (stringset_extend_mono_le f2 _ 1 g2 ft a ret _ (by omega) hsse)]
          exact followOcc_mono_le f3 _ 1 _ y0 a tail ret2 r3 (by omega) h3
        · obtain ⟨f, r, h⟩ := ihs g x a ret hW hS hC hNt hkm hN hr
            (fun y hy => hs y (List.mem_cons_of_mem _ hy)) ha hfr hx
          refine ⟨f + 1, r, ?_⟩
          rw [followOcc_eq_cons_skip f 1 g x a y0 tail ret hy0]
          exact h
    have H3 : ∀ ps g x a ret, WFG g → StartEndInv g → envClosed g = true →
        NtsChoice g → g.kmax = 1 → missingFol g ≤ N → SMWF ret →
        (∀ p ∈ ps, ∀ y ∈ p, y < g.env.length) → a < g.env.length →
        (x = g.start → ret.end_branch.isSome = true) →
        htGet (followTab g 1) x = some ret →
        ∃ fuel r, followProds fuel 1 g x a ps ret = some r := by
      intro ps
      induction ps with
      | nil =>
        exact fun g x a ret _ _ _ _ _ _ _ _ _ _ _ =>
          ⟨1, (ret, g), followProds_eq_nil 0 1 g x a ret⟩
      | cons p rest ihp =>
        intro g x a ret hW hS hC hNt hkm hN hr hps ha hfr hx
        obtain ⟨f1, r1, ho⟩ := H4 p g x a ret hW hS hC hNt hkm hN hr
          (hps p (List.mem_cons_self _ _)) ha hfr hx
        obtain ⟨ret2, g2⟩ := r1
        obtain ⟨hE2, hm2, hW2, hS2, hsr2, hfr2⟩ :=
          (invPres f1).2.2.2.2.2.2.2.2.1 1 g x a p ret ret2 g2 rfl hkm hW hS hr hfr ho
        obtain ⟨hQ1, hQ2⟩ := (resEq f1).2.2.2.2.2.2.2.2.1 g x a p ret ret2 g2
          hkm hW hS hr hfr hx ho
        have hC2 : envClosed g2 = true := by
          rw [envClosed_eq_of_env g g2 hE2.1]; exact hC
        have hNt2 : NtsChoice g2 := NtsChoice_transport g g2 hE2 hNt
        have hkm2 : g2.kmax = 1 := by
          have := hW2.1; omega
        have hlen2 : g2.env.length = g.env.length := by rw [hE2.1]
        have hN2 : missingFol g2 ≤ N :=
          le_trans (missingFol_le g g2 hlen2 (presMono_of_presEqX hQ1 hQ2)) hN
        obtain ⟨f2, r2, h2⟩ := ihp g2 x a ret2 hW2 hS2 hC2 hNt2 hkm2 hN2 hsr2
          (by intro q hq y hy
              rw [hlen2]
              exact hps q (List.mem_cons_of_mem _ hq) y hy)
          (by rw [hlen2]; exact ha)
          (fun hxx => hfr2 (hxx.trans hE2.2.1)) hQ2
        refine ⟨max f1 f2 + 1, r2, ?_⟩
        rw [followProds_eq_cons_some (max f1 f2) 1 g g2 x a p rest ret ret2
          (followOcc_mono_le f1 _ 1 g x a p ret _ (le_max_left _ _) ho)]
        exact followProds_mono_le f2 _ 1 g2 x a rest ret2 r2 (le_max_right _ _) h2
    have H2 : ∀ l g x ret, WFG g → StartEndInv g → envClosed g = true →
        NtsChoice g → g.kmax = 1 → missingFol g ≤ N → SMWF ret →
        (∀ p ∈ l, ∃ ps, g.env.get? p.1 = some (.choice ps)) →
        (x = g.start → ret.end_branch.isSome = true) →
        htGet (followTab g 1) x = some ret →
        ∃ fuel r, followNts fuel 1 g x l ret = some r := by
      intro l
      induction l with
      | nil =>
        exact fun g x ret _ _ _ _ _ _ _ _ _ _ =>
          ⟨1, (ret, g), followNts_eq_nil 0 1 g x ret⟩
      | cons p rest ihl =>
        intro g x ret hW hS hC hNt hkm hN hr hl hfr hx
        obtain ⟨a, v⟩ := p
        obtain ⟨ps, hps⟩ := hl (a, v) (List.mem_cons_self _ _)
        have hps' : g.env.get? a = some (.choice ps) := hps
        have ha : a < g.env.length := lt_length_of_get?_some g.env a _ hps'
        obtain ⟨f1, r1, hp⟩ := H3 ps g x a ret hW hS hC hNt hkm hN hr
          (envClosed_spec g a ps hC hps') ha hfr hx
        obtain ⟨ret2, g2⟩ := r1
        obtain ⟨hE2, hm2, hW2, hS2, hsr2, hfr2⟩ :=
          (invPres f1).2.2.2.2.2.2.2.1 1 g x a ps ret ret2 g2 rfl hkm hW hS hr hfr hp
        obtain ⟨hQ1, hQ2⟩ := (resEq f1).2.2.2.2.2.2.2.1 g x a ps ret ret2 g2
          hkm hW hS hr hfr hx hp
        have hC2 : envClosed g2 = true := by
          rw [envClosed_eq_of_env g g2 hE2.1]; exact hC
        have hNt2 : NtsChoice g2 := NtsChoice_transport g g2 hE2 hNt
        have hkm2 : g2.kmax = 1 := by
          have := hW2.1; omega
        have hlen2 : g2.env.length = g.env.length := by rw [hE2.1]
        have hN2 : missingFol g2 ≤ N :=
          le_trans (missingFol_le g g2 hlen2 (presMono_of_presEqX hQ1 hQ2)) hN
        obtain ⟨f2, r2, h2⟩ := ihl g2 x ret2 hW2 hS2 hC2 hNt2 hkm2 hN2 hsr2
          (by intro q hq
              obtain ⟨qs, hqs⟩ := hl q (List.mem_cons_of_mem _ hq)
              exact ⟨qs, by rw [hE2.1]; exact hqs⟩)
          (fun hxx => hfr2 (hxx.trans hE2.2.1)) hQ2
        refine ⟨max f1 f2 + 1, r2, ?_⟩
        rw [followNts_eq_cons_some (max f1 f2) 1 g g2 x a v ps rest ret ret2 hps'
          (followProds_mono_le f1 _ 1 g x a ps ret _ (le_max_left _ _) hp)]
        exact followNts_mono_le f2 _ 1 g2 x rest ret2 r2 (le_max_right _ _) h2
    exact ⟨H1, H2, H3, H4, H5⟩


theorem h_first_ensure_shift (fuel : Nat) (g gR : HCFGrammar) (x : Nat)
    (hens : ensure_k g 1 = some gR) :
    h_first (fuel + 1) 1 g x = h_first (fuel + 1) 1 gR x := by
  have hkR : 1 ≤ gR.kmax := by
    rcases ensure_k_cases g gR 1 hens with ⟨hk, hg⟩ | ⟨_, _, hg⟩
    · rw [hg]; exact hk
    · rw [hg]
  have hensR : ensure_k gR 1 = some gR := ensure_k_id gR hkR
  cases hget : htGet (firstTab gR 1) x with
  | some m =>
    rw [h_first_eq_hit fuel 1 g gR x m one_ne_zero hens hget,
      h_first_eq_hit fuel 1 gR gR x m one_ne_zero hensR hget]
  | none =>
    cases henv : gR.env.get? x with
    | none =>
      rw [h_first_eq_env_none fuel 1 g gR x one_ne_zero hens hget henv,
        h_first_eq_env_none fuel 1 gR gR x one_ne_zero hensR hget henv]
    | some d =>
      cases d with
      | hend =>
        rw [h_first_eq_hend fuel 1 g gR x one_ne_zero hens hget henv,
          h_first_eq_hend fuel 1 gR gR x one_ne_zero hensR hget henv]
      | char c =>
        rw [h_first_eq_char fuel 1 g gR x c one_ne_zero hens hget henv,
          h_first_eq_char fuel 1 gR gR x c one_ne_zero hensR hget henv]
      | charset cs =>
        rw [h_first_eq_charset fuel 1 g gR x cs one_ne_zero hens hget henv,
          h_first_eq_charset fuel 1 gR gR x cs one_ne_zero hensR hget henv]
      | choice ps =>
        rw [h_first_eq_choice fuel 1 g gR x ps one_ne_zero hens hget henv,
          h_first_eq_choice fuel 1 gR gR x ps one_ne_zero hensR hget henv]

theorem h_follow_ensure_shift (fuel : Nat) (g gR : HCFGrammar) (x : Nat)
    (hens : ensure_k g 1 = some gR) :
    h_follow (fuel + 1) 1 g x = h_follow (fuel + 1) 1 gR x := by
  have hkR : 1 ≤ gR.kmax := by
    rcases ensure_k_cases g gR 1 hens with ⟨hk, hg⟩ | ⟨_, _, hg⟩
    · rw [hg]; exact hk
    · rw [hg]
  have hensR : ensure_k gR 1 = some gR := ensure_k_id gR hkR
  cases hget : htGet (followTab gR 1) x with
  | some m =>
    rw [h_follow_eq_hit fuel 1 g gR x m one_ne_zero hens hget,
      h_follow_eq_hit fuel 1 gR gR x m one_ne_zero hensR hget]
  | none =>
    rw [h_follow_eq_miss fuel 1 g gR x one_ne_zero hens hget,
      h_follow_eq_miss fuel 1 gR gR x one_ne_zero hensR hget]

/-- C3: at `k = 1` the memoized FIRST/FOLLOW engines terminate on every
well-formed grammar, cyclic ones included (nothing below restricts the
shape of the productions): some finite fuel — standing in for the C call
stack — completes the computation.  An empty placeholder set is stored in
the memo table under the key before any recursion; a reentrant call on a
key whose entry exists returns exactly the stored set with the grammar
state unchanged (no recomputation); and after a completed computation the
memo entry equals the returned set, so a later top-level call returns the
identical memoized set, again without recomputation. -/
theorem claim_memo_termination (g : HCFGrammar) (x : Nat)
    (hW : WFG g) (hS : StartEndInv g) (hC : envClosed g = true)
    (hNt : NtsChoice g) (hx : x < g.env.length) :
    ((∃ fuel r, h_first fuel 1 g x = some r) ∧
      (∃ fuel r, h_follow fuel 1 g x = some r)) ∧
    (∀ fuel ps, g.kmax = 1 → htGet (firstTab g 1) x = none →
      g.env.get? x = some (.choice ps) →
      h_first (fuel + 1) 1 g x
          = firstProds fuel 1 (putFirst g 1 x h_stringmap_new) x ps h_stringmap_new ∧
        htGet (firstTab (putFirst g 1 x h_stringmap_new) 1) x
          = some h_stringmap_new) ∧
    (∀ fuel, g.kmax = 1 → htGet (followTab g 1) x = none →
      h_follow (fuel + 1) 1 g x
          = followNts fuel 1
              (putFollow (putFollow g 1 x h_stringmap_new) 1 x
                (if x = g.start then h_stringmap_put_end h_stringmap_new INSET
                 else h_stringmap_new))
              x g.nts
              (if x = g.start then h_stringmap_put_end h_stringmap_new INSET
               else h_stringmap_new) ∧
        htGet (followTab (putFollow (putFollow g 1 x h_stringmap_new) 1 x
            (if x = g.start then h_stringmap_put_end h_stringmap_new INSET
             else h_stringmap_new)) 1) x
          = some (if x = g.start then h_stringmap_put_end h_stringmap_new INSET
              else h_stringmap_new)) ∧
    (∀ fuel m, g.kmax = 1 → htGet (firstTab g 1) x = some m →
      h_first (fuel + 1) 1 g x = some (m, g)) ∧
    (∀ fuel m, g.kmax = 1 → htGet (followTab g 1) x = some m →
      h_follow (fuel + 1) 1 g x = some (m, g)) ∧
    (∀ fuel A g', h_first fuel 1 g x = some (A, g') →
      htGet (firstTab g' 1) x = some A ∧
        ∀ fuel2, h_first (fuel2 + 1) 1 g' x = some (A, g')) ∧
    (∀ fuel ret g', h_follow fuel 1 g x = some (ret, g') →
      htGet (followTab g' 1) x = some ret ∧
        ∀ fuel2, h_follow (fuel2 + 1) 1 g' x = some (ret, g')) := by
  refine ⟨?_, ?_, ?_, ?_, ?_, ?_, ?_⟩
  · -- termination
    by_cases hkm1 : g.kmax = 1
    · constructor
      · obtain ⟨f, r, h⟩ := (termFirstAux (missingF g)).1 g x hW hC hkm1 (le_refl _) hx
        exact ⟨f, r, h⟩
      · obtain ⟨f, r, h⟩ := (termFollowAux (missingFol g)).1 g x hW hS hC hNt hkm1
          (le_refl _) hx
        exact ⟨f, r, h⟩
    · have hkm0 : g.kmax = 0 := by
        have := hW.1; omega
      cases hens : ensure_k g 1 with
      | none =>
        unfold ensure_k at hens
        rw [if_neg (by omega), if_pos rfl] at hens
        cases hens
      | some gR =>
        obtain ⟨hWR, hER, hmR, hFR, hk1R⟩ := WFG_ensure g gR 1 hW hens
        obtain ⟨_, hkmR⟩ := hk1R one_ne_zero
        have hSR : StartEndInv gR := SEI_transport g gR hER hFR hS
        have hCR : envClosed gR = true := by
          rw [envClosed_eq_of_env g gR hER.1]; exact hC
        have hNtR : NtsChoice gR := NtsChoice_transport g gR hER hNt
        have hxR : x < gR.env.length := by
          rw [hER.1]; exact hx
        constructor
        · obtain ⟨f, r, h⟩ := (termFirstAux _).1 gR x hWR hCR hkmR (le_refl _) hxR
          cases f with
          | zero => cases h
          | succ f' =>
            exact ⟨f' + 1, r, by rw [h_first_ensure_shift f' g gR x hens]; exact h⟩
        · obtain ⟨f, r, h⟩ := (termFollowAux _).1 gR x hWR hSR hCR hNtR hkmR
            (le_refl _) hxR
          cases f with
          | zero => cases h
          | succ f' =>
            exact ⟨f' + 1, r, by rw [h_follow_ensure_shift f' g gR x hens]; exact h⟩
  · -- FIRST placeholder before recursion
    intro fuel ps hkm hget henv
    have hens : ensure_k g 1 = some g := ensure_k_id g (by omega)
    have len2 : g.first.length = 2 := (hW.2.2.1 hkm).1
    exact ⟨h_first_eq_choice fuel 1 g g x ps one_ne_zero hens hget henv,
      firstTab_get_put_self g x _ len2⟩
  · -- FOLLOW placeholder before recursion
    intro fuel hkm hget
    have hens : ensure_k g 1 = some g := ensure_k_id g (by omega)
    have len2 : g.follow.length = 2 := (hW.2.2.1 hkm).2
    have len2' : (putFollow g 1 x h_stringmap_new).follow.length = 2 := by
      rw [putFollow_follow_length]; exact len2
    exact ⟨h_follow_eq_miss fuel 1 g g x one_ne_zero hens hget,
      followTab_get_put_self _ x _ len2'⟩
  · -- FIRST reentrant call: stored set, unchanged state
    intro fuel m hkm hget
    exact h_first_eq_hit fuel 1 g g x m one_ne_zero (ensure_k_id g (by omega)) hget
  · -- FOLLOW reentrant call
    intro fuel m hkm hget
    exact h_follow_eq_hit fuel 1 g g x m one_ne_zero (ensure_k_id g (by omega)) hget
  · -- FIRST: completed result is memoized; later calls return it unchanged
    intro fuel A g' hrun
    have hentry := ((resEq fuel).1 1 g x A g' hW hrun).2 one_ne_zero
    obtain ⟨hE', hm', hW', hF', hsA⟩ := (invPres fuel).1 1 g x A g' hW hrun
    obtain ⟨_, hkm'⟩ := first_len_two_of_entry g' hW' x A hentry
    refine ⟨hentry, fun fuel2 => ?_⟩
    exact h_first_eq_hit fuel2 1 g' g' x A one_ne_zero
      (ensure_k_id g' (by omega)) hentry
  · -- FOLLOW: completed result is memoized; later calls return it unchanged
    intro fuel ret g' hrun
    have hentry := ((resEq fuel).2.2.2.2.2.1 1 g x ret g' hW hS hrun).2 one_ne_zero
    obtain ⟨hE', hm', hW', hS', hsr, _⟩ :=
      (invPres fuel).2.2.2.2.2.1 1 g x ret g' hW hS hrun
    obtain ⟨_, hkm'⟩ := follow_len_two_of_entry g' hW' x ret hentry
    refine ⟨hentry, fun fuel2 => ?_⟩
    exact h_follow_eq_hit fuel2 1 g' g' x ret one_ne_zero
      (ensure_k_id g' (by omega)) hentry

theorem NtsChoice_g_aSb : NtsChoice g_aSb := by
  intro p hp
  have hp' : p ∈ [((0 : Nat), (0 : Nat))] := hp
  rw [List.mem_singleton] at hp'
  subst hp'
  exact ⟨[[1, 0, 2], []], rfl⟩

theorem claim_memo_termination_witness :
    ((∃ fuel r, h_first fuel 1 g_aSb 0 = some r) ∧
      (∃ fuel r, h_follow fuel 1 g_aSb 0 = some r)) ∧
    (∀ fuel ps, g_aSb.kmax = 1 → htGet (firstTab g_aSb 1) 0 = none →
      g_aSb.env.get? 0 = some (.choice ps) →
      h_first (fuel + 1) 1 g_aSb 0
          = firstProds fuel 1 (putFirst g_aSb 1 0 h_stringmap_new) 0 ps
              h_stringmap_new ∧
        htGet (firstTab (putFirst g_aSb 1 0 h_stringmap_new) 1) 0
          = some h_stringmap_new) ∧
    (∀ fuel, g_aSb.kmax = 1 → htGet (followTab g_aSb 1) 0 = none →
      h_follow (fuel + 1) 1 g_aSb 0
          = followNts fuel 1
              (putFollow (putFollow g_aSb 1 0 h_stringmap_new) 1 0
                (if 0 = g_aSb.start then h_stringmap_put_end h_stringmap_new INSET
                 else h_stringmap_new))
              0 g_aSb.nts
              (if 0 = g_aSb.start then h_stringmap_put_end h_stringmap_new INSET
               else h_stringmap_new) ∧
        htGet (followTab (putFollow (putFollow g_aSb 1 0 h_stringmap_new) 1 0
            (if 0 = g_aSb.start then h_stringmap_put_end h_stringmap_new INSET
             else h_stringmap_new)) 1) 0
          = some (if 0 = g_aSb.start then h_stringmap_put_end h_stringmap_new INSET
              else h_stringmap_new)) ∧
    (∀ fuel m, g_aSb.kmax = 1 → htGet (firstTab g_aSb 1) 0 = some m →
      h_first (fuel + 1) 1 g_aSb 0 = some (m, g_aSb)) ∧
    (∀ fuel m, g_aSb.kmax = 1 → htGet (followTab g_aSb 1) 0 = some m →
      h_follow (fuel + 1) 1 g_aSb 0 = some (m, g_aSb)) ∧
    (∀ fuel A g', h_first fuel 1 g_aSb 0 = some (A, g') →
      htGet (firstTab g' 1) 0 = some A ∧
        ∀ fuel2, h_first (fuel2 + 1) 1 g' 0 = some (A, g')) ∧
    (∀ fuel ret g', h_follow fuel 1 g_aSb 0 = some (ret, g') →
      htGet (followTab g' 1) 0 = some ret ∧
        ∀ fuel2, h_follow (fuel2 + 1) 1 g' 0 = some (ret, g')) :=
  claim_memo_termination g_aSb 0 WFG_g_aSb SEI_g_aSb (by decide)
    NtsChoice_g_aSb (by decide)

end CFG
